import Mathlib

/-!
# xrepo: chunked AES-GCM framing, transform pipeline, repository names, worker pool

A shallow embedding of `pkg/crypt/aesgcm`, `pkg/codec`, `pkg/pipe`, `pkg/ioutils`,
`pkg/repo`, `pkg/boot` (with the constants of `config`) and `pkg/concur`.

Modelling conventions.

* A byte is a `Fin 256`, a byte slice is a `List Byte`, a Go string is a `List Char`.
* The collaborators that are not part of the repository (Argon2id, AES, GCM, the random
  source, gzip and zstd, the storage backend) are parameters: an `AEAD` value stands for
  `cipher.AEAD`, an `Env` for key derivation and `crypto/rand`.
* An `io.Reader` is described by what its consumer can observe: the bytes it still
  delivers and the error that ends it (`Source`).
* `uint64` counters are naturals reduced modulo `2 ^ 64`.
* Goroutines are run one step at a time under a scheduler given as a sequence of
  numbers; a property of the concurrent code is proved for every scheduler.
* `pkg/repo` imports its pipeline, codec, crypter and closer packages from the module
  `streamcrypt`; the packages of the same names under `pkg/` are the ones embedded here.
-/

namespace XRepo

/-! ## Bytes, errors, readers and writers -/

abbrev Byte := Fin 256

abbrev Bytes := List Byte

/-- Go errors that the code distinguishes: the two sentinels of package `io`, and
errors made with `errors.New` or coming from a collaborator, known by their message. -/
inductive Err where
  | EOF
  | ErrUnexpectedEOF
  | msg (s : String)
deriving DecidableEq, Repr

/-- An `io.Reader` as its consumer observes it: `data` are the bytes it still delivers,
`term` is the error every read returns once they are used up (`io.EOF` for a reader
that simply ends). -/
structure Source where
  data : Bytes
  term : Err
deriving DecidableEq, Repr

/-- The reader `bytes.NewReader(b)`. -/
def bytesReader (b : Bytes) : Source := { data := b, term := Err.EOF }

/-- `io.ReadFull(r, buf)` with `len(buf) = k`: the reader afterwards, the bytes placed in
`buf` (so `n` is their number) and the error. With fewer than `k` bytes left everything
is consumed and the error is `io.EOF` when nothing was read, `io.ErrUnexpectedEOF` when
the reader ended after some bytes, and the reader's own error otherwise. -/
def ReadFull (r : Source) (k : Nat) : Source × Bytes × Option Err :=
  if k ≤ r.data.length then
    ({ r with data := r.data.drop k }, r.data.take k, none)
  else
    ({ r with data := [] }, r.data,
      some (if r.term = Err.EOF then
              (if r.data.length = 0 then Err.EOF else Err.ErrUnexpectedEOF)
            else r.term))

/-- An `io.Writer` that collects what is written. `room = none` is a writer that accepts
every write; `room = some k` accepts `k` more bytes and fails the write that exceeds
them. -/
structure Sink where
  out : Bytes
  room : Option Nat
deriving DecidableEq, Repr

/-- The error of a sink that is full. -/
def errSinkFull : Err := Err.msg "write failed"

/-- One `w.Write(p)` on a sink. -/
def Sink.Write (w : Sink) (p : Bytes) : Sink × Option Err :=
  match w.room with
  | none => ({ w with out := w.out ++ p }, none)
  | some k =>
    if p.length ≤ k then ({ out := w.out ++ p, room := some (k - p.length) }, none)
    else ({ out := w.out ++ p.take k, room := some 0 }, some errSinkFull)

/-- A sink that is empty and never fails (`bytes.Buffer`). -/
def Sink.buffer : Sink := { out := [], room := none }

/-! ## `pkg/crypt/aesgcm`: constants and collaborators -/

def chunkSize : Nat := 64 * 1024

def nonceSize : Nat := 12

def saltSize : Nat := 16

def keySize : Nat := 32

/-- The bytes of the string `"AEADv1"`. -/
def headerPrefix : Bytes := [65, 69, 65, 68, 118, 49]

/-- A `cipher.AEAD` used with no destination prefix and no associated data:
`Seal nonce plaintext` is `aead.Seal(nil, nonce, plaintext, nil)` and `Open nonce
ciphertext` is `aead.Open(nil, nonce, ciphertext, nil)`, `none` when it returns an
error. -/
structure AEAD where
  Overhead : Nat
  Seal : Bytes → Bytes → Bytes
  Open : Bytes → Bytes → Option Bytes

/-- What the code relies on from an AEAD: a sealed text is longer than the plaintext by
the overhead, and opens to the plaintext under the nonce that sealed it. -/
structure AEAD.Lawful (a : AEAD) : Prop where
  length_Seal : ∀ nonce p, (a.Seal nonce p).length = p.length + a.Overhead
  Open_Seal : ∀ nonce p, a.Open nonce (a.Seal nonce p) = some p

/-- The collaborators of the crypter. `newAEAD password salt` is the AEAD that
`cipher.NewGCM(aes.NewCipher(GeneratePBEKey(password, salt)))` builds (neither call
fails on a 32-byte key), `rand` is the result of `GenerateRandomNBytes(saltSize)`. -/
structure Env where
  newAEAD : String → Bytes → AEAD
  rand : Except Err Bytes

/-- The cryptographic calls a function makes, in order. -/
inductive CryptoOp where
  | IDKey (password : String) (salt : Bytes)
  | NewCipher
  | NewGCM
deriving DecidableEq, Repr

structure ChunkedGCMCrypter where
  Password : String
deriving DecidableEq, Repr

/-- `binary.BigEndian.PutUint64`: the eight bytes of `v`, most significant first. -/
def be64 (v : Nat) : Bytes :=
  [Fin.ofNat (v / 2 ^ 56), Fin.ofNat (v / 2 ^ 48), Fin.ofNat (v / 2 ^ 40),
   Fin.ofNat (v / 2 ^ 32), Fin.ofNat (v / 2 ^ 24), Fin.ofNat (v / 2 ^ 16),
   Fin.ofNat (v / 2 ^ 8), Fin.ofNat v]

/-- The nonce of `flush`: `make([]byte, nonceSize)` with the counter put at `nonce[4:]`. -/
def nonceOf (chunkNum : Nat) : Bytes :=
  (List.replicate nonceSize (0 : Byte)).take 4 ++ be64 chunkNum

/-! ## The encrypting writer -/

structure gcmChunkedWriter where
  aead : AEAD
  w : Sink
  buf : Bytes
  chunkNum : Nat

/-- `gcmChunkedWriter.flush`: seal the buffer under the counter's nonce, write nonce and
ciphertext, then advance the counter and empty the buffer. -/
def gcmChunkedWriter.flush (g : gcmChunkedWriter) : gcmChunkedWriter × Option Err :=
  let nonce := nonceOf g.chunkNum
  let ciphertext := g.aead.Seal nonce g.buf
  match g.w.Write nonce with
  | (w1, some err) => ({ g with w := w1 }, some err)
  | (w1, none) =>
    match w1.Write ciphertext with
    | (w2, some err) => ({ g with w := w2 }, some err)
    | (w2, none) =>
      ({ g with w := w2, chunkNum := (g.chunkNum + 1) % 2 ^ 64, buf := [] }, none)

/-- The loop of `gcmChunkedWriter.Write`, one iteration per unit of `fuel`; `Write` gives
it more iterations than the loop can take. A buffer longer than `chunkSize` makes
`p[:space]` panic in Go; it is reported as an error here. -/
def gcmChunkedWriter.writeLoop :
    Nat → gcmChunkedWriter → Bytes → Nat → gcmChunkedWriter × Nat × Option Err
  | 0, g, _, total => (g, total, none)
  | fuel + 1, g, p, total =>
    if p.length = 0 then (g, total, none)
    else if chunkSize < g.buf.length then
      (g, total, some (Err.msg "slice bounds out of range"))
    else
      let space := if chunkSize - g.buf.length > p.length then p.length
                   else chunkSize - g.buf.length
      let g1 := { g with buf := g.buf ++ p.take space }
      if g1.buf.length = chunkSize then
        match g1.flush with
        | (g2, some err) => (g2, total + space, some err)
        | (g2, none) => gcmChunkedWriter.writeLoop fuel g2 (p.drop space) (total + space)
      else gcmChunkedWriter.writeLoop fuel g1 (p.drop space) (total + space)

/-- `gcmChunkedWriter.Write(p)`: the writer afterwards, the count returned and the error. -/
def gcmChunkedWriter.Write (g : gcmChunkedWriter) (p : Bytes) :
    gcmChunkedWriter × Nat × Option Err :=
  g.writeLoop (p.length + 2) p 0

/-- `gcmChunkedWriter.Close`. -/
def gcmChunkedWriter.Close (g : gcmChunkedWriter) : gcmChunkedWriter × Option Err :=
  if g.buf.length > 0 then g.flush else (g, none)

/-- `ChunkedGCMCrypter.Encrypt(w)`, with the cryptographic calls it made. When it fails
after writing to `w`, what was written is lost to the model (the caller gets no writer). -/
def ChunkedGCMCrypter.EncryptTraced (env : Env) (c : ChunkedGCMCrypter) (w : Sink) :
    List CryptoOp × Except Err gcmChunkedWriter :=
  match env.rand with
  | .error err => ([], .error err)
  | .ok salt =>
    let ops := [CryptoOp.IDKey c.Password salt, CryptoOp.NewCipher, CryptoOp.NewGCM]
    let aead := env.newAEAD c.Password salt
    match w.Write headerPrefix with
    | (_, some err) => (ops, .error err)
    | (w1, none) =>
      match w1.Write salt with
      | (_, some err) => (ops, .error err)
      | (w2, none) => (ops, .ok { aead := aead, w := w2, buf := [], chunkNum := 0 })

def ChunkedGCMCrypter.Encrypt (env : Env) (c : ChunkedGCMCrypter) (w : Sink) :
    Except Err gcmChunkedWriter :=
  (c.EncryptTraced env w).2

/-- A sequence of `Write` calls, stopping at the first that fails. -/
def gcmChunkedWriter.writeAll (g : gcmChunkedWriter) :
    List Bytes → gcmChunkedWriter × Option Err
  | [] => (g, none)
  | p :: ps =>
    match g.Write p with
    | (g1, _, some err) => (g1, some err)
    | (g1, _, none) => gcmChunkedWriter.writeAll g1 ps

/-! ## The decrypting reader -/

structure gcmChunkedReader where
  aead : AEAD
  r : Source
  chunkNum : Nat
  buf : Bytes

def errInvalidHeader : Err := Err.msg "invalid file header"

def errDecryptionFailed : Err :=
  Err.msg "decryption failed: tampering or corruption detected"

/-- `ChunkedGCMCrypter.Decrypt(r)`, with the cryptographic calls it made. -/
def ChunkedGCMCrypter.DecryptTraced (env : Env) (c : ChunkedGCMCrypter) (r : Source) :
    List CryptoOp × Except Err gcmChunkedReader :=
  match ReadFull r (headerPrefix.length + saltSize) with
  | (_, _, some err) => ([], .error err)
  | (r1, header, none) =>
    if header.take headerPrefix.length ≠ headerPrefix then ([], .error errInvalidHeader)
    else
      let salt := header.drop headerPrefix.length
      ([CryptoOp.IDKey c.Password salt, CryptoOp.NewCipher, CryptoOp.NewGCM],
        .ok { aead := env.newAEAD c.Password salt, r := r1, chunkNum := 0, buf := [] })

def ChunkedGCMCrypter.Decrypt (env : Env) (c : ChunkedGCMCrypter) (r : Source) :
    Except Err gcmChunkedReader :=
  (c.DecryptTraced env r).2

/-- The end of `Read`: `n := copy(p, g.buf); g.buf = g.buf[n:]` for `len(p) = plen`. -/
def gcmChunkedReader.copyOut (g : gcmChunkedReader) (plen : Nat) :
    gcmChunkedReader × Bytes × Option Err :=
  ({ g with buf := g.buf.drop plen }, g.buf.take plen, none)

/-- The block of `Read` that runs when the buffer is empty: read the nonce, read up to
`chunkSize + Overhead` bytes of ciphertext (a short read at the end of the source is
accepted), open the chunk. The source afterwards, and the plaintext or the error that
`Read` returns. -/
def readChunk (aead : AEAD) (r : Source) : Source × Except Err Bytes :=
  match ReadFull r nonceSize with
  | (r1, _, some err) => (r1, .error err)
  | (r1, nonce, none) =>
    match ReadFull r1 (chunkSize + aead.Overhead) with
    | (r2, ciphertext, err) =>
      if err ≠ none ∧ err ≠ some Err.EOF ∧ err ≠ some Err.ErrUnexpectedEOF then
        (r2, .error (err.getD Err.EOF))
      else
        match aead.Open nonce ciphertext with
        | none => (r2, .error errDecryptionFailed)
        | some plaintext => (r2, .ok plaintext)

/-- `gcmChunkedReader.Read(p)` with `len(p) = plen`: the reader afterwards, the bytes put
in `p` and the error. -/
def gcmChunkedReader.Read (g : gcmChunkedReader) (plen : Nat) :
    gcmChunkedReader × Bytes × Option Err :=
  if g.buf.length = 0 then
    match readChunk g.aead g.r with
    | (r2, .error err) => ({ g with r := r2 }, [], some err)
    | (r2, .ok plaintext) =>
      gcmChunkedReader.copyOut
        { g with r := r2, buf := plaintext, chunkNum := (g.chunkNum + 1) % 2 ^ 64 } plen
  else g.copyOut plen

/-- A caller that reads until the first error, the `k`-th call with a buffer of
`sizes k` bytes: everything it received and the error that ended it. `none` when
`fuel` calls were not enough to reach an error. -/
def gcmChunkedReader.readAll (sizes : Nat → Nat) :
    Nat → gcmChunkedReader → Option (Bytes × Err)
  | 0, _ => none
  | fuel + 1, g =>
    match g.Read (sizes 0) with
    | (_, bs, some err) => some (bs, err)
    | (g1, bs, none) =>
      (gcmChunkedReader.readAll (fun k => sizes (k + 1)) fuel g1).map
        (fun res => (bs ++ res.1, res.2))

/-- The reader after `Read` calls with buffers of the given sizes, whatever they
returned. -/
def gcmChunkedReader.after (g : gcmChunkedReader) : List Nat → gcmChunkedReader
  | [] => g
  | n :: ns => gcmChunkedReader.after (g.Read n).1 ns

/-- All that a decrypting reader with an empty buffer delivers over the source `r`, and
the error that ends it: the plaintexts of the chunks that open, in order. Each chunk
uses up at least the nonce, so `fuel` above the length of the source is enough. -/
def openChunks (aead : AEAD) : Nat → Source → Bytes × Err
  | 0, _ => ([], Err.EOF)
  | fuel + 1, r =>
    match readChunk aead r with
    | (_, .error err) => ([], err)
    | (r2, .ok plaintext) =>
      ((plaintext ++ (openChunks aead fuel r2).1), (openChunks aead fuel r2).2)

/-- The decrypting reader seen as an `io.Reader` by the layer above it. -/
def gcmChunkedReader.stream (g : gcmChunkedReader) : Source :=
  { data := g.buf ++ (openChunks g.aead (g.r.data.length + 1) g.r).1,
    term := (openChunks g.aead (g.r.data.length + 1) g.r).2 }

/-- Every caller that reads `g` with non-empty buffers until the first error receives
exactly `x` and ends with the error `e`, after finitely many calls. -/
def gcmChunkedReader.Delivers (g : gcmChunkedReader) (x : Bytes) (e : Err) : Prop :=
  ∀ sizes : Nat → Nat, (∀ k, 0 < sizes k) →
    ∃ N, ∀ fuel, N ≤ fuel → g.readAll sizes fuel = some (x, e)

/-- One chunk on the wire: the nonce, then the sealed plaintext. -/
def frame (a : AEAD) (nonce c : Bytes) : Bytes := nonce ++ a.Seal nonce c

/-- The chunks `L` on the wire, numbered from `k`. -/
def frames (a : AEAD) : Nat → List Bytes → Bytes
  | _, [] => []
  | k, c :: cs => frame a (nonceOf k) c ++ frames a (k + 1) cs

/-- Chunks on the wire, each with the nonce it is sealed under. -/
def wire (a : AEAD) : List (Bytes × Bytes) → Bytes
  | [] => []
  | nc :: rest => frame a nc.1 nc.2 ++ wire a rest

/-- The chunks `L` with the nonces of the counters `k`, `k + 1`, ... -/
def numbered : Nat → List Bytes → List (Bytes × Bytes)
  | _, [] => []
  | k, c :: cs => (nonceOf k, c) :: numbered (k + 1) cs

/-- The shape of a chunk sequence the reader can take apart: nonces of `nonceSize`
bytes, every chunk but the last of exactly `chunkSize` bytes, the last of at most
`chunkSize`. -/
def Framed : List (Bytes × Bytes) → Prop
  | [] => True
  | [nc] => nc.1.length = nonceSize ∧ nc.2.length ≤ chunkSize
  | nc :: nc2 :: rest =>
    nc.1.length = nonceSize ∧ nc.2.length = chunkSize ∧ Framed (nc2 :: rest)

/-- The final chunk that `Close` flushes: the buffer when it is not empty. -/
def lastChunk (b : Bytes) : List Bytes := if b.length > 0 then [b] else []

/-- The bytes of a whole chunk on the wire: nonce, `chunkSize` bytes, tag. -/
def frameSize (a : AEAD) : Nat := nonceSize + chunkSize + a.Overhead

/-- The nonce and the ciphertext found at chunk `j` of an encrypted stream `S` whose
earlier chunks are whole: the reader takes 12 bytes and then up to
`chunkSize + Overhead` bytes from offset `22 + j * frameSize`. -/
def chunkAt (a : AEAD) (S : Bytes) (j : Nat) : Bytes × Bytes :=
  ((S.drop (headerPrefix.length + saltSize + j * frameSize a)).take nonceSize,
   ((S.drop (headerPrefix.length + saltSize + j * frameSize a)).drop nonceSize).take
      (chunkSize + a.Overhead))

/-- The state of a writer over a sink that never fails, after the full chunks `L`. -/
structure WInv (g : gcmChunkedWriter) (hdr : Bytes) (L : List Bytes) : Prop where
  room : g.w.room = none
  out : g.w.out = hdr ++ frames g.aead 0 L
  full : ∀ c ∈ L, c.length = chunkSize
  num : g.chunkNum = L.length % 2 ^ 64

/-- What a sink holds after `Encrypt`, the given `Write` calls and `Close`, or the first
error. -/
def encryptTo (env : Env) (c : ChunkedGCMCrypter) (w : Sink) (writes : List Bytes) :
    Except Err Sink :=
  match c.Encrypt env w with
  | .error err => .error err
  | .ok g =>
    match g.writeAll writes with
    | (_, some err) => .error err
    | (g1, none) =>
      match g1.Close with
      | (_, some err) => .error err
      | (g2, none) => .ok g2.w

/-- The plaintext of chunk `i` in the words of the format: `P[65536*i : min(65536*(i+1), n)]`. -/
def specChunk (P : Bytes) (i : Nat) : Bytes :=
  (P.take (min (65536 * (i + 1)) P.length)).drop (65536 * i)

/-- The nonce of chunk `i` in the words of the format: four zero bytes, then the 8-byte
big-endian encoding of `i`. -/
def specNonce (i : Nat) : Bytes := [0, 0, 0, 0] ++ be64 i

/-- The encrypted stream in the words of the format: magic, salt, then the chunks
`0 .. ceil(n/65536) - 1`, each a nonce followed by the seal of its plaintext. -/
def specStream (a : AEAD) (salt P : Bytes) : Bytes :=
  [65, 69, 65, 68, 118, 49] ++ salt ++
    (List.range ((P.length + 65535) / 65536)).flatMap
      (fun i => specNonce i ++ a.Seal (specNonce i) (specChunk P i))

/-- A call on the encrypting writer. -/
inductive WriterCall where
  | Write (p : Bytes)
  | Close

/-- The writer after the calls, made in order, and the error each call returned. -/
def gcmChunkedWriter.run (g : gcmChunkedWriter) :
    List WriterCall → gcmChunkedWriter × List (Option Err)
  | [] => (g, [])
  | WriterCall.Write p :: cs =>
    ((gcmChunkedWriter.run (g.Write p).1 cs).1,
      (g.Write p).2.2 :: (gcmChunkedWriter.run (g.Write p).1 cs).2)
  | WriterCall.Close :: cs =>
    ((gcmChunkedWriter.run g.Close.1 cs).1,
      g.Close.2 :: (gcmChunkedWriter.run g.Close.1 cs).2)

/-- The plaintext passed to the `Write` calls. -/
def WriterCall.written : List WriterCall → Bytes
  | [] => []
  | WriterCall.Write p :: cs => p ++ WriterCall.written cs
  | WriterCall.Close :: cs => WriterCall.written cs

/-- The counter a nonce carries: `binary.BigEndian.Uint64(nonce[4:])`. -/
def counterOf (nonce : Bytes) : Nat :=
  (nonce.drop 4).foldl (fun acc b => acc * 256 + b.val) 0

/-- The state of a writer over a sink that never fails, after it has emitted the chunks
`L`: the sink holds them numbered from `0`, and the counter is their number. -/
structure Counted (g : gcmChunkedWriter) (hdr : Bytes) (L : List Bytes) : Prop where
  room : g.w.room = none
  out : g.w.out = hdr ++ frames g.aead 0 L
  num : g.chunkNum = L.length % 2 ^ 64
  sizes : ∀ x ∈ L, 0 < x.length ∧ x.length ≤ chunkSize

/-- An encrypted stream with its first two whole chunks exchanged: the 22 bytes of magic
and salt, the chunk found at offset `22 + frameSize`, the chunk found at offset `22`,
and the rest of the stream. -/
def swapFirstTwoChunks (a : AEAD) (S : Bytes) : Bytes :=
  S.take (headerPrefix.length + saltSize) ++
    (S.drop (headerPrefix.length + saltSize + frameSize a)).take (frameSize a) ++
    (S.drop (headerPrefix.length + saltSize)).take (frameSize a) ++
    S.drop (headerPrefix.length + saltSize + 2 * frameSize a)

/-! ## Strings and `path/filepath`

The repository is modelled as built for a platform whose path separator is `'/'`. -/

abbrev GoString := List Char

/-- The message `err.Error()`. -/
def Err.Error : Err → String
  | .EOF => "EOF"
  | .ErrUnexpectedEOF => "unexpected EOF"
  | .msg s => s

/-- The constant `filepath.Separator`. -/
def Separator : Char := '/'

/-- `filepath.ToSlash`: the path itself when the separator is a slash, else the path
with every separator replaced by a slash. -/
def ToSlash (path : GoString) : GoString :=
  if Separator = '/' then path
  else path.map (fun ch => if ch = Separator then '/' else ch)

/-- `filepath.Base`: `"."` for the empty path; else trailing slashes are stripped and
the text after the last remaining slash is returned, `"/"` when nothing is left. -/
def Base (path : GoString) : GoString :=
  if path = [] then ['.']
  else
    let stripped := (path.reverse.dropWhile (fun ch => ch = Separator)).reverse
    let last := (stripped.reverse.takeWhile (fun ch => ch ≠ Separator)).reverse
    if last = [] then [Separator] else last

/-- The text of a name after its last `'/'`, the whole name when it has none. -/
def afterLastSlash (name : GoString) : GoString :=
  (name.reverse.takeWhile (fun ch => ch ≠ '/')).reverse

/-- `strings.IndexByte`: the index of the first `c` in `s`, or `-1`. -/
def IndexByte (s : GoString) (c : Char) : Int :=
  if c ∈ s then (s.indexOf c : Nat) else -1

/-- `strings.TrimSuffix`. -/
def TrimSuffix (s suffix : GoString) : GoString :=
  if suffix.isSuffixOf s then s.take (s.length - suffix.length) else s

/-! ## `pkg/codec` and `pkg/crypt`: the capabilities -/

/-- A `codec.Compressor`. The writer it makes is a state machine over the writer
beneath it: `Write`, `Flush` and `Close` give the new state, the `Write` calls made on
the writer beneath, in order, and the error of the compressor itself. -/
structure Compressor where
  State : Type
  NewWriter : Except Err State
  Write : State → Bytes → State × List Bytes × Option Err
  Flush : State → State × List Bytes × Option Err
  Close : State → State × List Bytes × Option Err
  FileExtension : GoString
  Name : GoString

/-- A `codec.Decompressor`: from the stream it reads to the stream its reader delivers
and the result of that reader's `Close`, or the error of `Decompress`. -/
structure Decompressor where
  Decompress : Source → Except Err (Source × Option Err)
  FileExtension : GoString

/-- The compression libraries behind `pkg/codec` (`compress/gzip` and
`klauspost/compress/zstd`), each as a compressor and the function of its reader. -/
structure CodecLib where
  gzipWriter : Compressor
  gzipReader : Source → Except Err (Source × Option Err)
  zstdWriter : Compressor
  zstdReader : Source → Except Err (Source × Option Err)

def GzipFileExt : GoString := ".gz".toList

def ZstdFileExt : GoString := ".zst".toList

/-- `codec.GzipCompressor{}`. -/
def GzipCompressor (lib : CodecLib) : Compressor :=
  { lib.gzipWriter with FileExtension := ".gz".toList, Name := "gzip".toList }

/-- `codec.ZstdCompressor{}`. -/
def ZstdCompressor (lib : CodecLib) : Compressor :=
  { lib.zstdWriter with FileExtension := ".zst".toList, Name := "zstd".toList }

/-- `codec.GzipDecompressor{}`. -/
def GzipDecompressor (lib : CodecLib) : Decompressor :=
  { Decompress := lib.gzipReader, FileExtension := GzipFileExt }

/-- `codec.ZstdDecompressor{}`; its reader is wrapped in `io.NopCloser`. -/
def ZstdDecompressor (lib : CodecLib) : Decompressor :=
  { Decompress := fun r => (lib.zstdReader r).map (fun res => (res.1, none)),
    FileExtension := ZstdFileExt }

/-- `codec.GetDecompressor`. -/
def GetDecompressor (lib : CodecLib) (c : Option Compressor) : Option Decompressor :=
  match c with
  | none => none
  | some z =>
    if z.FileExtension = GzipFileExt then some (GzipDecompressor lib)
    else if z.FileExtension = ZstdFileExt then some (ZstdDecompressor lib)
    else none

/-- A `crypt.Crypter`. -/
structure Crypter where
  Encrypt : Sink → Except Err gcmChunkedWriter
  Decrypt : Source → Except Err gcmChunkedReader
  FileExtension : GoString
  Name : GoString

/-- `aesgcm.NewChunkedGCMCrypter(password)` as a `crypt.Crypter`. -/
def NewChunkedGCMCrypter (env : Env) (password : String) : Crypter :=
  { Encrypt := fun w => ChunkedGCMCrypter.Encrypt env { Password := password } w,
    Decrypt := fun r => ChunkedGCMCrypter.Decrypt env { Password := password } r,
    FileExtension := ".aes".toList,
    Name := "aes-256-gcm".toList }

/-! ## `pkg/pipe` -/

/-- A source for `io.Copy`: the blocks its successive `Read` calls return, then the
error that ends it (`io.EOF` for a source that ends). -/
structure Reader where
  blocks : List Bytes
  term : Err

/-- The writer under the compressor in the write pipeline: the pipe itself, or the
encrypting writer over the pipe. -/
inductive Dst where
  | pipe (pw : Sink)
  | enc (g : gcmChunkedWriter)

/-- The bytes that have reached the pipe. -/
def Dst.out : Dst → Bytes
  | .pipe pw => pw.out
  | .enc g => g.w.out

def Dst.Write : Dst → Bytes → Dst × Option Err
  | .pipe pw, p => (Dst.pipe (pw.Write p).1, (pw.Write p).2)
  | .enc g, p => (Dst.enc (g.Write p).1, (g.Write p).2.2)

/-- `Write` calls in order, up to the first that fails. -/
def Dst.writeAll (d : Dst) : List Bytes → Dst × Option Err
  | [] => (d, none)
  | p :: ps =>
    match d.Write p with
    | (d1, some err) => (d1, some err)
    | (d1, none) => Dst.writeAll d1 ps

/-- One call on the compressor's writer: what it writes goes to the writer beneath; an
error of that writer is returned, else the compressor's own. -/
def compCall (d : Dst) {σ : Type} (res : σ × List Bytes × Option Err) :
    σ × Dst × Option Err :=
  match d.writeAll res.2.1 with
  | (d1, some err) => (res.1, d1, some err)
  | (d1, none) => (res.1, d1, res.2.2)

/-- The loop of `io.Copy` onto the compressor's writer: every non-empty block is
written; the first error ends the copy. -/
def copyToComp (z : Compressor) : z.State → Dst → List Bytes → z.State × Dst × Option Err
  | st, d, [] => (st, d, none)
  | st, d, p :: ps =>
    if p.length = 0 then copyToComp z st d ps
    else
      match compCall d (z.Write st p) with
      | (st1, d1, some err) => (st1, d1, some err)
      | (st1, d1, none) => copyToComp z st1 d1 ps

/-- The loop of `io.Copy` onto the pipe or the encrypting writer. -/
def copyToDst : Dst → List Bytes → Dst × Option Err
  | d, [] => (d, none)
  | d, p :: ps =>
    if p.length = 0 then copyToDst d ps
    else
      match d.Write p with
      | (d1, some err) => (d1, some err)
      | (d1, none) => copyToDst d1 ps

/-- The end of `io.Copy`: the error of the source unless it is `io.EOF`. -/
def copyResult (werr : Option Err) (term : Err) : Option Err :=
  match werr with
  | some err => some err
  | none => if term = Err.EOF then none else some term

/-- `encWriter.Close()` when there is an encrypting writer; its error is dropped. -/
def Dst.closeEnc : Dst → Dst
  | .pipe pw => Dst.pipe pw
  | .enc g => Dst.enc g.Close.1

/-- The producer goroutine of `CompressAndEncryptOptional`, run to its end against a
consumer that keeps reading: what the consumer reads from the pipe, as the bytes
written to it and the error the pipe was closed with (`io.EOF` after a plain
`pw.Close()`). -/
def pipeProducer (source : Reader) (compressor : Option Compressor)
    (crypter : Option Crypter) : Source :=
  let pw : Sink := Sink.buffer
  match (match crypter with
         | none => Except.ok (Dst.pipe pw)
         | some c => (c.Encrypt pw).map Dst.enc) with
  | .error err => { data := pw.out, term := err }
  | .ok dst =>
    match compressor with
    | none =>
      match copyToDst dst source.blocks with
      | (d1, werr) =>
        match copyResult werr source.term with
        | some err => { data := d1.out, term := Err.msg ("copy: " ++ err.Error) }
        | none => { data := d1.closeEnc.out, term := Err.EOF }
    | some z =>
      match z.NewWriter with
      | .error err => { data := dst.out, term := err }
      | .ok st =>
        match copyToComp z st dst source.blocks with
        | (st1, d1, werr) =>
          match copyResult werr source.term with
          | some err => { data := d1.out, term := Err.msg ("copy: " ++ err.Error) }
          | none =>
            let flushed := compCall d1 (z.Flush st1)
            let closed := compCall flushed.2.1 (z.Close flushed.1)
            { data := closed.2.1.closeEnc.out, term := Err.EOF }

/-- The first step of the producer ("Wrap encryption"): the writer the next layer
writes to, or the error of `crypter.Encrypt`. -/
def wrapEncryption (crypter : Option Crypter) : Except Err Dst :=
  match crypter with
  | none => .ok (Dst.pipe Sink.buffer)
  | some c => (c.Encrypt Sink.buffer).map Dst.enc

/-- `compWriter.Flush()` after the copy onto the compressor's writer: the compressor's
state, the writer beneath it and the error the call returns. -/
def producerFlush (z : Compressor) (st : z.State) (dst : Dst) (blocks : List Bytes) :
    z.State × Dst × Option Err :=
  compCall (copyToComp z st dst blocks).2.1 (z.Flush (copyToComp z st dst blocks).1)

/-- `compWriter.Close()` after the flush: the compressor's state, the writer beneath it
and the error the call returns. -/
def producerClose (z : Compressor) (st : z.State) (dst : Dst) (blocks : List Bytes) :
    z.State × Dst × Option Err :=
  compCall (producerFlush z st dst blocks).2.1 (z.Close (producerFlush z st dst blocks).1)

/-- The error that `encWriter.Close()` returns when there is an encrypting writer. -/
def Dst.closeErr : Dst → Option Err
  | .pipe _ => none
  | .enc g => g.Close.2

/-- The `Write` calls a compressor's writer makes beneath it while the blocks are
copied into it, and its state afterwards. -/
def compWrites (z : Compressor) : z.State → List Bytes → z.State × List Bytes
  | st, [] => (st, [])
  | st, p :: ps =>
    if p.length = 0 then compWrites z st ps
    else ((compWrites z (z.Write st p).1 ps).1,
          (z.Write st p).2.1 ++ (compWrites z (z.Write st p).1 ps).2)

/-- The complete output of a compressor for the blocks: what it writes during the
copy, on `Flush` and on `Close`. -/
def compressAll (z : Compressor) (st : z.State) (blocks : List Bytes) : Bytes :=
  ((compWrites z st blocks).2 ++
    (z.Flush (compWrites z st blocks).1).2.1 ++
    (z.Close (z.Flush (compWrites z st blocks).1).1).2.1).flatten

/-- What the repository relies on from a compressor and its decompressor: the writer
can be made, a `Write` fails only when the writer beneath fails, and the decompressor's
reader turns the compressor's complete output back into the bytes that were written,
ends cleanly and closes without an error. -/
structure CodecGood (z : Compressor) (d : Decompressor) : Prop where
  newWriter : ∃ st, z.NewWriter = .ok st
  write : ∀ s p, (z.Write s p).2.2 = none
  roundTrip : ∀ st blocks, z.NewWriter = .ok st →
    d.Decompress { data := compressAll z st blocks, term := Err.EOF } =
      .ok ({ data := blocks.flatten, term := Err.EOF }, none)

/-- The writer beneath the compressor has taken the bytes `X` without an error: it is
the pipe (`encrypting = false`) and holds `hdr ++ X`, or it is the encrypting writer
(`encrypting = true`), started after `hdr`, and has cut `X` into whole chunks and a
shorter buffer. -/
def Fed (a : AEAD) (hdr : Bytes) (encrypting : Bool) (d : Dst) (X : Bytes) : Prop :=
  match d with
  | .pipe pw => encrypting = false ∧ pw.room = none ∧ pw.out = hdr ++ X
  | .enc g => encrypting = true ∧ g.aead = a ∧ g.buf.length < chunkSize ∧
      ∃ L, WInv g hdr L ∧ L.flatten ++ g.buf = X

/-- `pipe.CompressAndEncryptOptional`: the read end of the pipe and a nil error. -/
def CompressAndEncryptOptional (source : Reader) (compressor : Option Compressor)
    (crypter : Option Crypter) : Source × Option Err :=
  (pipeProducer source compressor crypter, none)

/-- What a call does: it returns a value, or it panics with a message. -/
inductive Outcome (α : Type) where
  | returned (value : α)
  | panicked (msg : String)
deriving DecidableEq, Repr

/-- An `io.ReadCloser`: an identity (two handles are equal as interface values, `==` in
Go, when their `id` is the same), the stream it delivers, the result of its `Close`, and
whether its dynamic type can be hashed (a pointer or another comparable type), as a map
keyed by the interface value needs; the handles made in this repository are pointers or
`io.NopCloser` over pointers. -/
structure ReadCloser where
  id : Nat
  Reader : Source
  closeErr : Option Err
  hashable : Bool := true

/-- An `io.Reader` that may also be an `io.ReadCloser`. -/
inductive AnyReader where
  | plain (r : Source)
  | closer (rc : ReadCloser)

def AnyReader.Reader : AnyReader → Source
  | .plain r => r
  | .closer rc => rc.Reader

/-- `pipe.DecryptAndDecompressOptional`. A reader made here (`io.NopCloser` or the
decompressor's) is a new object: it gets the identity `fresh`. -/
def DecryptAndDecompressOptional (fresh : Nat) (reader : AnyReader)
    (crypter : Option Crypter) (decompressor : Option Decompressor) :
    Except Err ReadCloser :=
  match (match crypter with
         | none => Except.ok reader
         | some c => (c.Decrypt reader.Reader).map
             (fun (g : gcmChunkedReader) => AnyReader.plain g.stream)) with
  | .error err => .error err
  | .ok reader1 =>
    match decompressor with
    | none =>
      match reader1 with
      | .closer rc => .ok rc
      | .plain r => .ok { id := fresh, Reader := r, closeErr := none }
    | some d =>
      match d.Decompress reader1.Reader with
      | .error err => .error err
      | .ok res => .ok { id := fresh, Reader := res.1, closeErr := res.2 }

/-! ## `pkg/ioutils` -/

structure MultiCloser where
  Reader : Source
  closers : List ReadCloser

def NewMultiCloser (reader : Source) (closers : List ReadCloser) : MultiCloser :=
  { Reader := reader, closers := closers }

/-- The panic of the Go runtime when a map is accessed with a key whose dynamic type
cannot be hashed. -/
def errUnhashable : String := "runtime error: hash of unhashable type"

/-- The loop of `MultiCloser.Close`: the handles already seen, the error so far and the
handles whose `Close` was called so far. The lookup `seen[closer]` panics when the
closer cannot be hashed, before its `Close` is called. -/
def MultiCloser.closeLoop :
    List ReadCloser → List Nat → Option Err → List Nat → List Nat × Outcome (Option Err)
  | [], _, firstErr, called => (called, Outcome.returned firstErr)
  | c :: cs, seen, firstErr, called =>
    if c.hashable = false then (called, Outcome.panicked errUnhashable)
    else if c.id ∈ seen then MultiCloser.closeLoop cs seen firstErr called
    else
      MultiCloser.closeLoop cs (c.id :: seen)
        (match c.closeErr with
         | none => firstErr
         | some err =>
           match firstErr with
           | some f => some (Err.msg (f.Error ++ "; " ++ err.Error))
           | none => some err)
        (called ++ [c.id])

/-- `MultiCloser.Close`: the handles whose `Close` was called, in order, and the error
returned, or the panic. -/
def MultiCloser.Close (r : MultiCloser) : List Nat × Outcome (Option Err) :=
  MultiCloser.closeLoop r.closers [] none []

/-- The closers that `Close` reaches: those in front of the first one that cannot be
hashed. -/
def reachedClosers (cs : List ReadCloser) : List ReadCloser :=
  cs.takeWhile (fun c => c.hashable)

/-- The distinct handles of a list, in the order of their first occurrence. -/
def distinctClosers : List ReadCloser → List ReadCloser
  | [] => []
  | c :: cs => c :: (distinctClosers cs).filter (fun d => d.id ≠ c.id)

/-- The distinct members of a list of identities, in the order of their first
occurrence. -/
def firstOccurrences : List Nat → List Nat
  | [] => []
  | i :: rest => i :: (firstOccurrences rest).filter (fun j => j ≠ i)

/-- The errors that the distinct handles of a list return from `Close`, in the order of
their first occurrence. -/
def closeFailures (cs : List ReadCloser) : List Err :=
  (distinctClosers cs).filterMap (fun c => c.closeErr)

/-- The step of `Close` on the error so far: the first failure is kept as it is, a later
one is appended to the message after `"; "`. -/
def combineErr (firstErr : Option Err) (err : Err) : Option Err :=
  match firstErr with
  | some f => some (Err.msg (f.Error ++ "; " ++ err.Error))
  | none => some err

/-! ## `pkg/repo` -/

/-- A storage that keeps, under each name, the bytes last put under it: the contract of
`storage.Storage` as a table. Reading a stream that ends with an error stores
nothing. -/
structure Storage where
  objects : GoString → Option Bytes

def errNotExist : Err := Err.msg "file does not exist"

def Storage.PutObject (s : Storage) (path : GoString) (r : Source) : Except Err Storage :=
  if r.term = Err.EOF then
    .ok { objects := fun name => if name = path then some r.data else s.objects name }
  else .error r.term

/-- `storage.ReadObject`: a handle with identity `0` whose `Close` returns nil; it is a
pointer (an `*os.File` or the like), so it can be hashed. -/
def Storage.ReadObject (s : Storage) (path : GoString) : Except Err ReadCloser :=
  match s.objects path with
  | none => .error errNotExist
  | some b => .ok { id := 0, Reader := bytesReader b, closeErr := none }

structure repoImpl where
  storage : Storage
  compressor : Option Compressor
  crypter : Option Crypter

def NewWriteReader (s : Storage) (compressor : Option Compressor)
    (crypter : Option Crypter) : repoImpl :=
  { storage := s, compressor := compressor, crypter := crypter }

/-- `repoImpl.encodePath`. -/
def repoImpl.encodePath (repo : repoImpl) (logical : GoString) : GoString :=
  let ext : GoString := []
  let ext := match repo.compressor with
    | some z => ext ++ z.FileExtension
    | none => ext
  let ext := match repo.crypter with
    | some c => ext ++ c.FileExtension
    | none => ext
  ToSlash (logical ++ ext)

/-- `extractCompoundExt`. -/
def extractCompoundExt (name : GoString) : GoString :=
  let name := Base name
  let i := IndexByte name '.'
  if i < 0 then [] else name.drop i.toNat

/-- `repoImpl.decodePath`. -/
def repoImpl.decodePath (_repo : repoImpl) (path : GoString) : GoString :=
  let ext := extractCompoundExt path
  if ext = [] then path else TrimSuffix path ext

/-- `repoImpl.PutObject`: the repository afterwards and the name returned. -/
def repoImpl.PutObject (repo : repoImpl) (path : GoString) (r : Reader) :
    Except Err (repoImpl × GoString) :=
  let fullPath := repo.encodePath path
  match CompressAndEncryptOptional r repo.compressor repo.crypter with
  | (_, some err) => .error err
  | (encReader, none) =>
    match repo.storage.PutObject fullPath encReader with
    | .error err => .error err
    | .ok s => .ok ({ repo with storage := s }, fullPath)

/-- `repoImpl.ReadObject`: the handles closed before it returns, and its result. The
decoded reader gets the identity `1`, the storage handle has `0`. -/
def repoImpl.ReadObject (lib : CodecLib) (repo : repoImpl) (path : GoString) :
    List Nat × Except Err MultiCloser :=
  let fullPath := repo.encodePath path
  match repo.storage.ReadObject fullPath with
  | .error err => ([], .error err)
  | .ok obj =>
    match (match repo.compressor with
           | none => Except.ok (none : Option Decompressor)
           | some z =>
             match GetDecompressor lib (some z) with
             | none => Except.error (Err.msg ("cannot decide decompressor for: " ++
                         String.mk z.FileExtension))
             | some d => Except.ok (some d)) with
    | .error err => ([obj.id], .error err)
    | .ok dec =>
      match DecryptAndDecompressOptional 1 (AnyReader.closer obj) repo.crypter dec with
      | .error err => ([obj.id], .error err)
      | .ok readCloser => ([], .ok (NewMultiCloser readCloser.Reader [obj, readCloser]))

/-! ## `config` and `pkg/boot` -/

def RepoEncryptorAes256Gcm : GoString := "aes-256-gcm".toList

def RepoCompressorGzip : GoString := "gzip".toList

def RepoCompressorZstd : GoString := "zstd".toList

/-- The fields of `config.Config` that `decideCompressorEncryptor` reads. -/
structure Config where
  RepoCompressor : GoString
  RepoEncryptor : GoString
  RepoEncryptionPass : String

/-- A record written with `slog`: level, message and attributes. -/
structure LogRecord where
  level : String
  msg : String
  attrs : List (String × GoString)
deriving DecidableEq, Repr

/-- `boot.decideCompressorEncryptor`: the compressor and the crypter it returns (it has
no error result), and the records it logs. -/
def decideCompressorEncryptor (lib : CodecLib) (env : Env) (cfg : Config) :
    (Option Compressor × Option Crypter) × List LogRecord :=
  let comp : Option Compressor × List LogRecord :=
    if cfg.RepoCompressor ≠ [] then
      let log : List LogRecord :=
        [⟨"INFO", "init compressor",
          [("module", "boot".toList), ("compressor", cfg.RepoCompressor)]⟩]
      if cfg.RepoCompressor = RepoCompressorGzip then (some (GzipCompressor lib), log)
      else if cfg.RepoCompressor = RepoCompressorZstd then (some (ZstdCompressor lib), log)
      else (none, log ++ [⟨"ERROR", "boot", [("unknown-compression", cfg.RepoCompressor)]⟩])
    else (none, [])
  let cryp : Option Crypter × List LogRecord :=
    if cfg.RepoEncryptor ≠ [] then
      let log : List LogRecord :=
        [⟨"INFO", "init crypter",
          [("module", "boot".toList), ("crypter", cfg.RepoEncryptor)]⟩]
      if cfg.RepoEncryptor = RepoEncryptorAes256Gcm then
        (some (NewChunkedGCMCrypter env cfg.RepoEncryptionPass), log)
      else (none, log ++ [⟨"ERROR", "boot", [("unknown-encryption", cfg.RepoEncryptor)]⟩])
    else (none, [])
  ((comp.1, cryp.1), comp.2 ++ cryp.2)

/-! ## `pkg/concur`

The goroutines of `ProcessConcurrentlyWithResultAndLimit` are run one step at a time in
an order chosen by a scheduler; the context is never cancelled and the task function is
a function of the task. -/

/-- Where a worker goroutine stands: at the `select`, running the task of an index it
received, or returned. -/
inductive WorkerState where
  | idle
  | busy (index : Nat)
  | done
deriving DecidableEq, Repr

/-- The state shared by the goroutines. An outcome is `none` while `hasContent` is
false; `taskChan` holds the buffered indices, oldest first; `next` is the index the
sending loop is at. -/
structure PoolState (R : Type) where
  outcomes : List (Option (R × Option Err))
  taskChan : List Nat
  closed : Bool
  next : Nat
  workers : List WorkerState

/-- A goroutine: the caller, which sends the indices and closes the channel, or the
worker of a number. -/
inductive Actor where
  | main
  | worker (k : Nat)
deriving DecidableEq, Repr

/-- The caller can move: it has an index to send and the channel has room, or it has
sent all and not yet closed the channel. -/
def mainEnabled {R : Type} (n cap : Nat) (s : PoolState R) : Bool :=
  if s.next < n then decide (s.taskChan.length < cap) else !s.closed

/-- A worker can move: it is running a task, or it is at the `select` and the channel
has an index or is closed. -/
def workerEnabled {R : Type} (s : PoolState R) (k : Nat) : Bool :=
  match s.workers.getD k WorkerState.done with
  | WorkerState.busy _ => true
  | WorkerState.idle => !s.taskChan.isEmpty || s.closed
  | WorkerState.done => false

/-- The goroutines that are not blocked. -/
def enabled {R : Type} (n cap : Nat) (s : PoolState R) : List Actor :=
  (if mainEnabled n cap s then [Actor.main] else []) ++
    ((List.range s.workers.length).filter (fun k => workerEnabled s k)).map Actor.worker

/-- One step of a goroutine. The caller sends the next index or closes the channel. A
worker at the `select` receives the oldest index, or returns when the channel is closed
and empty; a worker that has received `index` runs the task and stores
`outcomes[index]`. A blocked goroutine does not move. -/
def stepActor {T R : Type} (tasks : List T) (taskFunc : T → R × Option Err) (cap : Nat)
    (s : PoolState R) : Actor → PoolState R
  | Actor.main =>
    if s.next < tasks.length then
      if s.taskChan.length < cap then
        { s with taskChan := s.taskChan ++ [s.next], next := s.next + 1 }
      else s
    else if s.closed then s
    else { s with closed := true }
  | Actor.worker k =>
    match s.workers.getD k WorkerState.done with
    | WorkerState.busy index =>
      { s with outcomes := s.outcomes.set index ((tasks[index]?).map taskFunc),
               workers := s.workers.set k WorkerState.idle }
    | WorkerState.idle =>
      match s.taskChan with
      | index :: rest =>
        { s with taskChan := rest, workers := s.workers.set k (WorkerState.busy index) }
      | [] =>
        if s.closed then { s with workers := s.workers.set k WorkerState.done } else s
    | WorkerState.done => s

/-- The goroutines run until none can move, for at most `fuel` steps; at each step the
scheduler's number picks one of the goroutines that can move. -/
def runPool {T R : Type} (tasks : List T) (taskFunc : T → R × Option Err) (cap : Nat) :
    Nat → (Nat → Nat) → PoolState R → PoolState R
  | 0, _, s => s
  | fuel + 1, sched, s =>
    match enabled tasks.length cap s with
    | [] => s
    | a :: rest =>
      runPool tasks taskFunc cap fuel (fun k => sched (k + 1))
        (stepActor tasks taskFunc cap s
          ((a :: rest).getD (sched 0 % (a :: rest).length) a))

/-- The loop that collects results and errors from the outcomes. -/
def collectOutcomes {R : Type} (filterFunc : Option (R → Bool)) :
    List (Option (R × Option Err)) → List R × List Err
  | [] => ([], [])
  | none :: os => collectOutcomes filterFunc os
  | some (_, some err) :: os =>
    ((collectOutcomes filterFunc os).1, err :: (collectOutcomes filterFunc os).2)
  | some (result, none) :: os =>
    match filterFunc with
    | none => (result :: (collectOutcomes filterFunc os).1, (collectOutcomes filterFunc os).2)
    | some keep =>
      if keep result then
        (result :: (collectOutcomes filterFunc os).1, (collectOutcomes filterFunc os).2)
      else collectOutcomes filterFunc os

/-- The number of worker goroutines: `workerLimit`, or `1` when it is below `1`. -/
def workerCount (workerLimit : Int) : Nat :=
  if workerLimit < 1 then 1 else workerLimit.toNat

/-- Arithmetic of Go's `int` on a 64-bit platform: the result wraps around into
`-2^63 .. 2^63 - 1`. -/
def intWrap (x : Int) : Int := (x + 2 ^ 63) % 2 ^ 64 - 2 ^ 63

/-- The panic of `make(chan int, size)` for a size that is negative or larger than the
platform allows. -/
def errMakechan : String := "makechan: size out of range"

/-- `concur.ProcessConcurrentlyWithResultAndLimit` under a scheduler, for a `workerLimit`
that is an `int` (`-2^63 ≤ workerLimit < 2^63`) on a platform where `make(chan int, _)`
accepts at most `maxChan` slots. The channel is made with `workerLimit + 2` slots,
computed in `int`: when that is negative (it wraps around at the largest values) or
above `maxChan`, `make` panics before any goroutine is started. Otherwise: the results
and the errors returned once `wg.Wait()` has returned (the channel closed, every worker
returned); `none` if that has not happened after `3 * len(tasks) + workers + 1` steps.
Running out of memory for the goroutines is not modelled. -/
def ProcessConcurrentlyWithResultAndLimit {T R : Type} (maxChan : Nat) (sched : Nat → Nat)
    (workerLimit : Int) (tasks : List T) (taskFunc : T → R × Option Err)
    (filterFunc : Option (R → Bool)) : Option (Outcome (List R × List Err)) :=
  let limit : Int := if workerLimit < 1 then 1 else workerLimit
  let size : Int := intWrap (limit + 2)
  if size < 0 ∨ (maxChan : Int) < size then some (Outcome.panicked errMakechan)
  else
    let s := runPool tasks taskFunc size.toNat
      (3 * tasks.length + workerCount workerLimit + 1) sched
      { outcomes := List.replicate tasks.length none, taskChan := [], closed := false,
        next := 0, workers := List.replicate (workerCount workerLimit) WorkerState.idle }
    if s.closed && s.workers.all (fun w => decide (w = WorkerState.done)) then
      some (Outcome.returned (collectOutcomes filterFunc s.outcomes))
    else none

/-- The results in the words of the contract: the results of the tasks whose function
returned a nil error and that pass the filter, in task order. -/
def specResults {T R : Type} (tasks : List T) (taskFunc : T → R × Option Err)
    (filterFunc : Option (R → Bool)) : List R :=
  (tasks.filter (fun t => (taskFunc t).2.isNone &&
      (match filterFunc with
       | none => true
       | some keep => keep (taskFunc t).1))).map (fun t => (taskFunc t).1)

/-- The errors in the words of the contract: the non-nil errors, in task order. -/
def specErrors {T R : Type} (tasks : List T) (taskFunc : T → R × Option Err) : List Err :=
  tasks.filterMap (fun t => (taskFunc t).2)

/-- The steps a worker still has to take when it gets no further index. -/
def workerWeight : WorkerState → Nat
  | WorkerState.busy _ => 2
  | WorkerState.idle => 1
  | WorkerState.done => 0

/-- The steps still to come are bounded by this number: three for every index not yet
sent, two for every index in the channel, one for closing the channel, two for a worker
running a task and one for a worker at the `select`. -/
def poolMeasure {R : Type} (n : Nat) (s : PoolState R) : Nat :=
  3 * (n - s.next) + 2 * s.taskChan.length + (if s.closed then 0 else 1) +
    (s.workers.map workerWeight).sum

/-- What holds of every state the goroutines reach: every index that has been sent is in
the channel, with a worker, or has its outcome stored; a worker returns only when the
channel is closed and empty. -/
structure PoolInv {T R : Type} (tasks : List T) (taskFunc : T → R × Option Err)
    (count : Nat) (s : PoolState R) : Prop where
  len : s.outcomes.length = tasks.length
  next_le : s.next ≤ tasks.length
  closed_next : s.closed = true → s.next = tasks.length
  pending : ∀ i, i < tasks.length →
    s.outcomes[i]? = some ((tasks[i]?).map taskFunc) ∨
      s.next ≤ i ∨ i ∈ s.taskChan ∨ WorkerState.busy i ∈ s.workers
  done_closed : WorkerState.done ∈ s.workers → s.taskChan = [] ∧ s.closed = true
  workers : s.workers.length = count

/-! ## A small AEAD to run the definitions on -/

/-- The tag of `toyAEAD`: the nonce and the sum of the plaintext bytes. -/
def toyTag (nonce p : Bytes) : Bytes :=
  (nonce ++ List.replicate 12 (0 : Byte)).take 12 ++
    [Fin.ofNat (p.foldl (fun s b => s + b.val) 0), 0, 0, 0]

/-- An AEAD that does not hide anything: the plaintext followed by a 16-byte tag. -/
def toyAEAD : AEAD where
  Overhead := 16
  Seal := fun nonce p => p ++ toyTag nonce p
  Open := fun nonce c =>
    if 16 ≤ c.length ∧ c.drop (c.length - 16) = toyTag nonce (c.take (c.length - 16)) then
      some (c.take (c.length - 16))
    else none

/-- An environment with `toyAEAD` for every key and a fixed salt. -/
def toyEnv : Env :=
  { newAEAD := fun _ _ => toyAEAD, rand := .ok (List.replicate 16 7) }

/-- A compressor that copies: every `Write` passes its bytes on, `Flush` and `Close`
write nothing. -/
def copyCompressor : Compressor :=
  { State := Unit
    NewWriter := .ok ()
    Write := fun _ p => ((), [p], none)
    Flush := fun _ => ((), [], none)
    Close := fun _ => ((), [], none)
    FileExtension := ".gz".toList
    Name := "gzip".toList }

/-- The `fakeCompressor` of the repository tests: it copies, and its extension `.fake`
has no decompressor. -/
def fakeCompressor : Compressor :=
  { copyCompressor with FileExtension := ".fake".toList, Name := "fakeCompressor".toList }

/-- A compressor whose writer cannot be made. -/
def noWriterCompressor : Compressor :=
  { State := Unit
    NewWriter := .error (Err.msg "new writer failed")
    Write := fun _ p => ((), [p], none)
    Flush := fun _ => ((), [], none)
    Close := fun _ => ((), [], none)
    FileExtension := ".gz".toList
    Name := "gzip".toList }

/-- A compressor that copies and whose `Flush` and `Close` report an error. -/
def badCloseCompressor : Compressor :=
  { State := Unit
    NewWriter := .ok ()
    Write := fun _ p => ((), [p], none)
    Flush := fun _ => ((), [], some (Err.msg "flush failed"))
    Close := fun _ => ((), [], some (Err.msg "close failed"))
    FileExtension := ".gz".toList
    Name := "gzip".toList }

/-- An environment whose random source fails, so that `Encrypt` fails on the salt. -/
def noRandEnv : Env :=
  { newAEAD := fun _ _ => toyAEAD, rand := .error (Err.msg "no entropy") }

/-- An environment whose random source fails with `io.EOF`. -/
def eofRandEnv : Env :=
  { newAEAD := fun _ _ => toyAEAD, rand := .error Err.EOF }

/-- An encrypting writer over a pipe that takes no more bytes. -/
def stuckWriter : gcmChunkedWriter :=
  { aead := toyAEAD, w := { out := [], room := some 0 }, buf := [], chunkNum := 0 }

/-- A crypter whose writer stands over a pipe that takes no more bytes (its reader is
gone): a short source is copied into the writer's buffer without an error, and `Close`
fails when it flushes the buffer. -/
def stuckPipeCrypter : Crypter :=
  { Encrypt := fun w =>
      .ok { aead := toyAEAD, w := { out := w.out, room := some 0 }, buf := [], chunkNum := 0 }
    Decrypt := fun r => ChunkedGCMCrypter.Decrypt toyEnv { Password := "secret" } r
    FileExtension := ".aes".toList
    Name := "aes-256-gcm".toList }

/-- Libraries in which gzip and zstd copy their input. -/
def copyLib : CodecLib :=
  { gzipWriter := copyCompressor
    gzipReader := fun r => .ok (r, none)
    zstdWriter := copyCompressor
    zstdReader := fun r => .ok (r, none) }

/-- The encrypted stream of the plaintext `[1, 2, 3]` under `toyEnv`: 53 bytes. -/
def smallStream : Bytes :=
  headerPrefix ++ List.replicate 16 7 ++ frame toyAEAD (nonceOf 0) [1, 2, 3]

/-- As many bytes as a whole sealed chunk has under `toyAEAD`, all of them `1`: not
something `toyAEAD` seals. -/
@[irreducible] def junkCiphertext : Bytes := List.replicate 65552 1

/-- A plaintext chunk of `chunkSize` bytes, all of them `1`. -/
@[irreducible] def onesChunk : Bytes := List.replicate 65536 1

/-- A stream under `toyEnv` whose first chunk is a full-size chunk that does not
authenticate and whose second chunk is the sealed plaintext `[42]`. -/
def brokenThenGood : Bytes :=
  headerPrefix ++ List.replicate 16 7 ++ (nonceOf 0 ++ junkCiphertext) ++
    frame toyAEAD (nonceOf 1) [42]

/-- A stream under `toyEnv` whose first chunk seals the 65536 bytes of `onesChunk` and
whose second chunk does not authenticate. -/
def goodThenBroken : Bytes :=
  headerPrefix ++ List.replicate 16 7 ++ frame toyAEAD (nonceOf 0) onesChunk ++
    (nonceOf 1 ++ List.replicate 20 9)


/-! # Theorems -/

theorem byte_ofNat_congr (a b : Nat) (h : a % 256 = b % 256) :
    (Fin.ofNat a : Byte) = Fin.ofNat b := Fin.ext h

theorem be64_mod (v : Nat) : be64 (v % 2 ^ 64) = be64 v := by
  simp only [be64]
  rw [byte_ofNat_congr (v % 2 ^ 64 / 2 ^ 56) (v / 2 ^ 56) (by omega),
    byte_ofNat_congr (v % 2 ^ 64 / 2 ^ 48) (v / 2 ^ 48) (by omega),
    byte_ofNat_congr (v % 2 ^ 64 / 2 ^ 40) (v / 2 ^ 40) (by omega),
    byte_ofNat_congr (v % 2 ^ 64 / 2 ^ 32) (v / 2 ^ 32) (by omega),
    byte_ofNat_congr (v % 2 ^ 64 / 2 ^ 24) (v / 2 ^ 24) (by omega),
    byte_ofNat_congr (v % 2 ^ 64 / 2 ^ 16) (v / 2 ^ 16) (by omega),
    byte_ofNat_congr (v % 2 ^ 64 / 2 ^ 8) (v / 2 ^ 8) (by omega),
    byte_ofNat_congr (v % 2 ^ 64) v (by omega)]

theorem nonceOf_mod (v : Nat) : nonceOf (v % 2 ^ 64) = nonceOf v := by
  simp only [nonceOf, be64_mod]

theorem length_nonceOf (v : Nat) : (nonceOf v).length = nonceSize := by
  simp [nonceOf, be64, nonceSize]

theorem frames_append (a : AEAD) (L1 L2 : List Bytes) (k : Nat) :
    frames a k (L1 ++ L2) = frames a k L1 ++ frames a (k + L1.length) L2 := by
  induction L1 generalizing k with
  | nil => simp [frames]
  | cons c cs ih =>
    have h : k + 1 + cs.length = k + (cs.length + 1) := by omega
    rw [List.cons_append, frames, frames, ih, h, List.length_cons, List.append_assoc]

theorem Sink.Write_buffer (w : Sink) (p : Bytes) (h : w.room = none) :
    w.Write p = ({ out := w.out ++ p, room := none }, none) := by
  cases w with
  | mk out room =>
    simp only at h
    subst h
    rfl

theorem gcmChunkedWriter.flush_buffer (g : gcmChunkedWriter) (h : g.w.room = none) :
    g.flush = ({ g with w := { out := g.w.out ++ frame g.aead (nonceOf g.chunkNum) g.buf,
                               room := none },
                        chunkNum := (g.chunkNum + 1) % 2 ^ 64, buf := [] }, none) := by
  unfold gcmChunkedWriter.flush
  simp only [Sink.Write_buffer _ _ h]
  rw [Sink.Write_buffer _ _ rfl]
  simp only [frame, List.append_assoc]


theorem WInv.with_buf {g : gcmChunkedWriter} {hdr : Bytes} {L : List Bytes}
    (h : WInv g hdr L) (b : Bytes) : WInv { g with buf := b } hdr L :=
  ⟨h.room, h.out, h.full, h.num⟩

theorem gcmChunkedWriter.flush_inv {g : gcmChunkedWriter} {hdr : Bytes} {L : List Bytes}
    (h : WInv g hdr L) (hb : g.buf.length = chunkSize) :
    ∃ g2, g.flush = (g2, none) ∧ WInv g2 hdr (L ++ [g.buf]) ∧ g2.aead = g.aead ∧
      g2.buf = [] := by
  refine ⟨_, gcmChunkedWriter.flush_buffer g h.room, ⟨rfl, ?_, ?_, ?_⟩, rfl, rfl⟩
  · simp only [h.out, frames_append, frames, h.num, nonceOf_mod, List.append_assoc,
      List.append_nil, Nat.zero_add]
  · intro c hcm
    rcases List.mem_append.mp hcm with h1 | h1
    · exact h.full c h1
    · rw [List.mem_singleton.mp h1]; exact hb
  · simp only [h.num, List.length_append, List.length_singleton]; omega

theorem gcmChunkedWriter.writeLoop_inv (hdr : Bytes) :
    ∀ (fuel : Nat) (g : gcmChunkedWriter) (p : Bytes) (total : Nat) (L : List Bytes),
      WInv g hdr L → g.buf.length < chunkSize → p.length < fuel →
      ∃ g1 L1, g.writeLoop fuel p total = (g1, total + p.length, none) ∧ WInv g1 hdr L1 ∧
        g1.buf.length < chunkSize ∧
        g1.aead = g.aead ∧ L1.flatten ++ g1.buf = L.flatten ++ g.buf ++ p := by
  intro fuel
  induction fuel with
  | zero => intro g p total L _ _ h; omega
  | succ fuel ih =>
    intro g p total L hinv hb hlt
    unfold gcmChunkedWriter.writeLoop
    have hcs : (0:Nat) < chunkSize := by simp [chunkSize]
    by_cases hp : p.length = 0
    · have hp2 : p = [] := List.length_eq_zero.mp hp
      subst hp2
      exact ⟨g, L, by simp, hinv, hb, rfl, by simp⟩
    · rw [if_neg hp, if_neg (by omega)]
      by_cases hsp : chunkSize - g.buf.length > p.length
      · -- everything fits and the buffer stays short
        simp only [if_pos hsp, List.take_length, List.length_append]
        rw [if_neg (by omega)]
        obtain ⟨g1, L1, h1, h2, h2b, h3, h4⟩ :=
          ih { g with buf := g.buf ++ p } (p.drop p.length) (total + p.length) L
            (hinv.with_buf _) (by simp; omega) (by simp; omega)
        refine ⟨g1, L1, ?_, h2, h2b, h3, ?_⟩
        · rw [h1]; simp
        · rw [h4]; simp
      · simp only [if_neg hsp, List.length_append, List.length_take]
        have hmin : min (chunkSize - g.buf.length) p.length = chunkSize - g.buf.length := by
          omega
        rw [hmin, if_pos (by omega)]
        obtain ⟨g2, hf, hinv2, ha2, hb2⟩ := gcmChunkedWriter.flush_inv
          (hinv.with_buf (g.buf ++ List.take (chunkSize - g.buf.length) p))
          (by simp; omega)
        rw [hf]
        simp only []
        obtain ⟨g1, L1, h1, h2, h2b, h3, h4⟩ :=
          ih g2 (p.drop (chunkSize - g.buf.length)) (total + (chunkSize - g.buf.length)) _
            hinv2 (by rw [hb2]; simpa using hcs) (by simp; omega)
        refine ⟨g1, L1, ?_, h2, h2b, h3.trans ha2, ?_⟩
        · rw [h1]; simp; omega
        · rw [h4, hb2]; simp

/-! ### The reader -/

theorem ReadFull_ok (r : Source) (k : Nat) (h : k ≤ r.data.length) :
    ReadFull r k = ({ r with data := r.data.drop k }, r.data.take k, none) := by
  simp only [ReadFull, if_pos h]

theorem ReadFull_append (r : Source) (a b : Bytes) (k : Nat) (hd : r.data = a ++ b)
    (ha : a.length = k) : ReadFull r k = ({ r with data := b }, a, none) := by
  rw [ReadFull_ok r k (by rw [hd, List.length_append]; omega), hd, ← ha,
    List.drop_left, List.take_left]

theorem ReadFull_short (r : Source) (k : Nat) (h : r.data.length < k) :
    ReadFull r k = ({ r with data := [] }, r.data,
      some (if r.term = Err.EOF then
              (if r.data.length = 0 then Err.EOF else Err.ErrUnexpectedEOF)
            else r.term)) := by
  simp only [ReadFull, if_neg (Nat.not_le.mpr h)]

theorem ReadFull_length_le (r : Source) (k : Nat) :
    (ReadFull r k).1.data.length ≤ r.data.length := by
  unfold ReadFull
  split <;> simp

theorem ReadFull_term (r : Source) (k : Nat) : (ReadFull r k).1.term = r.term := by
  unfold ReadFull
  split <;> rfl

theorem ReadFull_none_length (r r1 : Source) (k : Nat) (bs : Bytes)
    (h : ReadFull r k = (r1, bs, none)) : r1.data.length + k = r.data.length := by
  unfold ReadFull at h
  split at h
  · simp only [Prod.mk.injEq] at h
    rw [← h.1]
    simp only [List.length_drop]
    omega
  · simp at h

/-- A chunk that opens uses up at least the nonce. -/
theorem readChunk_ok_length (a : AEAD) (r r2 : Source) (pt : Bytes)
    (h : readChunk a r = (r2, .ok pt)) : r2.data.length + nonceSize ≤ r.data.length := by
  unfold readChunk at h
  split at h
  · simp at h
  · rename_i r1 nonce h1
    have hl := ReadFull_none_length _ _ _ _ h1
    split at h
    rename_i r2' ct err h2
    have hl2 : r2'.data.length ≤ r1.data.length := by
      have := ReadFull_length_le r1 (chunkSize + a.Overhead)
      rw [h2] at this
      exact this
    split at h
    · simp at h
    · split at h
      · simp at h
      · simp only [Prod.mk.injEq] at h
        rw [← h.1]
        omega

theorem gcmChunkedReader.readAll_err (sizes : Nat → Nat) (fuel : Nat)
    (g g1 : gcmChunkedReader) (bs : Bytes) (e : Err)
    (h : g.Read (sizes 0) = (g1, bs, some e)) :
    g.readAll sizes (fuel + 1) = some (bs, e) := by
  rw [gcmChunkedReader.readAll, h]

theorem gcmChunkedReader.readAll_ok (sizes : Nat → Nat) (fuel : Nat)
    (g g1 : gcmChunkedReader) (bs : Bytes) (h : g.Read (sizes 0) = (g1, bs, none)) :
    g.readAll sizes (fuel + 1) =
      (g1.readAll (fun k => sizes (k + 1)) fuel).map (fun res => (bs ++ res.1, res.2)) := by
  rw [gcmChunkedReader.readAll, h]

theorem gcmChunkedReader.readAll_succ (sizes : Nat → Nat) (fuel : Nat)
    (g : gcmChunkedReader) (x : Bytes × Err) (h : g.readAll sizes fuel = some x) :
    g.readAll sizes (fuel + 1) = some x := by
  induction fuel generalizing sizes g x with
  | zero => simp [gcmChunkedReader.readAll] at h
  | succ fuel ih =>
    rcases hr : g.Read (sizes 0) with ⟨g1, bs, _ | e⟩
    · rw [gcmChunkedReader.readAll_ok _ _ _ _ _ hr] at h ⊢
      cases h2 : gcmChunkedReader.readAll (fun k => sizes (k + 1)) fuel g1 with
      | none => rw [h2] at h; simp at h
      | some y =>
        rw [ih _ _ _ h2]
        rw [h2] at h
        exact h
    · rw [gcmChunkedReader.readAll_err _ _ _ _ _ _ hr] at h ⊢
      exact h

theorem gcmChunkedReader.readAll_mono (sizes : Nat → Nat) (fuel fuel2 : Nat)
    (g : gcmChunkedReader) (x : Bytes × Err) (h : g.readAll sizes fuel = some x)
    (hle : fuel ≤ fuel2) : g.readAll sizes fuel2 = some x := by
  induction hle with
  | refl => exact h
  | step _ ih => exact gcmChunkedReader.readAll_succ _ _ _ _ ih

theorem gcmChunkedReader.Read_buf (g : gcmChunkedReader) (plen : Nat)
    (h : g.buf.length ≠ 0) :
    g.Read plen = ({ g with buf := g.buf.drop plen }, g.buf.take plen, none) := by
  simp only [gcmChunkedReader.Read, if_neg h, gcmChunkedReader.copyOut]

theorem gcmChunkedReader.Read_error (g : gcmChunkedReader) (plen : Nat) (r2 : Source)
    (e : Err) (h : g.buf = []) (hc : readChunk g.aead g.r = (r2, .error e)) :
    g.Read plen = ({ g with r := r2 }, [], some e) := by
  simp only [gcmChunkedReader.Read, h, List.length_nil, if_true, hc]

theorem gcmChunkedReader.Read_chunk (g : gcmChunkedReader) (plen : Nat) (r2 : Source)
    (pt : Bytes) (h : g.buf = []) (hc : readChunk g.aead g.r = (r2, .ok pt)) :
    g.Read plen = ({ g with r := r2, buf := pt.drop plen,
                            chunkNum := (g.chunkNum + 1) % 2 ^ 64 }, pt.take plen, none) := by
  simp only [gcmChunkedReader.Read, h, List.length_nil, if_true, hc,
    gcmChunkedReader.copyOut]

/-- Draining the buffer: what is buffered comes first. -/
theorem gcmChunkedReader.Delivers_buf (x : Bytes) (e : Err) :
    ∀ (n : Nat) (g : gcmChunkedReader), g.buf.length = n →
      gcmChunkedReader.Delivers { g with buf := [] } x e →
      gcmChunkedReader.Delivers g (g.buf ++ x) e := by
  intro n
  induction n using Nat.strong_induction_on with
  | _ n ih =>
    intro g hn hd
    by_cases hb : g.buf.length = 0
    · have hb2 : g.buf = [] := List.length_eq_zero.mp hb
      have hg : ({ g with buf := [] } : gcmChunkedReader) = g := by
        cases g; simp only at hb2; subst hb2; rfl
      rw [hg] at hd
      rw [hb2]
      exact hd
    · intro sizes hpos
      have h0 := hpos 0
      have hr := gcmChunkedReader.Read_buf g (sizes 0) hb
      have hlt : (g.buf.drop (sizes 0)).length < n := by
        rw [List.length_drop]; omega
      obtain ⟨N, hN⟩ := ih _ hlt { g with buf := g.buf.drop (sizes 0) } rfl hd
        (fun k => sizes (k + 1)) (fun k => hpos (k + 1))
      refine ⟨N + 1, fun fuel hf => ?_⟩
      obtain ⟨f, rfl⟩ : ∃ f, fuel = f + 1 := ⟨fuel - 1, by omega⟩
      rw [gcmChunkedReader.readAll_ok _ _ _ _ _ hr, hN f (by omega)]
      simp only [Option.map_some', ← List.append_assoc, List.take_append_drop]

theorem gcmChunkedReader.Delivers_error (g : gcmChunkedReader) (r2 : Source) (e : Err)
    (h : g.buf = []) (hc : readChunk g.aead g.r = (r2, .error e)) :
    gcmChunkedReader.Delivers g [] e := by
  intro sizes _
  refine ⟨1, fun fuel hf => ?_⟩
  obtain ⟨f, rfl⟩ : ∃ f, fuel = f + 1 := ⟨fuel - 1, by omega⟩
  exact gcmChunkedReader.readAll_err _ _ _ _ _ _
    (gcmChunkedReader.Read_error g (sizes 0) r2 e h hc)

theorem gcmChunkedReader.Delivers_chunk (g : gcmChunkedReader) (r2 : Source)
    (pt x : Bytes) (e : Err) (h : g.buf = [])
    (hc : readChunk g.aead g.r = (r2, .ok pt))
    (hd : gcmChunkedReader.Delivers
      { g with r := r2, chunkNum := (g.chunkNum + 1) % 2 ^ 64 } x e) :
    gcmChunkedReader.Delivers g (pt ++ x) e := by
  intro sizes hpos
  have hr := gcmChunkedReader.Read_chunk g (sizes 0) r2 pt h hc
  have hd2 : gcmChunkedReader.Delivers
      { g with r := r2, buf := pt.drop (sizes 0), chunkNum := (g.chunkNum + 1) % 2 ^ 64 }
      (pt.drop (sizes 0) ++ x) e := by
    refine gcmChunkedReader.Delivers_buf x e _
      { g with r := r2, buf := pt.drop (sizes 0), chunkNum := (g.chunkNum + 1) % 2 ^ 64 }
      rfl ?_
    simp only []
    rw [h] at hd
    exact hd
  obtain ⟨N, hN⟩ := hd2 (fun k => sizes (k + 1)) (fun k => hpos (k + 1))
  refine ⟨N + 1, fun fuel hf => ?_⟩
  obtain ⟨f, rfl⟩ : ∃ f, fuel = f + 1 := ⟨fuel - 1, by omega⟩
  rw [gcmChunkedReader.readAll_ok _ _ _ _ _ hr, hN f (by omega)]
  simp only [Option.map_some', ← List.append_assoc, List.take_append_drop]

/-- The reader delivers what `openChunks` computes, whatever the buffer sizes and the
value of its counter. -/
theorem gcmChunkedReader.Delivers_openChunks (a : AEAD) :
    ∀ (fuel : Nat) (r : Source) (cn : Nat), r.data.length < fuel →
      gcmChunkedReader.Delivers { aead := a, r := r, chunkNum := cn, buf := [] }
        (openChunks a fuel r).1 (openChunks a fuel r).2 := by
  intro fuel
  induction fuel with
  | zero => intro r cn h; omega
  | succ fuel ih =>
    intro r cn hlt
    rcases hc : readChunk a r with ⟨r2, e | pt⟩
    · simp only [openChunks, hc]
      exact gcmChunkedReader.Delivers_error _ r2 e rfl hc
    · simp only [openChunks, hc]
      have hl := readChunk_ok_length a r r2 pt hc
      have hn : (0:Nat) < nonceSize := by simp [nonceSize]
      exact gcmChunkedReader.Delivers_chunk
        { aead := a, r := r, chunkNum := cn, buf := [] } r2 pt _ _ rfl hc
        (ih r2 _ (by omega))

theorem gcmChunkedReader.Delivers_stream (g : gcmChunkedReader) :
    gcmChunkedReader.Delivers g g.stream.data g.stream.term := by
  have h := gcmChunkedReader.Delivers_openChunks g.aead (g.r.data.length + 1) g.r
    g.chunkNum (Nat.lt_succ_self _)
  exact gcmChunkedReader.Delivers_buf _ _ _ g rfl h

theorem frames_eq_wire (a : AEAD) (k : Nat) (L : List Bytes) :
    frames a k L = wire a (numbered k L) := by
  induction L generalizing k with
  | nil => rfl
  | cons c cs ih => simp only [frames, numbered, wire, ih]

theorem readChunk_nil (a : AEAD) (r : Source) (h : r.data = []) :
    readChunk a r = (r, .error r.term) := by
  have hs : r.data.length < nonceSize := by rw [h]; simp [nonceSize]
  unfold readChunk
  rw [ReadFull_short r _ hs]
  cases r with
  | mk data term =>
    simp only at h
    subst h
    by_cases ht : term = Err.EOF <;> simp [ht]

/-- A whole chunk in front of more data is read and opened. -/
theorem readChunk_frame_full (a : AEAD) (ha : a.Lawful) (r : Source) (n c rest : Bytes)
    (hd : r.data = frame a n c ++ rest) (hn : n.length = nonceSize)
    (hc : c.length = chunkSize) :
    readChunk a r = ({ r with data := rest }, .ok c) := by
  unfold readChunk
  rw [ReadFull_append r n (a.Seal n c ++ rest) nonceSize
    (by rw [hd, frame, List.append_assoc]) hn]
  simp only []
  rw [ReadFull_append { r with data := a.Seal n c ++ rest } (a.Seal n c) rest
    (chunkSize + a.Overhead) rfl (by rw [ha.length_Seal, hc])]
  simp [ha.Open_Seal]

/-- The last chunk, possibly short, is read and opened when the source ends with
`io.EOF`. -/
theorem readChunk_frame_last (a : AEAD) (ha : a.Lawful) (r : Source) (n c : Bytes)
    (hd : r.data = frame a n c) (hn : n.length = nonceSize)
    (hc : c.length ≤ chunkSize) (ht : r.term = Err.EOF) :
    readChunk a r = ({ r with data := [] }, .ok c) := by
  by_cases hfull : c.length = chunkSize
  · exact readChunk_frame_full a ha r n c [] (by rw [hd, List.append_nil]) hn hfull
  · unfold readChunk
    rw [ReadFull_append r n (a.Seal n c) nonceSize (by rw [hd, frame]) hn]
    simp only []
    rw [ReadFull_short _ _ (by simp only [ha.length_Seal]; omega)]
    simp only [ht, if_true]
    by_cases h0 : (a.Seal n c).length = 0
    · simp [h0, ha.Open_Seal]
    · simp [h0, ha.Open_Seal]

/-- Decrypting a well-framed chunk sequence gives back the chunks and ends cleanly. -/
theorem openChunks_wire (a : AEAD) (ha : a.Lawful) :
    ∀ (pairs : List (Bytes × Bytes)) (fuel : Nat) (r : Source), Framed pairs →
      r.data = wire a pairs → r.term = Err.EOF → r.data.length < fuel →
      openChunks a fuel r = ((pairs.map (fun nc => nc.2)).flatten, Err.EOF) := by
  intro pairs
  induction pairs with
  | nil =>
    intro fuel r _ hd ht hf
    obtain ⟨f, rfl⟩ : ∃ f, fuel = f + 1 := ⟨fuel - 1, by omega⟩
    simp only [wire] at hd
    simp [openChunks, readChunk_nil a r hd, ht]
  | cons nc rest ih =>
    intro fuel r hfr hd ht hf
    obtain ⟨f, rfl⟩ : ∃ f, fuel = f + 1 := ⟨fuel - 1, by omega⟩
    cases rest with
    | nil =>
      simp only [Framed] at hfr
      simp only [wire, List.append_nil] at hd
      have h1 := readChunk_frame_last a ha r nc.1 nc.2 hd hfr.1 hfr.2 ht
      have hpos : 0 < f := by
        have := congrArg List.length hd
        simp only [frame, List.length_append, hfr.1, nonceSize] at this
        omega
      have h2 := ih f { r with data := [] } trivial rfl ht
        (by simp only [List.length_nil]; exact hpos)
      simp only [openChunks, h1, h2]
      simp
    | cons nc2 rest2 =>
      simp only [Framed] at hfr
      simp only [wire] at hd
      have h1 := readChunk_frame_full a ha r nc.1 nc.2 _ hd hfr.1 hfr.2.1
      have hlen : (frame a nc2.1 nc2.2 ++ wire a rest2).length < f := by
        have := congrArg List.length hd
        simp only [List.length_append] at this ⊢
        have hnn : (frame a nc.1 nc.2).length ≥ 1 := by
          simp only [frame, List.length_append, hfr.1, nonceSize]; omega
        omega
      have h2 := ih f { r with data := frame a nc2.1 nc2.2 ++ wire a rest2 } hfr.2.2
        (by simp only [wire]) ht hlen
      simp only [openChunks, h1, h2]
      simp

theorem toyTag_length (n p : Bytes) : (toyTag n p).length = 16 := by
  simp [toyTag]

theorem toyAEAD_lawful : toyAEAD.Lawful := by
  constructor
  · intro n p
    simp [toyAEAD, toyTag_length]
  · intro n p
    simp [toyAEAD, toyTag_length]

theorem ChunkedGCMCrypter.Encrypt_ok (env : Env) (c : ChunkedGCMCrypter) (w : Sink)
    (salt : Bytes) (hr : env.rand = .ok salt) (hw : w.room = none) :
    c.Encrypt env w = .ok { aead := env.newAEAD c.Password salt,
                            w := { out := w.out ++ headerPrefix ++ salt, room := none },
                            buf := [], chunkNum := 0 } := by
  simp only [ChunkedGCMCrypter.Encrypt, ChunkedGCMCrypter.EncryptTraced, hr,
    Sink.Write_buffer _ _ hw]
  rw [Sink.Write_buffer _ _ rfl]

theorem gcmChunkedWriter.Write_inv (hdr : Bytes) (g : gcmChunkedWriter) (p : Bytes)
    (L : List Bytes) (hinv : WInv g hdr L) (hb : g.buf.length < chunkSize) :
    ∃ g1 L1, g.Write p = (g1, p.length, none) ∧ WInv g1 hdr L1 ∧
      g1.buf.length < chunkSize ∧ g1.aead = g.aead ∧
      L1.flatten ++ g1.buf = L.flatten ++ g.buf ++ p := by
  obtain ⟨g1, L1, h1, h2, h3, h4, h5⟩ :=
    gcmChunkedWriter.writeLoop_inv hdr (p.length + 2) g p 0 L hinv hb (by omega)
  exact ⟨g1, L1, by rw [gcmChunkedWriter.Write, h1, Nat.zero_add], h2, h3, h4, h5⟩

theorem gcmChunkedWriter.writeAll_inv (hdr : Bytes) :
    ∀ (writes : List Bytes) (g : gcmChunkedWriter) (L : List Bytes), WInv g hdr L →
      g.buf.length < chunkSize →
      ∃ g1 L1, g.writeAll writes = (g1, none) ∧ WInv g1 hdr L1 ∧
        g1.buf.length < chunkSize ∧ g1.aead = g.aead ∧
        L1.flatten ++ g1.buf = L.flatten ++ g.buf ++ writes.flatten := by
  intro writes
  induction writes with
  | nil => intro g L hinv hb; exact ⟨g, L, rfl, hinv, hb, rfl, by simp⟩
  | cons p ps ih =>
    intro g L hinv hb
    obtain ⟨g1, L1, h1, h2, h3, h4, h5⟩ := gcmChunkedWriter.Write_inv hdr g p L hinv hb
    obtain ⟨g2, L2, k1, k2, k3, k4, k5⟩ := ih g1 L1 h2 h3
    refine ⟨g2, L2, ?_, k2, k3, k4.trans h4, ?_⟩
    · simp only [gcmChunkedWriter.writeAll, h1, k1]
    · rw [k5, h5]; simp

theorem gcmChunkedWriter.Close_inv (hdr : Bytes) (g : gcmChunkedWriter) (L : List Bytes)
    (hinv : WInv g hdr L) :
    ∃ g1, g.Close = (g1, none) ∧
      g1.w = { out := hdr ++ frames g.aead 0 (L ++ lastChunk g.buf), room := none } := by
  unfold gcmChunkedWriter.Close lastChunk
  by_cases hb : g.buf.length > 0
  · simp only [if_pos hb, gcmChunkedWriter.flush_buffer g hinv.room]
    refine ⟨_, rfl, ?_⟩
    simp only [hinv.out, frames_append, frames, hinv.num, nonceOf_mod, List.append_assoc,
      List.append_nil, Nat.zero_add]
  · simp only [if_neg hb, List.append_nil]
    refine ⟨g, rfl, ?_⟩
    have h1 := hinv.room
    have h2 := hinv.out
    cases hw : g.w with
    | mk out room =>
      rw [hw] at h1 h2
      simp only at h1 h2
      rw [h1, h2]

/-- The sink after `Encrypt`, any writes and `Close`: magic, salt and the frames of the
chunk sequence of the plaintext. -/
theorem encryptTo_eq (env : Env) (c : ChunkedGCMCrypter) (salt : Bytes)
    (writes : List Bytes) (hr : env.rand = .ok salt) :
    ∃ L b, encryptTo env c Sink.buffer writes =
        .ok { out := headerPrefix ++ salt ++
                frames (env.newAEAD c.Password salt) 0 (L ++ lastChunk b), room := none } ∧
      (∀ x ∈ L, x.length = chunkSize) ∧ b.length < chunkSize ∧
      L.flatten ++ b = writes.flatten := by
  have he := ChunkedGCMCrypter.Encrypt_ok env c Sink.buffer salt hr rfl
  have hcs : (0:Nat) < chunkSize := by simp [chunkSize]
  obtain ⟨g1, L1, h1, h2, h3, h4, h5⟩ := gcmChunkedWriter.writeAll_inv
    (headerPrefix ++ salt) writes
    { aead := env.newAEAD c.Password salt,
      w := { out := Sink.buffer.out ++ headerPrefix ++ salt, room := none },
      buf := [], chunkNum := 0 } []
    ⟨rfl, by simp [frames, Sink.buffer], by simp, by simp⟩ (by simpa using hcs)
  obtain ⟨g2, k1, k2⟩ := gcmChunkedWriter.Close_inv _ g1 L1 h2
  refine ⟨L1, g1.buf, ?_, h2.full, h3, by simpa using h5⟩
  simp only [encryptTo, he, h1, k1, k2]
  simp only [] at h4
  rw [h4]

theorem specNonce_eq (i : Nat) : specNonce i = nonceOf i := by
  simp [specNonce, nonceOf, nonceSize]

theorem frames_eq_flatMap (a : AEAD) (L : List Bytes) (k : Nat) :
    frames a k L = (List.range L.length).flatMap
      (fun i => frame a (nonceOf (k + i)) (L.getD i [])) := by
  induction L generalizing k with
  | nil => simp [frames]
  | cons c cs ih =>
    rw [frames, ih, List.length_cons, List.range_succ_eq_map, List.flatMap_cons,
      List.flatMap_map]
    simp only [Nat.add_zero, List.getD_cons_zero]
    congr 1
    apply List.flatMap_congr
    intro i _
    simp only [Function.comp, List.getD_cons_succ]
    rw [show k + 1 + i = k + Nat.succ i by omega]

theorem length_flatten_full (L : List Bytes) (h : ∀ x ∈ L, x.length = chunkSize) :
    L.flatten.length = chunkSize * L.length := by
  induction L with
  | nil => simp
  | cons c cs ih =>
    simp only [List.flatten_cons, List.length_append, List.length_cons]
    rw [ih (fun x hx => h x (List.mem_cons_of_mem _ hx)), h c (List.mem_cons_self _ _)]
    ring

theorem specChunk_append (c P : Bytes) (i : Nat) (hc : c.length = 65536) :
    specChunk (c ++ P) (i + 1) = specChunk P i := by
  unfold specChunk
  have h1 : min (65536 * (i + 1 + 1)) (c ++ P).length
      = c.length + min (65536 * (i + 1)) P.length := by
    rw [List.length_append]; omega
  have h2 : 65536 * (i + 1) = c.length + 65536 * i := by omega
  rw [h1, List.take_append, h2, List.drop_append]

theorem specChunk_zero_full (c P : Bytes) (hc : c.length = 65536) :
    specChunk (c ++ P) 0 = c := by
  unfold specChunk
  have h1 : min (65536 * (0 + 1)) (c ++ P).length = c.length := by
    rw [List.length_append]; omega
  rw [h1, List.take_left]
  rfl

theorem specChunk_zero_last (b : Bytes) (hb : b.length ≤ 65536) : specChunk b 0 = b := by
  unfold specChunk
  have h1 : min (65536 * (0 + 1)) b.length = b.length := by omega
  rw [h1, List.take_length]
  rfl

/-- The chunks the writer cuts are the slices of the format. -/
theorem getD_chunks (L : List Bytes) (b : Bytes) (h : ∀ x ∈ L, x.length = chunkSize)
    (hb : b.length ≤ chunkSize) :
    ∀ i, i ≤ L.length → (L ++ [b]).getD i [] = specChunk (L.flatten ++ b) i := by
  have hcs : chunkSize = 65536 := by simp [chunkSize]
  induction L with
  | nil =>
    intro i hi
    have : i = 0 := by simpa using hi
    subst this
    simp only [List.nil_append, List.flatten_nil, List.getD_cons_zero]
    exact (specChunk_zero_last b (by omega)).symm
  | cons c cs ih =>
    intro i hi
    have hc : c.length = 65536 := by rw [← hcs]; exact h c (List.mem_cons_self _ _)
    cases i with
    | zero =>
      simp only [List.cons_append, List.getD_cons_zero, List.flatten_cons, List.append_assoc]
      exact (specChunk_zero_full c _ hc).symm
    | succ j =>
      simp only [List.cons_append, List.getD_cons_succ, List.flatten_cons, List.append_assoc]
      rw [specChunk_append c _ j hc]
      exact ih (fun x hx => h x (List.mem_cons_of_mem _ hx)) j
        (by simpa using hi)

/-- The frames of the chunk sequence, written as the format words them. -/
theorem frames_eq_spec (a : AEAD) (L : List Bytes) (b : Bytes)
    (h : ∀ x ∈ L, x.length = chunkSize) (hb : b.length < chunkSize) :
    frames a 0 (L ++ lastChunk b) =
      (List.range (((L.flatten ++ b).length + 65535) / 65536)).flatMap
        (fun i => specNonce i ++ a.Seal (specNonce i) (specChunk (L.flatten ++ b) i)) := by
  have hcs : chunkSize = 65536 := by simp [chunkSize]
  have hlen : (L.flatten ++ b).length = 65536 * L.length + b.length := by
    rw [List.length_append, length_flatten_full L h, hcs]
  have hm : ((L.flatten ++ b).length + 65535) / 65536 = (L ++ lastChunk b).length := by
    rw [hlen, List.length_append]
    unfold lastChunk
    by_cases h0 : b.length > 0
    · simp only [if_pos h0, List.length_singleton]; omega
    · simp only [if_neg h0, List.length_nil]; omega
  rw [frames_eq_flatMap, hm]
  apply List.flatMap_congr
  intro i hi
  rw [List.mem_range] at hi
  simp only [Nat.zero_add, frame, specNonce_eq]
  congr 2
  unfold lastChunk at hi ⊢
  by_cases h0 : b.length > 0
  · simp only [if_pos h0, List.length_append, List.length_singleton] at hi ⊢
    exact getD_chunks L b h (by omega) i (by omega)
  · simp only [if_neg h0, List.length_append, List.length_nil, List.append_nil,
      Nat.add_zero] at hi ⊢
    have := getD_chunks L b h (by omega) i (by omega)
    rw [← this, List.getD_append _ _ _ _ hi]

theorem Framed_numbered_full (L : List Bytes) (k : Nat)
    (h : ∀ x ∈ L, x.length = chunkSize) : Framed (numbered k L) := by
  induction L generalizing k with
  | nil => trivial
  | cons c cs ih =>
    have hc := h c (List.mem_cons_self _ _)
    have ih2 := ih (k + 1) (fun x hx => h x (List.mem_cons_of_mem _ hx))
    cases cs with
    | nil => exact ⟨length_nonceOf k, by simp only []; omega⟩
    | cons c2 cs2 =>
      exact ⟨length_nonceOf k, hc, ih2⟩

theorem Framed_numbered (L : List Bytes) (b : Bytes) (k : Nat)
    (h : ∀ x ∈ L, x.length = chunkSize) (hb : b.length ≤ chunkSize) :
    Framed (numbered k (L ++ [b])) := by
  induction L generalizing k with
  | nil => exact ⟨length_nonceOf k, hb⟩
  | cons c cs ih =>
    have hc := h c (List.mem_cons_self _ _)
    have ih2 := ih (k + 1) (fun x hx => h x (List.mem_cons_of_mem _ hx))
    cases cs with
    | nil => exact ⟨length_nonceOf k, hc, ih2⟩
    | cons c2 cs2 => exact ⟨length_nonceOf k, hc, ih2⟩

theorem Framed_numbered_lastChunk (L : List Bytes) (b : Bytes) (k : Nat)
    (h : ∀ x ∈ L, x.length = chunkSize) (hb : b.length ≤ chunkSize) :
    Framed (numbered k (L ++ lastChunk b)) := by
  unfold lastChunk
  split
  · exact Framed_numbered L b k h hb
  · rw [List.append_nil]; exact Framed_numbered_full L k h

theorem map_snd_numbered (L : List Bytes) (k : Nat) :
    (numbered k L).map (fun nc => nc.2) = L := by
  induction L generalizing k with
  | nil => rfl
  | cons c cs ih => simp only [numbered, List.map_cons, ih]

theorem flatten_lastChunk (L : List Bytes) (b : Bytes) :
    (L ++ lastChunk b).flatten = L.flatten ++ b := by
  unfold lastChunk
  split
  · simp
  · rename_i h
    have : b = [] := List.length_eq_zero.mp (by omega)
    simp [this]

theorem ChunkedGCMCrypter.Decrypt_header (env : Env) (c : ChunkedGCMCrypter)
    (salt X : Bytes) (t : Err) (hs : salt.length = saltSize) :
    c.Decrypt env { data := headerPrefix ++ salt ++ X, term := t } =
      .ok { aead := env.newAEAD c.Password salt, r := { data := X, term := t },
            chunkNum := 0, buf := [] } := by
  unfold ChunkedGCMCrypter.Decrypt ChunkedGCMCrypter.DecryptTraced
  rw [ReadFull_append _ (headerPrefix ++ salt) X _ rfl
    (by rw [List.length_append, hs])]
  simp only [List.take_left, List.drop_left, ne_eq, not_true_eq_false, if_false]

/-- C2. Whatever the password, the salt and the split of the plaintext into `Write`
calls, when the sink accepts every write the encrypted stream is accepted by `Decrypt`
under the same password, and a caller reading with any non-empty buffers receives
exactly the plaintext and then `io.EOF`. -/
theorem C2_encrypt_decrypt_roundtrip (env : Env) (c : ChunkedGCMCrypter) (salt : Bytes)
    (writes : List Bytes) (hr : env.rand = .ok salt) (hs : salt.length = saltSize)
    (ha : (env.newAEAD c.Password salt).Lawful) :
    ∃ S g, encryptTo env c Sink.buffer writes = .ok S ∧
      c.Decrypt env (bytesReader S.out) = .ok g ∧
      ∀ sizes : Nat → Nat, (∀ k, 0 < sizes k) →
        ∃ N, ∀ fuel, N ≤ fuel → g.readAll sizes fuel = some (writes.flatten, Err.EOF) := by
  obtain ⟨L, b, h1, h2, h3, h4⟩ := encryptTo_eq env c salt writes hr
  refine ⟨_, _, h1, ChunkedGCMCrypter.Decrypt_header env c salt _ Err.EOF hs, ?_⟩
  have hfr := Framed_numbered_lastChunk L b 0 h2 (Nat.le_of_lt h3)
  have ho := openChunks_wire _ ha (numbered 0 (L ++ lastChunk b))
    ((frames (env.newAEAD c.Password salt) 0 (L ++ lastChunk b)).length + 1)
    { data := frames (env.newAEAD c.Password salt) 0 (L ++ lastChunk b), term := Err.EOF }
    hfr (frames_eq_wire _ _ _) rfl (Nat.lt_succ_self _)
  have hd := gcmChunkedReader.Delivers_openChunks (env.newAEAD c.Password salt) _
    { data := frames (env.newAEAD c.Password salt) 0 (L ++ lastChunk b), term := Err.EOF }
    0 (Nat.lt_succ_self _)
  rw [ho, map_snd_numbered, flatten_lastChunk, h4] at hd
  exact hd

theorem C2_encrypt_decrypt_roundtrip_witness :
    toyEnv.rand = .ok (List.replicate 16 7) ∧ (List.replicate 16 (7 : Byte)).length = saltSize ∧
    ∃ S g, encryptTo toyEnv ⟨"secret"⟩ Sink.buffer [[1, 2, 3], [], [4, 5]] = .ok S ∧
      ChunkedGCMCrypter.Decrypt toyEnv ⟨"secret"⟩ (bytesReader S.out) = .ok g ∧
      ∀ sizes : Nat → Nat, (∀ k, 0 < sizes k) →
        ∃ N, ∀ fuel, N ≤ fuel →
          g.readAll sizes fuel = some ([[1, 2, 3], [], [4, 5]].flatten, Err.EOF) :=
  ⟨rfl, rfl, C2_encrypt_decrypt_roundtrip toyEnv ⟨"secret"⟩ (List.replicate 16 7)
    [[1, 2, 3], [], [4, 5]] rfl rfl toyAEAD_lawful⟩

theorem encryptTo_specStream (env : Env) (c : ChunkedGCMCrypter) (salt : Bytes)
    (writes : List Bytes) (hr : env.rand = .ok salt) :
    encryptTo env c Sink.buffer writes =
        .ok { out := specStream (env.newAEAD c.Password salt) salt writes.flatten,
              room := none } := by
  obtain ⟨L, b, h1, h2, h3, h4⟩ := encryptTo_eq env c salt writes hr
  rw [h1, frames_eq_spec _ L b h2 h3, h4]
  rfl

/-- C3. After `Encrypt`, any writes of a plaintext `P` and `Close` on a sink that never
fails, the sink holds the magic, the salt and, for `i` from `0` to `ceil(n/65536) - 1`,
the nonce of `i` followed by the seal of `P[65536*i : min(65536*(i+1), n)]`; for the
empty plaintext it holds the magic and the salt only. -/
theorem C3_stream_format (env : Env) (c : ChunkedGCMCrypter) (salt : Bytes)
    (writes : List Bytes) (hr : env.rand = .ok salt) :
    encryptTo env c Sink.buffer writes =
        .ok { out := specStream (env.newAEAD c.Password salt) salt writes.flatten,
              room := none } ∧
      (writes.flatten = [] →
        specStream (env.newAEAD c.Password salt) salt writes.flatten
          = [65, 69, 65, 68, 118, 49] ++ salt) := by
  refine ⟨encryptTo_specStream env c salt writes hr, ?_⟩
  intro h0
  simp [specStream, h0]

theorem C3_stream_format_witness :
    toyEnv.rand = .ok (List.replicate 16 7) ∧
    (encryptTo toyEnv ⟨"secret"⟩ Sink.buffer [[1, 2, 3], [4, 5]] =
        .ok { out := specStream (toyEnv.newAEAD "secret" (List.replicate 16 7))
                (List.replicate 16 7) [[1, 2, 3], [4, 5]].flatten,
              room := none } ∧
      ([[1, 2, 3], [4, 5]].flatten = ([] : Bytes) →
        specStream (toyEnv.newAEAD "secret" (List.replicate 16 7)) (List.replicate 16 7)
            [[1, 2, 3], [4, 5]].flatten
          = [65, 69, 65, 68, 118, 49] ++ List.replicate 16 7)) :=
  ⟨rfl, C3_stream_format toyEnv ⟨"secret"⟩ (List.replicate 16 7) [[1, 2, 3], [4, 5]] rfl⟩

/-- C5. `Decrypt` fails exactly when the source has fewer than 22 bytes or does not
start with the magic; with 22 bytes and a wrong magic the error is "invalid file
header"; and whenever it fails it has derived no key and built no cipher (so no AEAD
exists to operate with). -/
theorem C5_decrypt_header_errors (env : Env) (c : ChunkedGCMCrypter) (r : Source) :
    ((∃ e, c.Decrypt env r = .error e) ↔
        (r.data.length < 22 ∨ r.data.take 6 ≠ headerPrefix)) ∧
      (22 ≤ r.data.length → r.data.take 6 ≠ headerPrefix →
        c.Decrypt env r = .error (Err.msg "invalid file header")) ∧
      (∀ e, c.Decrypt env r = .error e → (c.DecryptTraced env r).1 = []) := by
  have hk : headerPrefix.length + saltSize = 22 := rfl
  have h6 : headerPrefix.length = 6 := rfl
  by_cases hlen : r.data.length < 22
  · have hd : c.DecryptTraced env r = ([], .error
        (if r.term = Err.EOF then
          (if r.data.length = 0 then Err.EOF else Err.ErrUnexpectedEOF) else r.term)) := by
      unfold ChunkedGCMCrypter.DecryptTraced
      rw [hk, ReadFull_short r 22 hlen]
    refine ⟨⟨fun _ => Or.inl hlen, fun _ => ⟨_, by
      rw [ChunkedGCMCrypter.Decrypt, hd]⟩⟩, fun h => absurd hlen (by omega), ?_⟩
    intro e _
    rw [hd]
  · have hge : 22 ≤ r.data.length := by omega
    have htk : (r.data.take 22).take 6 = r.data.take 6 := by
      rw [List.take_take]; rfl
    by_cases hm : r.data.take 6 = headerPrefix
    · have hd : c.DecryptTraced env r =
          ([CryptoOp.IDKey c.Password ((r.data.take 22).drop 6), CryptoOp.NewCipher,
            CryptoOp.NewGCM],
           .ok { aead := env.newAEAD c.Password ((r.data.take 22).drop 6),
                 r := { r with data := r.data.drop 22 }, chunkNum := 0, buf := [] }) := by
        unfold ChunkedGCMCrypter.DecryptTraced
        rw [hk, ReadFull_ok r 22 hge]
        simp only [h6, htk, hm, ne_eq, not_true_eq_false, if_false]
      refine ⟨⟨?_, ?_⟩, fun _ h => absurd hm h, ?_⟩
      · rintro ⟨e, he⟩
        rw [ChunkedGCMCrypter.Decrypt, hd] at he
        cases he
      · rintro (h | h)
        · exact absurd h hlen
        · exact absurd hm h
      · intro e he
        rw [ChunkedGCMCrypter.Decrypt, hd] at he
        cases he
    · have hd : c.DecryptTraced env r = ([], .error errInvalidHeader) := by
        unfold ChunkedGCMCrypter.DecryptTraced
        rw [hk, ReadFull_ok r 22 hge]
        simp only [h6, htk, hm, ne_eq, not_false_eq_true, if_true]
      refine ⟨⟨fun _ => Or.inr hm, fun _ => ⟨_, by
        rw [ChunkedGCMCrypter.Decrypt, hd]⟩⟩, fun _ _ => by
        rw [ChunkedGCMCrypter.Decrypt, hd]; rfl, ?_⟩
      intro e _
      rw [hd]

/-! ### Streams with a chunk that does not authenticate -/

theorem wire_append (a : AEAD) (p q : List (Bytes × Bytes)) :
    wire a (p ++ q) = wire a p ++ wire a q := by
  induction p with
  | nil => rfl
  | cons nc rest ih => rw [List.cons_append, wire, wire, ih, List.append_assoc]

/-- Whole chunks in front of a chunk that fails: the reader delivers the whole chunks,
then the error. -/
theorem gcmChunkedReader.Delivers_prefix (a : AEAD) (ha : a.Lawful) (tail : Bytes)
    (t e : Err) (hfail : (readChunk a { data := tail, term := t }).2 = .error e) :
    ∀ (pairs : List (Bytes × Bytes)) (cn : Nat),
      (∀ nc ∈ pairs, nc.1.length = nonceSize ∧ nc.2.length = chunkSize) →
      gcmChunkedReader.Delivers
        { aead := a, r := { data := wire a pairs ++ tail, term := t }, chunkNum := cn,
          buf := [] }
        (pairs.map (fun nc => nc.2)).flatten e := by
  intro pairs
  induction pairs with
  | nil =>
    intro cn _
    simp only [wire, List.nil_append, List.map_nil, List.flatten_nil]
    rcases hc : readChunk a { data := tail, term := t } with ⟨r2, res⟩
    rw [hc] at hfail
    simp only at hfail
    subst hfail
    exact gcmChunkedReader.Delivers_error _ r2 e rfl hc
  | cons nc rest ih =>
    intro cn hfull
    have h1 := hfull nc (List.mem_cons_self _ _)
    have hc := readChunk_frame_full a ha
      { data := wire a (nc :: rest) ++ tail, term := t } nc.1 nc.2 (wire a rest ++ tail)
      (by simp only [wire, List.append_assoc]) h1.1 h1.2
    simp only [List.map_cons, List.flatten_cons]
    exact gcmChunkedReader.Delivers_chunk _ _ nc.2 _ e rfl hc
      (ih _ (fun x hx => hfull x (List.mem_cons_of_mem _ hx)))

/-- A whole nonce and a full-size ciphertext that does not open. -/
theorem readChunk_reject_full (a : AEAD) (r : Source) (n ct rest : Bytes)
    (hd : r.data = n ++ ct ++ rest) (hn : n.length = nonceSize)
    (hc : ct.length = chunkSize + a.Overhead) (ho : a.Open n ct = none) :
    readChunk a r = ({ r with data := rest }, .error errDecryptionFailed) := by
  unfold readChunk
  rw [ReadFull_append r n (ct ++ rest) nonceSize (by rw [hd, List.append_assoc]) hn]
  simp only []
  rw [ReadFull_append { r with data := ct ++ rest } ct rest (chunkSize + a.Overhead) rfl hc]
  simp [ho]

/-- Whatever follows the nonce, up to a full-size ciphertext, is what the reader tries
to open; when it does not open, `Read` reports the decryption failure. -/
theorem readChunk_reject (a : AEAD) (data : Bytes) (h12 : nonceSize ≤ data.length)
    (ho : a.Open (data.take nonceSize)
      ((data.drop nonceSize).take (chunkSize + a.Overhead)) = none) :
    (readChunk a { data := data, term := Err.EOF }).2 = .error errDecryptionFailed := by
  unfold readChunk
  rw [ReadFull_ok _ nonceSize h12]
  simp only []
  by_cases hfull : chunkSize + a.Overhead ≤ (data.drop nonceSize).length
  · rw [ReadFull_ok _ _ hfull]
    simp [ho]
  · have hlt : (data.drop nonceSize).length < chunkSize + a.Overhead := Nat.lt_of_not_le hfull
    have ht : (data.drop nonceSize).take (chunkSize + a.Overhead) = data.drop nonceSize :=
      List.take_of_length_le (Nat.le_of_lt hlt)
    rw [ht] at ho
    rw [ReadFull_short _ _ hlt]
    by_cases h0 : (data.drop nonceSize).length = 0
    · simp [h0, ho]
    · simp [h0, ho]

theorem gcmChunkedReader.Read_some_error (g g1 : gcmChunkedReader) (n : Nat) (bs : Bytes)
    (e : Err) (h : g.Read n = (g1, bs, some e)) :
    bs = [] ∧ g1.buf = [] ∧ g1.aead = g.aead ∧
      g1.r = (readChunk g.aead g.r).1 := by
  unfold gcmChunkedReader.Read at h
  split at h
  · rename_i hb
    have hb2 : g.buf = [] := List.length_eq_zero.mp hb
    split at h
    · rename_i r2 err hc
      simp only [Prod.mk.injEq] at h
      obtain ⟨h1, h2, _⟩ := h
      subst h1
      exact ⟨h2.symm, hb2, rfl, by rw [hc]⟩
    · simp [gcmChunkedReader.copyOut] at h
  · simp [gcmChunkedReader.copyOut] at h

theorem readChunk_short (a : AEAD) (r : Source) (h : r.data.length < nonceSize) :
    ∃ e, readChunk a r = ({ r with data := [] }, .error e) := by
  unfold readChunk
  rw [ReadFull_short r _ h]
  exact ⟨_, rfl⟩

/-- Once fewer bytes than a nonce are left, every `Read` fails and delivers nothing. -/
theorem gcmChunkedReader.after_exhausted (g : gcmChunkedReader) (hb : g.buf = [])
    (hd : g.r.data.length < nonceSize) :
    ∀ (sizes : List Nat) (m : Nat), ∃ e, ((g.after sizes).Read m).2 = ([], some e) := by
  intro sizes
  induction sizes generalizing g with
  | nil =>
    intro m
    obtain ⟨e, he⟩ := readChunk_short g.aead g.r hd
    exact ⟨e, by
      rw [gcmChunkedReader.after, gcmChunkedReader.Read_error g m _ e hb he]⟩
  | cons n ns ih =>
    intro m
    obtain ⟨e, he⟩ := readChunk_short g.aead g.r hd
    rw [gcmChunkedReader.after, gcmChunkedReader.Read_error g n _ e hb he]
    exact ih { g with r := { g.r with data := [] } } hb
      (by simp only [List.length_nil]; unfold nonceSize; omega) m

theorem junkCiphertext_length : junkCiphertext.length = 65552 := by
  unfold junkCiphertext
  rw [List.length_replicate]

theorem onesChunk_length : onesChunk.length = 65536 := by
  unfold onesChunk
  rw [List.length_replicate]

theorem toyAEAD_Open_junk (n : Bytes) (hn : n.getD 0 0 = 0) (h12 : n.length = 12) :
    toyAEAD.Open n junkCiphertext = none := by
  have hne : ¬ (List.drop (junkCiphertext.length - 16) junkCiphertext =
      toyTag n (List.take (junkCiphertext.length - 16) junkCiphertext)) := by
    intro h
    have h2 := congrArg (fun l => l.getD 0 0) h
    rw [junkCiphertext_length] at h2
    unfold junkCiphertext at h2
    simp only [toyTag, List.drop_replicate] at h2
    rw [List.take_append_of_le_length (by omega), List.take_of_length_le (by omega),
      List.getD_append _ _ _ _ (by omega), hn] at h2
    revert h2
    decide
  simp only [toyAEAD]
  rw [if_neg (fun h => hne h.2)]

theorem nonceOf_getD_zero (k : Nat) : (nonceOf k).getD 0 0 = 0 := by
  simp [nonceOf, nonceSize]

/-- C6, as the code behaves: after an authentication failure on a full-size chunk the
next `Read` opens the following chunk and returns its plaintext. -/
theorem C6_counterexample :
    ∃ g g1 g2, ChunkedGCMCrypter.Decrypt toyEnv ⟨"secret"⟩ (bytesReader brokenThenGood) = .ok g ∧
      g.Read 1 = (g1, [], some errDecryptionFailed) ∧
      g1.Read 1 = (g2, [42], none) := by
  have hd := ChunkedGCMCrypter.Decrypt_header toyEnv ⟨"secret"⟩ (List.replicate 16 7)
    ((nonceOf 0 ++ junkCiphertext) ++ frame toyAEAD (nonceOf 1) [42]) Err.EOF rfl
  have hc1 := readChunk_reject_full toyAEAD
    { data := (nonceOf 0 ++ junkCiphertext) ++ frame toyAEAD (nonceOf 1) [42],
      term := Err.EOF } (nonceOf 0) junkCiphertext (frame toyAEAD (nonceOf 1) [42]) rfl
    (length_nonceOf 0) (by rw [junkCiphertext_length]; rfl)
    (toyAEAD_Open_junk (nonceOf 0) (nonceOf_getD_zero 0) (length_nonceOf 0))
  have hc2 := readChunk_frame_last toyAEAD toyAEAD_lawful
    { data := frame toyAEAD (nonceOf 1) [42], term := Err.EOF } (nonceOf 1) [42] rfl
    (length_nonceOf 1) (by unfold chunkSize; simp) rfl
  refine ⟨_, _, _, ?_,
    gcmChunkedReader.Read_error
      { aead := toyAEAD,
        r := { data := (nonceOf 0 ++ junkCiphertext) ++ frame toyAEAD (nonceOf 1) [42],
               term := Err.EOF }, chunkNum := 0, buf := [] } 1 _ _ rfl hc1,
    gcmChunkedReader.Read_chunk
      { aead := toyAEAD, r := { data := frame toyAEAD (nonceOf 1) [42], term := Err.EOF },
        chunkNum := 0, buf := [] } 1 _ _ rfl hc2⟩
  simpa only [brokenThenGood, bytesReader, List.append_assoc] using hd

/-- What the source holds after the reader took a whole nonce and a full-size
ciphertext, whether the ciphertext opened or not. -/
theorem readChunk_full_rest (a : AEAD) (r : Source) (n ct rest : Bytes)
    (hd : r.data = n ++ ct ++ rest) (hn : n.length = nonceSize)
    (hc : ct.length = chunkSize + a.Overhead) :
    (readChunk a r).1 = { r with data := rest } := by
  unfold readChunk
  rw [ReadFull_append r n (ct ++ rest) nonceSize (by rw [hd, List.append_assoc]) hn]
  simp only []
  rw [ReadFull_append { r with data := ct ++ rest } ct rest (chunkSize + a.Overhead) rfl hc]
  simp only []
  split
  · rfl
  · split <;> rfl

/-- C6, amended. A `Read` that returns the decryption-failed error delivers no byte.
When the rejected chunk was the last of the source (fewer than 12 bytes are left after
it) every later `Read`, with any buffer, returns zero bytes and a non-nil error. But the
reader keeps no failure state: a rejected full-size chunk leaves the source at the
bytes behind it, and when a whole chunk follows, the next `Read` opens it and returns
its plaintext. -/
theorem C6_failure_terminal_only_at_end (g g1 : gcmChunkedReader) (n : Nat) (bs : Bytes)
    (h : g.Read n = (g1, bs, some errDecryptionFailed)) :
    bs = [] ∧
    (g1.r.data.length < nonceSize →
      ∀ (sizes : List Nat) (m : Nat),
        ∃ e, ((g1.after sizes).Read m).2 = ([], some e)) ∧
    (∀ nonce ct rest : Bytes, g.r.data = nonce ++ ct ++ rest → nonce.length = nonceSize →
      ct.length = chunkSize + g.aead.Overhead →
      g1.r = { data := rest, term := g.r.term }) ∧
    (∀ (nonce c rest : Bytes) (m : Nat), g1.aead.Lawful →
      g1.r.data = frame g1.aead nonce c ++ rest → nonce.length = nonceSize →
      (c.length = chunkSize ∨ (c.length ≤ chunkSize ∧ rest = [] ∧ g1.r.term = Err.EOF)) →
      (g1.Read m).2 = (c.take m, none)) := by
  obtain ⟨h1, h2, h3, h4⟩ := gcmChunkedReader.Read_some_error g g1 n bs _ h
  refine ⟨h1, gcmChunkedReader.after_exhausted g1 h2, ?_, ?_⟩
  · intro nonce ct rest hd hn hc
    rw [h4, readChunk_full_rest g.aead g.r nonce ct rest hd hn hc]
  · intro nonce c rest m ha hd hn hc
    rcases hc with hc | ⟨hc, hr, ht⟩
    · have hk := readChunk_frame_full g1.aead ha g1.r nonce c rest hd hn hc
      rw [gcmChunkedReader.Read_chunk g1 m _ c h2 hk]
    · subst hr
      rw [List.append_nil] at hd
      have hk := readChunk_frame_last g1.aead ha g1.r nonce c hd hn hc ht
      rw [gcmChunkedReader.Read_chunk g1 m _ c h2 hk]

theorem C6_failure_terminal_only_at_end_witness :
    (gcmChunkedReader.Read
        { aead := toyAEAD,
          r := bytesReader ((nonceOf 0 ++ junkCiphertext) ++ frame toyAEAD (nonceOf 1) [42]),
          chunkNum := 0, buf := [] } 1 =
      ({ aead := toyAEAD, r := bytesReader (frame toyAEAD (nonceOf 1) [42]),
         chunkNum := 0, buf := [] }, [], some errDecryptionFailed)) ∧
    (gcmChunkedReader.Read
        { aead := toyAEAD, r := bytesReader (frame toyAEAD (nonceOf 1) [42]),
          chunkNum := 0, buf := [] } 1).2 = (([42] : Bytes).take 1, none) ∧
    (gcmChunkedReader.Read
        { aead := toyAEAD, r := bytesReader (nonceOf 0 ++ [1, 2, 3]), chunkNum := 0, buf := [] }
        4 =
      ({ aead := toyAEAD, r := bytesReader [], chunkNum := 0, buf := [] }, [],
        some errDecryptionFailed)) ∧
    (∀ (sizes : List Nat) (m : Nat),
      ∃ e, ((gcmChunkedReader.after
        { aead := toyAEAD, r := bytesReader [], chunkNum := 0, buf := [] } sizes).Read m).2
          = ([], some e)) :=
  have hread : gcmChunkedReader.Read
        { aead := toyAEAD,
          r := bytesReader ((nonceOf 0 ++ junkCiphertext) ++ frame toyAEAD (nonceOf 1) [42]),
          chunkNum := 0, buf := [] } 1 =
      ({ aead := toyAEAD, r := bytesReader (frame toyAEAD (nonceOf 1) [42]),
         chunkNum := 0, buf := [] }, [], some errDecryptionFailed) :=
    gcmChunkedReader.Read_error
      { aead := toyAEAD,
        r := { data := (nonceOf 0 ++ junkCiphertext) ++ frame toyAEAD (nonceOf 1) [42],
               term := Err.EOF }, chunkNum := 0, buf := [] } 1 _ _ rfl
      (readChunk_reject_full toyAEAD
        { data := (nonceOf 0 ++ junkCiphertext) ++ frame toyAEAD (nonceOf 1) [42],
          term := Err.EOF } (nonceOf 0) junkCiphertext (frame toyAEAD (nonceOf 1) [42]) rfl
        (length_nonceOf 0) (by rw [junkCiphertext_length]; rfl)
        (toyAEAD_Open_junk (nonceOf 0) (nonceOf_getD_zero 0) (length_nonceOf 0)))
  ⟨hread,
    (C6_failure_terminal_only_at_end _ _ 1 [] hread).2.2.2 (nonceOf 1) [42] [] 1
      toyAEAD_lawful rfl (length_nonceOf 1) (Or.inr ⟨by decide, rfl, rfl⟩),
    rfl,
    (C6_failure_terminal_only_at_end
      { aead := toyAEAD, r := bytesReader (nonceOf 0 ++ [1, 2, 3]), chunkNum := 0, buf := [] }
      { aead := toyAEAD, r := bytesReader [], chunkNum := 0, buf := [] } 4 [] rfl).2.1
      (by decide)⟩

/-- C7, as the code behaves: with a chunk that authenticates in front of one that does
not, the first `Read` hands out 65536 plaintext bytes before a later `Read` reports the
failure. -/
theorem C7_counterexample :
    ∃ g g1 g2, ChunkedGCMCrypter.Decrypt toyEnv ⟨"secret"⟩ (bytesReader goodThenBroken) = .ok g ∧
      g.Read 65536 = (g1, onesChunk, none) ∧ onesChunk.length = 65536 ∧
      g1.Read 65536 = (g2, [], some errDecryptionFailed) := by
  have hd := ChunkedGCMCrypter.Decrypt_header toyEnv ⟨"secret"⟩ (List.replicate 16 7)
    (frame toyAEAD (nonceOf 0) onesChunk ++ (nonceOf 1 ++ List.replicate 20 9))
    Err.EOF rfl
  have hc1 := readChunk_frame_full toyAEAD toyAEAD_lawful
    { data := frame toyAEAD (nonceOf 0) onesChunk ++
        (nonceOf 1 ++ List.replicate 20 9), term := Err.EOF }
    (nonceOf 0) onesChunk (nonceOf 1 ++ List.replicate 20 9) rfl
    (length_nonceOf 0) (by rw [onesChunk_length]; rfl)
  have hc2 : readChunk toyAEAD { data := nonceOf 1 ++ List.replicate 20 9, term := Err.EOF } =
      ({ data := [], term := Err.EOF }, .error errDecryptionFailed) := by
    rfl
  have hr1 := gcmChunkedReader.Read_chunk
    { aead := toyAEAD, r := { data := frame toyAEAD (nonceOf 0) onesChunk ++
        (nonceOf 1 ++ List.replicate 20 9), term := Err.EOF }, chunkNum := 0, buf := [] }
    65536 _ _ rfl hc1
  rw [List.take_of_length_le (by rw [onesChunk_length]),
    List.drop_of_length_le (by rw [onesChunk_length])] at hr1
  refine ⟨_, _, _, ?_, hr1, onesChunk_length,
    gcmChunkedReader.Read_error
      { aead := toyAEAD, r := { data := nonceOf 1 ++ List.replicate 20 9, term := Err.EOF },
        chunkNum := (0 + 1) % 2 ^ 64, buf := [] } 65536 _ _ rfl hc2⟩
  simpa only [goodThenBroken, bytesReader, List.append_assoc] using hd

/-- C7, amended. When the chunks in front of the first chunk that fails authentication
are whole, a caller that reads until the first error has received exactly their
plaintext, no byte of the failing chunk or of a later one, and nothing at all when the
first chunk fails. -/
theorem C7_only_authenticated_prefix (a : AEAD) (ha : a.Lawful)
    (pairs : List (Bytes × Bytes)) (tail : Bytes) (t : Err) (cn : Nat)
    (hfull : ∀ nc ∈ pairs, nc.1.length = nonceSize ∧ nc.2.length = chunkSize)
    (hfail : (readChunk a { data := tail, term := t }).2 = .error errDecryptionFailed) :
    ∀ sizes : Nat → Nat, (∀ k, 0 < sizes k) →
      ∃ N, ∀ fuel, N ≤ fuel →
        gcmChunkedReader.readAll sizes fuel
          { aead := a, r := { data := wire a pairs ++ tail, term := t }, chunkNum := cn,
            buf := [] }
          = some ((pairs.map (fun nc => nc.2)).flatten, errDecryptionFailed) :=
  gcmChunkedReader.Delivers_prefix a ha tail t _ hfail pairs cn hfull

theorem C7_only_authenticated_prefix_witness :
    (∀ nc ∈ [(nonceOf 0, onesChunk)], nc.1.length = nonceSize ∧ nc.2.length = chunkSize) ∧
    (readChunk toyAEAD { data := nonceOf 1 ++ [1, 2, 3], term := Err.EOF }).2
      = .error errDecryptionFailed ∧
    ∀ sizes : Nat → Nat, (∀ k, 0 < sizes k) →
      ∃ N, ∀ fuel, N ≤ fuel →
        gcmChunkedReader.readAll sizes fuel
          { aead := toyAEAD,
            r := { data := wire toyAEAD [(nonceOf 0, onesChunk)] ++ (nonceOf 1 ++ [1, 2, 3]),
                   term := Err.EOF },
            chunkNum := 0, buf := [] }
          = some (([(nonceOf 0, onesChunk)].map (fun nc => nc.2)).flatten,
              errDecryptionFailed) :=
  have hfull : ∀ nc ∈ [(nonceOf 0, onesChunk)],
      nc.1.length = nonceSize ∧ nc.2.length = chunkSize := by
    intro nc hnc
    rw [List.mem_singleton.mp hnc]
    exact ⟨length_nonceOf 0, onesChunk_length⟩
  ⟨hfull, rfl,
    C7_only_authenticated_prefix toyAEAD toyAEAD_lawful [(nonceOf 0, onesChunk)]
      (nonceOf 1 ++ [1, 2, 3]) Err.EOF 0 hfull rfl⟩

/-! ### Tampering with one byte of an encrypted stream -/

theorem length_frame (a : AEAD) (ha : a.Lawful) (n c : Bytes) :
    (frame a n c).length = n.length + c.length + a.Overhead := by
  simp only [frame, List.length_append, ha.length_Seal]
  omega

theorem length_frames_full (a : AEAD) (ha : a.Lawful) (L : List Bytes) (k : Nat)
    (h : ∀ x ∈ L, x.length = chunkSize) :
    (frames a k L).length = frameSize a * L.length := by
  induction L generalizing k with
  | nil => simp [frames]
  | cons c cs ih =>
    rw [frames, List.length_append, length_frame a ha, length_nonceOf,
      h c (List.mem_cons_self _ _), ih (k + 1) (fun x hx => h x (List.mem_cons_of_mem _ hx)),
      List.length_cons, Nat.mul_succ, frameSize]
    omega

theorem length_frames_lastChunk_le (a : AEAD) (ha : a.Lawful) (b : Bytes) (k : Nat)
    (hb : b.length < chunkSize) :
    (frames a k (lastChunk b)).length < frameSize a ∧
      (0 < (frames a k (lastChunk b)).length → 0 < b.length) := by
  unfold lastChunk
  by_cases h0 : b.length > 0
  · simp only [if_pos h0, frames, List.append_nil, length_frame a ha, length_nonceOf,
      frameSize]
    exact ⟨by omega, fun _ => h0⟩
  · simp only [if_neg h0, frames, List.length_nil, frameSize]
    exact ⟨by unfold nonceSize; omega, fun h => absurd h (by omega)⟩

theorem flatten_take_full (L : List Bytes) (j : Nat) (h : ∀ x ∈ L, x.length = chunkSize) :
    (L.take j).flatten = L.flatten.take (chunkSize * j) := by
  induction L generalizing j with
  | nil => simp
  | cons c cs ih =>
    cases j with
    | zero => simp
    | succ i =>
      have hc := h c (List.mem_cons_self _ _)
      rw [List.take_succ_cons, List.flatten_cons, List.flatten_cons,
        ih i (fun x hx => h x (List.mem_cons_of_mem _ hx)),
        show chunkSize * (i + 1) = c.length + chunkSize * i by rw [hc]; ring,
        List.take_append]

theorem length_frames_pos (a : AEAD) (k : Nat) (C : List Bytes) (h : C ≠ []) :
    nonceSize ≤ (frames a k C).length := by
  cases C with
  | nil => exact absurd rfl h
  | cons c cs =>
    simp only [frames, frame, List.length_append, length_nonceOf]
    omega

/-- C4. In an encrypted stream change one byte at offset 22 or later (there is such a
byte exactly when the plaintext is not empty). When the AEAD rejects the nonce and ciphertext that now stand at the chunk of
that byte (a pair it did not produce), `Decrypt` still accepts the header and every
caller reading until the first error ends with the decryption-failed error, having
received only the plaintext of the chunks in front of the changed one: a prefix of the
original plaintext. -/
theorem C4_tamper_detected (env : Env) (c : ChunkedGCMCrypter) (salt : Bytes)
    (writes : List Bytes) (S : Sink) (pos : Nat) (b2 : Byte)
    (hr : env.rand = .ok salt) (hs : salt.length = saltSize)
    (ha : (env.newAEAD c.Password salt).Lawful)
    (hS : encryptTo env c Sink.buffer writes = .ok S)
    (hpos : 22 ≤ pos) (hlt : pos < S.out.length) (hb : S.out.get? pos ≠ some b2)
    (hrej : (env.newAEAD c.Password salt).Open
        (chunkAt (env.newAEAD c.Password salt) (S.out.set pos b2)
          ((pos - 22) / frameSize (env.newAEAD c.Password salt))).1
        (chunkAt (env.newAEAD c.Password salt) (S.out.set pos b2)
          ((pos - 22) / frameSize (env.newAEAD c.Password salt))).2 = none) :
    ∃ g, c.Decrypt env (bytesReader (S.out.set pos b2)) = .ok g ∧
      ∀ sizes : Nat → Nat, (∀ k, 0 < sizes k) →
        ∃ N, ∀ fuel, N ≤ fuel →
          g.readAll sizes fuel =
            some (writes.flatten.take
                (chunkSize * ((pos - 22) / frameSize (env.newAEAD c.Password salt))),
              errDecryptionFailed) := by
  obtain ⟨L, b, h1, h2, h3, h4⟩ := encryptTo_eq env c salt writes hr
  rw [h1] at hS
  injection hS with hS
  subst hS
  generalize hadef : env.newAEAD c.Password salt = a at *
  generalize hjdef : (pos - 22) / frameSize a = j at *
  simp only at hlt hrej ⊢
  have hF : 0 < frameSize a := by unfold frameSize nonceSize; omega
  have hhdr : (headerPrefix ++ salt).length = 22 := by
    rw [List.length_append, hs]; rfl
  -- the length of the frames and the place of chunk `j`
  have hlenL := length_frames_full a ha L 0 h2
  have hlast := length_frames_lastChunk_le a ha b (0 + L.length) h3
  have hq : pos - 22 < frameSize a * L.length + (frames a (0 + L.length) (lastChunk b)).length := by
    rw [List.length_append, hhdr, frames_append, List.length_append, hlenL] at hlt
    omega
  have hjle : j ≤ L.length := by
    have : (pos - 22) / frameSize a < L.length + 1 := by
      apply Nat.div_lt_of_lt_mul
      rw [Nat.mul_succ]
      omega
    omega
  have hjmul : frameSize a * j ≤ pos - 22 := by
    rw [← hjdef, Nat.mul_comm]
    exact Nat.div_mul_le_self _ _
  -- the chunks from `j` on are not empty
  have hrest : L.drop j ++ lastChunk b ≠ [] := by
    intro h
    rcases List.append_eq_nil.mp h with ⟨hd, hl⟩
    have hj : j = L.length := by
      have := List.drop_eq_nil_iff.mp hd
      omega
    rw [hl] at hq
    simp only [frames, List.length_nil, Nat.add_zero] at hq
    rw [hj] at hjmul
    omega
  -- split the stream in front of chunk `j`
  have hsplit : frames a 0 (L ++ lastChunk b) =
      frames a 0 (L.take j) ++ frames a j (L.drop j ++ lastChunk b) := by
    conv_lhs => rw [← List.take_append_drop j L, List.append_assoc]
    rw [frames_append, List.length_take, Nat.min_eq_left hjle, Nat.zero_add]
  have hfullj : ∀ x ∈ L.take j, x.length = chunkSize :=
    fun x hx => h2 x (List.mem_of_mem_take hx)
  have hlenj : (frames a 0 (L.take j)).length = frameSize a * j := by
    rw [length_frames_full a ha _ 0 hfullj, List.length_take, Nat.min_eq_left hjle]
  have hpre : (headerPrefix ++ salt ++ frames a 0 (L.take j)).length = 22 + frameSize a * j := by
    rw [List.length_append, hhdr, hlenj]
  have hset : (headerPrefix ++ salt ++ frames a 0 (L ++ lastChunk b)).set pos b2 =
      headerPrefix ++ salt ++
        (frames a 0 (L.take j) ++
          (frames a j (L.drop j ++ lastChunk b)).set (pos - (22 + frameSize a * j)) b2) := by
    rw [hsplit, ← List.append_assoc, List.set_append_right _ _ (by rw [hpre]; omega), hpre,
      List.append_assoc]
  have hdrop : List.drop (headerPrefix.length + saltSize + j * frameSize a)
      ((headerPrefix ++ salt ++ frames a 0 (L ++ lastChunk b)).set pos b2) =
      (frames a j (L.drop j ++ lastChunk b)).set (pos - (22 + frameSize a * j)) b2 := by
    rw [hset, ← List.append_assoc]
    have hk : headerPrefix.length + saltSize + j * frameSize a =
        (headerPrefix ++ salt ++ frames a 0 (L.take j)).length := by
      rw [hpre, Nat.mul_comm]; rfl
    rw [hk, List.drop_left]
  have hfail := readChunk_reject a
    ((frames a j (L.drop j ++ lastChunk b)).set (pos - (22 + frameSize a * j)) b2)
    (by rw [List.length_set]; exact length_frames_pos a j _ hrest)
    (by simpa only [chunkAt, hdrop] using hrej)
  refine ⟨{ aead := a,
             r := { data := frames a 0 (L.take j) ++
                      (frames a j (L.drop j ++ lastChunk b)).set
                        (pos - (22 + frameSize a * j)) b2,
                    term := Err.EOF },
             chunkNum := 0, buf := [] }, ?_, ?_⟩
  · rw [hset]
    have hdec := ChunkedGCMCrypter.Decrypt_header env c salt
      (frames a 0 (L.take j) ++
        (frames a j (L.drop j ++ lastChunk b)).set (pos - (22 + frameSize a * j)) b2)
      Err.EOF hs
    rw [hadef] at hdec
    exact hdec
  · have hd := gcmChunkedReader.Delivers_prefix a ha _ Err.EOF _ hfail
      (numbered 0 (L.take j)) 0 (by
        intro nc hnc
        have hfr : ∀ (M : List Bytes) (k : Nat), (∀ x ∈ M, x.length = chunkSize) →
            ∀ nc ∈ numbered k M, nc.1.length = nonceSize ∧ nc.2.length = chunkSize := by
          intro M
          induction M with
          | nil => intro k _ nc h; simp [numbered] at h
          | cons m ms ih =>
            intro k hM nc h
            simp only [numbered, List.mem_cons] at h
            rcases h with h | h
            · subst h
              exact ⟨length_nonceOf k, hM m (List.mem_cons_self _ _)⟩
            · exact ih (k + 1) (fun x hx => hM x (List.mem_cons_of_mem _ hx)) nc h
        exact hfr _ 0 hfullj nc hnc)
    rw [← frames_eq_wire, map_snd_numbered, flatten_take_full L j h2] at hd
    have htake : writes.flatten.take (chunkSize * j) = L.flatten.take (chunkSize * j) := by
      rw [← h4, List.take_append_of_le_length]
      rw [length_flatten_full L h2]
      exact Nat.mul_le_mul_left _ hjle
    rw [htake]
    exact hd

theorem C4_tamper_detected_witness :
    toyEnv.rand = .ok (List.replicate 16 7) ∧
    (List.replicate 16 (7 : Byte)).length = saltSize ∧
    encryptTo toyEnv ⟨"secret"⟩ Sink.buffer [[1, 2, 3]]
      = .ok { out := smallStream, room := none } ∧
    35 < smallStream.length ∧ smallStream.get? 35 ≠ some 99 ∧
    toyAEAD.Open (chunkAt toyAEAD (smallStream.set 35 99) ((35 - 22) / frameSize toyAEAD)).1
      (chunkAt toyAEAD (smallStream.set 35 99) ((35 - 22) / frameSize toyAEAD)).2 = none ∧
    ∃ g, ChunkedGCMCrypter.Decrypt toyEnv ⟨"secret"⟩ (bytesReader (smallStream.set 35 99))
        = .ok g ∧
      ∀ sizes : Nat → Nat, (∀ k, 0 < sizes k) →
        ∃ N, ∀ fuel, N ≤ fuel →
          g.readAll sizes fuel =
            some ([[(1 : Byte), 2, 3]].flatten.take
                (chunkSize * ((35 - 22) / frameSize toyAEAD)),
              errDecryptionFailed) :=
  ⟨rfl, rfl, rfl, by decide, by decide, by decide,
    C4_tamper_detected toyEnv ⟨"secret"⟩ (List.replicate 16 7) [[1, 2, 3]]
      { out := smallStream, room := none } 35 99 rfl rfl toyAEAD_lawful rfl
      (by decide) (by decide) (by decide) (by decide)⟩

/-! ### Names -/

theorem ToSlash_eq (path : GoString) : ToSlash path = path := by
  simp [ToSlash, Separator]

/-- C8, at a logical name with a dot: with a gzip compressor the name `a.txt` is stored
as `a.txt.gz`, and `decodePath` cuts that name at its first dot, giving `a` and not
`a.txt`. -/
theorem C8_decodePath_cuts_at_first_dot :
    (NewWriteReader ⟨fun _ => none⟩ (some (GzipCompressor copyLib)) none).encodePath
        "a.txt".toList = "a.txt.gz".toList ∧
    (NewWriteReader ⟨fun _ => none⟩ (some (GzipCompressor copyLib)) none).decodePath
        ((NewWriteReader ⟨fun _ => none⟩ (some (GzipCompressor copyLib)) none).encodePath
          "a.txt".toList) = "a".toList ∧
    "a".toList ≠ "a.txt".toList := by
  decide

theorem repoImpl.encodePath_eq (repo : repoImpl) (l : GoString) :
    repo.encodePath l =
      l ++ (match repo.compressor with
            | some z => z.FileExtension
            | none => []) ++
           (match repo.crypter with
            | some c => c.FileExtension
            | none => []) := by
  unfold repoImpl.encodePath
  rw [ToSlash_eq]
  cases repo.compressor <;> cases repo.crypter <;> simp

/-- C9. With `'/'` as separator `encodePath` gives the logical name followed by the
compressor's extension, if there is a compressor, and then by the crypter's, if there
is a crypter; and a `PutObject` that succeeds returns that name and has put the stream
of the write pipeline under it in the storage, leaving every other name as it was. -/
theorem C9_encodePath_appends_extensions (repo : repoImpl) (l : GoString) :
    repo.encodePath l =
        l ++ (match repo.compressor with
              | some z => z.FileExtension
              | none => []) ++
             (match repo.crypter with
              | some c => c.FileExtension
              | none => []) ∧
      ∀ (r : Reader) (repo2 : repoImpl) (name : GoString),
        repo.PutObject l r = .ok (repo2, name) →
          name = repo.encodePath l ∧
          repo2.storage.objects name =
            some (CompressAndEncryptOptional r repo.compressor repo.crypter).1.data ∧
          ∀ other, other ≠ name → repo2.storage.objects other = repo.storage.objects other := by
  refine ⟨repoImpl.encodePath_eq repo l, ?_⟩
  intro r repo2 name h
  unfold repoImpl.PutObject at h
  simp only [CompressAndEncryptOptional] at h ⊢
  unfold Storage.PutObject at h
  by_cases ht : (pipeProducer r repo.compressor repo.crypter).term = Err.EOF
  · simp only [if_pos ht, Except.ok.injEq, Prod.mk.injEq] at h
    obtain ⟨h1, h2⟩ := h
    subst h1 h2
    refine ⟨rfl, by simp, ?_⟩
    intro other ho
    simp [ho]
  · simp only [if_neg ht] at h
    cases h

/-! ### The write pipeline -/

theorem Fed.Write {a : AEAD} {hdr : Bytes} {e : Bool} {d : Dst} {X : Bytes} (h : Fed a hdr e d X)
    (p : Bytes) : ∃ d1, d.Write p = (d1, none) ∧ Fed a hdr e d1 (X ++ p) := by
  cases d with
  | pipe pw =>
    obtain ⟨h0, h1, h2⟩ := h
    refine ⟨Dst.pipe { out := pw.out ++ p, room := none }, ?_, h0, rfl, ?_⟩
    · simp only [Dst.Write, Sink.Write_buffer pw p h1]
    · simp only [h2, List.append_assoc]
  | enc g =>
    obtain ⟨h0, h1, h2, L, h3, h4⟩ := h
    obtain ⟨g1, L1, k1, k2, k3, k4, k5⟩ := gcmChunkedWriter.Write_inv hdr g p L h3 h2
    refine ⟨Dst.enc g1, ?_, h0, k4.trans h1, k3, L1, k2, ?_⟩
    · simp only [Dst.Write, k1]
    · rw [k5, h4]

theorem Fed.writeAll {a : AEAD} {hdr : Bytes} (ps : List Bytes) :
    ∀ {e : Bool} {d : Dst} {X : Bytes}, Fed a hdr e d X →
      ∃ d1, d.writeAll ps = (d1, none) ∧ Fed a hdr e d1 (X ++ ps.flatten) := by
  induction ps with
  | nil => intro e d X h; exact ⟨d, rfl, by simpa using h⟩
  | cons p ps ih =>
    intro e d X h
    obtain ⟨d1, h1, h2⟩ := h.Write p
    obtain ⟨d2, k1, k2⟩ := ih h2
    exact ⟨d2, by simp only [Dst.writeAll, h1, k1], by simpa using k2⟩

theorem Fed.copyToDst {a : AEAD} {hdr : Bytes} (ps : List Bytes) :
    ∀ {e : Bool} {d : Dst} {X : Bytes}, Fed a hdr e d X →
      ∃ d1, copyToDst d ps = (d1, none) ∧ Fed a hdr e d1 (X ++ ps.flatten) := by
  induction ps with
  | nil => intro e d X h; exact ⟨d, rfl, by simpa using h⟩
  | cons p ps ih =>
    intro e d X h
    by_cases hp : p.length = 0
    · have hp2 : p = [] := List.length_eq_zero.mp hp
      obtain ⟨d2, k1, k2⟩ := ih h
      exact ⟨d2, by simp only [XRepo.copyToDst, hp, if_true, k1], by simpa [hp2] using k2⟩
    · obtain ⟨d1, h1, h2⟩ := h.Write p
      obtain ⟨d2, k1, k2⟩ := ih h2
      exact ⟨d2, by simp only [XRepo.copyToDst, hp, if_false, h1, k1], by simpa using k2⟩

theorem Fed.compCall {a : AEAD} {hdr : Bytes} {e : Bool} {d : Dst} {X : Bytes} (h : Fed a hdr e d X)
    {σ : Type} (res : σ × List Bytes × Option Err) :
    ∃ d1, XRepo.compCall d res = (res.1, d1, res.2.2) ∧ Fed a hdr e d1 (X ++ res.2.1.flatten) := by
  obtain ⟨d1, h1, h2⟩ := Fed.writeAll res.2.1 h
  exact ⟨d1, by simp only [XRepo.compCall, h1], h2⟩

theorem Fed.copyToComp {a : AEAD} {hdr : Bytes} (z : Compressor)
    (hz : ∀ st p, (z.Write st p).2.2 = none) (ps : List Bytes) :
    ∀ {e : Bool} {d : Dst} {X : Bytes} (st : z.State), Fed a hdr e d X →
      ∃ d1, copyToComp z st d ps = ((compWrites z st ps).1, d1, none) ∧
        Fed a hdr e d1 (X ++ (compWrites z st ps).2.flatten) := by
  induction ps with
  | nil => intro e d X st h; exact ⟨d, rfl, by simpa [compWrites] using h⟩
  | cons p ps ih =>
    intro e d X st h
    by_cases hp : p.length = 0
    · obtain ⟨d2, k1, k2⟩ := ih st h
      exact ⟨d2, by simp only [XRepo.copyToComp, compWrites, hp, if_true, k1],
        by simpa only [compWrites, hp, if_true] using k2⟩
    · obtain ⟨d1, h1, h2⟩ := h.compCall (z.Write st p)
      rw [hz st p] at h1
      obtain ⟨d2, k1, k2⟩ := ih (z.Write st p).1 h2
      refine ⟨d2, by simp only [XRepo.copyToComp, compWrites, hp, if_false, h1, k1], ?_⟩
      simpa only [compWrites, hp, if_false, List.flatten_append, List.append_assoc] using k2

/-- After `Close` the encrypting writer has put on the pipe the chunks of the format
for the bytes it was fed. -/
theorem Fed.closeEnc_enc {a : AEAD} {hdr : Bytes} {d : Dst} {X : Bytes}
    (h : Fed a hdr true d X) :
    d.closeEnc.out = hdr ++
      (List.range ((X.length + 65535) / 65536)).flatMap
        (fun i => specNonce i ++ a.Seal (specNonce i) (specChunk X i)) := by
  cases d with
  | pipe pw => exact absurd h.1 (by decide)
  | enc g =>
    obtain ⟨_, h1, h2, L, h3, h4⟩ := h
    obtain ⟨g1, k1, k2⟩ := gcmChunkedWriter.Close_inv hdr g L h3
    simp only [Dst.closeEnc, Dst.out, k1, k2]
    rw [h1, frames_eq_spec a L g.buf h3.full h2, h4]

theorem Fed.closeEnc_pipe {a : AEAD} {hdr : Bytes} {d : Dst} {X : Bytes}
    (h : Fed a hdr false d X) : d.closeEnc.out = hdr ++ X := by
  cases d with
  | pipe pw => exact h.2.2
  | enc g => exact absurd h.1 (by decide)

theorem Fed.start_pipe (a : AEAD) : Fed a [] false (Dst.pipe Sink.buffer) [] :=
  ⟨rfl, rfl, rfl⟩

theorem Fed.start_enc (env : Env) (password : String) (salt : Bytes)
    (hr : env.rand = .ok salt) :
    ∃ g, (NewChunkedGCMCrypter env password).Encrypt Sink.buffer = .ok g ∧
      Fed (env.newAEAD password salt) (headerPrefix ++ salt) true (Dst.enc g) [] := by
  refine ⟨_, ChunkedGCMCrypter.Encrypt_ok env ⟨password⟩ Sink.buffer salt hr rfl, rfl, rfl, ?_,
    [], ⟨rfl, ?_, ?_, rfl⟩, rfl⟩
  · simp [chunkSize]
  · simp [frames, Sink.buffer]
  · intro c hc; cases hc

theorem specStream_eq (a : AEAD) (salt X : Bytes) :
    headerPrefix ++ salt ++
      (List.range ((X.length + 65535) / 65536)).flatMap
        (fun i => specNonce i ++ a.Seal (specNonce i) (specChunk X i)) = specStream a salt X :=
  rfl

theorem copyResult_none (term : Err) (h : term = Err.EOF) : copyResult none term = none := by
  simp [copyResult, h]

theorem pipeProducer_plain (source : Reader) (ht : source.term = Err.EOF) :
    pipeProducer source none none = { data := source.blocks.flatten, term := Err.EOF } := by
  obtain ⟨d1, h1, h2⟩ := Fed.copyToDst source.blocks (Fed.start_pipe toyAEAD)
  have h3 := Fed.closeEnc_pipe h2
  simp only [pipeProducer, h1, copyResult_none _ ht, h3, List.nil_append]

theorem pipeProducer_enc (env : Env) (password : String) (salt : Bytes) (source : Reader)
    (hr : env.rand = .ok salt) (ht : source.term = Err.EOF) :
    pipeProducer source none (some (NewChunkedGCMCrypter env password)) =
      { data := specStream (env.newAEAD password salt) salt source.blocks.flatten,
        term := Err.EOF } := by
  obtain ⟨g, h0, hf⟩ := Fed.start_enc env password salt hr
  obtain ⟨d1, h1, h2⟩ := Fed.copyToDst source.blocks hf
  have h3 := Fed.closeEnc_enc h2
  simp only [pipeProducer, h0, Except.map, h1, copyResult_none _ ht, h3, List.nil_append,
    specStream_eq]

theorem pipeProducer_comp (z : Compressor) (st : z.State) (source : Reader)
    (hn : z.NewWriter = .ok st) (hz : ∀ s p, (z.Write s p).2.2 = none)
    (ht : source.term = Err.EOF) :
    pipeProducer source (some z) none =
      { data := compressAll z st source.blocks, term := Err.EOF } := by
  obtain ⟨d1, h1, h2⟩ := Fed.copyToComp z hz source.blocks st (Fed.start_pipe toyAEAD)
  obtain ⟨d2, k1, k2⟩ := h2.compCall (z.Flush (compWrites z st source.blocks).1)
  obtain ⟨d3, m1, m2⟩ := k2.compCall (z.Close (z.Flush (compWrites z st source.blocks).1).1)
  have h3 := Fed.closeEnc_pipe m2
  simp only [pipeProducer, hn, h1, copyResult_none _ ht, k1, m1, h3, List.nil_append,
    compressAll, List.flatten_append, List.append_assoc]

theorem pipeProducer_both (env : Env) (password : String) (salt : Bytes) (z : Compressor)
    (st : z.State) (source : Reader) (hr : env.rand = .ok salt)
    (hn : z.NewWriter = .ok st) (hz : ∀ s p, (z.Write s p).2.2 = none)
    (ht : source.term = Err.EOF) :
    pipeProducer source (some z) (some (NewChunkedGCMCrypter env password)) =
      { data := specStream (env.newAEAD password salt) salt (compressAll z st source.blocks),
        term := Err.EOF } := by
  obtain ⟨g, h0, hf⟩ := Fed.start_enc env password salt hr
  obtain ⟨d1, h1, h2⟩ := Fed.copyToComp z hz source.blocks st hf
  obtain ⟨d2, k1, k2⟩ := h2.compCall (z.Flush (compWrites z st source.blocks).1)
  obtain ⟨d3, m1, m2⟩ := k2.compCall (z.Close (z.Flush (compWrites z st source.blocks).1).1)
  have hX : [] ++ (compWrites z st source.blocks).2.flatten ++
      (z.Flush (compWrites z st source.blocks).1).2.1.flatten ++
      (z.Close (z.Flush (compWrites z st source.blocks).1).1).2.1.flatten =
      compressAll z st source.blocks := by
    simp only [compressAll, List.flatten_append, List.nil_append]
  rw [hX] at m2
  have h3 := Fed.closeEnc_enc m2
  simp only [pipeProducer, h0, Except.map, hn, h1, copyResult_none _ ht, k1, m1, h3,
    specStream_eq]

theorem encryptTo_single (env : Env) (password : String) (salt X : Bytes)
    (hr : env.rand = .ok salt) :
    encryptTo env ⟨password⟩ Sink.buffer [X] =
      .ok { out := specStream (env.newAEAD password salt) salt X, room := none } := by
  have h := encryptTo_specStream env ⟨password⟩ salt [X] hr
  simpa using h

/-- C10. When the reads of the source do not fail, the compressor's writer can be made
and does not fail on a `Write`, and the crypter is the chunked AES-GCM crypter, the
consumer of `CompressAndEncryptOptional` reads, up to a clean end of stream, what the
crypter's writer puts out when it is fed the complete output of the compressor
(copy, `Flush`, `Close`) for the source; with no compressor, what it puts out for the
source bytes; with no crypter, the compressor's complete output; with neither, the
source bytes. -/
theorem C10_pipeline_encrypts_compressed (env : Env) (password : String) (salt : Bytes)
    (z : Compressor) (st : z.State) (source : Reader) (hr : env.rand = .ok salt)
    (hn : z.NewWriter = .ok st) (hz : ∀ s p, (z.Write s p).2.2 = none)
    (ht : source.term = Err.EOF) :
    (∃ S, CompressAndEncryptOptional source (some z)
          (some (NewChunkedGCMCrypter env password)) = (S, none) ∧
        S.term = Err.EOF ∧
        encryptTo env ⟨password⟩ Sink.buffer [compressAll z st source.blocks]
          = .ok { out := S.data, room := none }) ∧
    (∃ S, CompressAndEncryptOptional source none
          (some (NewChunkedGCMCrypter env password)) = (S, none) ∧
        S.term = Err.EOF ∧
        encryptTo env ⟨password⟩ Sink.buffer [source.blocks.flatten]
          = .ok { out := S.data, room := none }) ∧
    CompressAndEncryptOptional source (some z) none =
      ({ data := compressAll z st source.blocks, term := Err.EOF }, none) ∧
    CompressAndEncryptOptional source none none =
      ({ data := source.blocks.flatten, term := Err.EOF }, none) := by
  refine ⟨⟨_, rfl, ?_, ?_⟩, ⟨_, rfl, ?_, ?_⟩, ?_, ?_⟩
  · rw [pipeProducer_both env password salt z st source hr hn hz ht]
  · rw [pipeProducer_both env password salt z st source hr hn hz ht]
    exact encryptTo_single env password salt _ hr
  · rw [pipeProducer_enc env password salt source hr ht]
  · rw [pipeProducer_enc env password salt source hr ht]
    exact encryptTo_single env password salt _ hr
  · rw [CompressAndEncryptOptional, pipeProducer_comp z st source hn hz ht]
  · rw [CompressAndEncryptOptional, pipeProducer_plain source ht]

theorem C10_pipeline_encrypts_compressed_witness :
    toyEnv.rand = .ok (List.replicate 16 7) ∧ copyCompressor.NewWriter = .ok () ∧
    (∀ s p, (copyCompressor.Write s p).2.2 = none) ∧
    (∃ S, CompressAndEncryptOptional ⟨[[1, 2], [], [3]], Err.EOF⟩ (some copyCompressor)
          (some (NewChunkedGCMCrypter toyEnv "secret")) = (S, none) ∧
        S.term = Err.EOF ∧
        encryptTo toyEnv ⟨"secret"⟩ Sink.buffer
            [compressAll copyCompressor () [[1, 2], [], [3]]]
          = .ok { out := S.data, room := none }) ∧
    (∃ S, CompressAndEncryptOptional ⟨[[1, 2], [], [3]], Err.EOF⟩ none
          (some (NewChunkedGCMCrypter toyEnv "secret")) = (S, none) ∧
        S.term = Err.EOF ∧
        encryptTo toyEnv ⟨"secret"⟩ Sink.buffer [[[1, 2], [], [3]].flatten]
          = .ok { out := S.data, room := none }) ∧
    CompressAndEncryptOptional ⟨[[1, 2], [], [3]], Err.EOF⟩ (some copyCompressor) none =
      ({ data := compressAll copyCompressor () [[1, 2], [], [3]], term := Err.EOF }, none) ∧
    CompressAndEncryptOptional ⟨[[1, 2], [], [3]], Err.EOF⟩ none none =
      ({ data := [[1, 2], [], [3]].flatten, term := Err.EOF }, none) :=
  ⟨rfl, rfl, fun _ _ => rfl,
    C10_pipeline_encrypts_compressed toyEnv "secret" (List.replicate 16 7) copyCompressor ()
      ⟨[[1, 2], [], [3]], Err.EOF⟩ rfl rfl (fun _ _ => rfl) rfl⟩

/-! ### Put, then read -/

/-- Decrypting the stream of the format gives back the bytes that were sealed. -/
theorem Decrypt_specStream (env : Env) (password : String) (salt X : Bytes)
    (hr : env.rand = .ok salt) (hs : salt.length = saltSize)
    (ha : (env.newAEAD password salt).Lawful) :
    ∃ g, ChunkedGCMCrypter.Decrypt env ⟨password⟩
        (bytesReader (specStream (env.newAEAD password salt) salt X)) = .ok g ∧
      g.stream = { data := X, term := Err.EOF } := by
  obtain ⟨L, b, h1, h2, h3, h4⟩ := encryptTo_eq env ⟨password⟩ salt [X] hr
  have h5 := encryptTo_single env password salt X hr
  rw [h1] at h5
  simp only [Except.ok.injEq, Sink.mk.injEq, and_true] at h5
  rw [← h5]
  refine ⟨_, ChunkedGCMCrypter.Decrypt_header env ⟨password⟩ salt _ Err.EOF hs, ?_⟩
  have hfr := Framed_numbered_lastChunk L b 0 h2 (Nat.le_of_lt h3)
  have ho := openChunks_wire _ ha (numbered 0 (L ++ lastChunk b))
    ((frames (env.newAEAD password salt) 0 (L ++ lastChunk b)).length + 1)
    { data := frames (env.newAEAD password salt) 0 (L ++ lastChunk b), term := Err.EOF }
    hfr (frames_eq_wire _ _ _) rfl (Nat.lt_succ_self _)
  rw [map_snd_numbered, flatten_lastChunk, h4] at ho
  simp only [gcmChunkedReader.stream, ho, List.nil_append]
  simp

theorem MultiCloser.closeLoop_no_error (cs : List ReadCloser)
    (h : ∀ c ∈ cs, c.closeErr = none) (hh : ∀ c ∈ cs, c.hashable = true) :
    ∀ (seen called : List Nat),
      (MultiCloser.closeLoop cs seen none called).2 = Outcome.returned none := by
  induction cs with
  | nil => intro seen called; rfl
  | cons c cs ih =>
    intro seen called
    have hc := h c (List.mem_cons_self _ _)
    have hhc : ¬ c.hashable = false := by
      rw [hh c (List.mem_cons_self _ _)]
      decide
    have ih2 := ih (fun x hx => h x (List.mem_cons_of_mem _ hx))
      (fun x hx => hh x (List.mem_cons_of_mem _ hx))
    unfold MultiCloser.closeLoop
    rw [if_neg hhc]
    split
    · exact ih2 _ _
    · rw [hc]
      exact ih2 _ _

theorem Storage.ReadObject_put (s s2 : Storage) (path : GoString) (r : Source)
    (h : s.PutObject path r = .ok s2) :
    s2.ReadObject path = .ok { id := 0, Reader := bytesReader r.data, closeErr := none } := by
  unfold Storage.PutObject at h
  split at h
  · simp only [Except.ok.injEq] at h
    subst h
    simp [Storage.ReadObject]
  · cases h

theorem bytesReader_eq (b : Bytes) : bytesReader b = { data := b, term := Err.EOF } := rfl

theorem repoImpl.PutObject_ok (s : Storage) (comp : Option Compressor) (cr : Option Crypter)
    (path : GoString) (src : Reader) (D : Bytes)
    (h : pipeProducer src comp cr = { data := D, term := Err.EOF }) :
    (NewWriteReader s comp cr).PutObject path src =
      .ok ({ storage := { objects := fun name =>
                if name = (NewWriteReader s comp cr).encodePath path then some D
                else s.objects name },
             compressor := comp, crypter := cr },
           (NewWriteReader s comp cr).encodePath path) := by
  simp only [repoImpl.PutObject, NewWriteReader, CompressAndEncryptOptional, h,
    Storage.PutObject, if_true]

/-- Reading back what `PutObject_ok` stored: the decoded reader `rc` is what the read
pipeline makes of the stored bytes. -/
theorem repoImpl.ReadObject_ok (lib : CodecLib) (s : Storage) (comp : Option Compressor)
    (cr : Option Crypter) (path : GoString) (D : Bytes) (dec : Option Decompressor)
    (rc : ReadCloser)
    (hdec : (comp = none ∧ dec = none) ∨
      ∃ z d, comp = some z ∧ dec = some d ∧ GetDecompressor lib (some z) = some d)
    (hrc : DecryptAndDecompressOptional 1
        (AnyReader.closer { id := 0, Reader := bytesReader D, closeErr := none }) cr dec
        = .ok rc) :
    repoImpl.ReadObject lib
      { storage := { objects := fun name =>
          if name = (NewWriteReader s comp cr).encodePath path then some D
          else s.objects name },
        compressor := comp, crypter := cr } path =
      ([], .ok (NewMultiCloser rc.Reader
        [{ id := 0, Reader := bytesReader D, closeErr := none }, rc])) := by
  have he : repoImpl.encodePath
      { storage := { objects := fun name =>
          if name = (NewWriteReader s comp cr).encodePath path then some D
          else s.objects name },
        compressor := comp, crypter := cr } path =
      (NewWriteReader s comp cr).encodePath path := rfl
  unfold repoImpl.ReadObject
  rcases hdec with ⟨rfl, rfl⟩ | ⟨z, d, rfl, rfl, hd⟩
  · simp only [he, Storage.ReadObject, if_true, hrc]
  · simp only [he, Storage.ReadObject, if_true, hd, hrc]

/-- Put then read, for a compressor that is absent or good and a crypter that is absent
or the chunked AES-GCM crypter over a lawful AEAD. -/
theorem repoImpl.put_read (lib : CodecLib) (env : Env) (password : String) (salt : Bytes)
    (s : Storage) (comp : Option Compressor) (cr : Option Crypter) (path : GoString)
    (src : Reader)
    (hcomp : comp = none ∨
      ∃ z d, comp = some z ∧ GetDecompressor lib (some z) = some d ∧ CodecGood z d)
    (hcrypt : cr = none ∨
      (cr = some (NewChunkedGCMCrypter env password) ∧ env.rand = .ok salt ∧
        salt.length = saltSize ∧ (env.newAEAD password salt).Lawful))
    (hsrc : src.term = Err.EOF) :
    ∃ repo2, (NewWriteReader s comp cr).PutObject path src
        = .ok (repo2, (NewWriteReader s comp cr).encodePath path) ∧
      ∃ mc, repoImpl.ReadObject lib repo2 path = ([], .ok mc) ∧
        mc.Reader = { data := src.blocks.flatten, term := Err.EOF } ∧
        mc.Close.2 = Outcome.returned none := by
  rcases hcomp with rfl | ⟨z, d, rfl, hd, hgood⟩
  · rcases hcrypt with rfl | ⟨rfl, hr, hs, ha⟩
    · -- neither
      refine ⟨_, repoImpl.PutObject_ok s none none path src _ (pipeProducer_plain src hsrc),
        _, repoImpl.ReadObject_ok lib s none none path _ none
          { id := 0, Reader := bytesReader src.blocks.flatten, closeErr := none }
          (Or.inl ⟨rfl, rfl⟩) rfl,
        rfl, ?_⟩
      exact MultiCloser.closeLoop_no_error _ (by simp [NewMultiCloser]) (by simp [NewMultiCloser]) _ _
    · -- crypter only
      obtain ⟨g, hg, hst⟩ := Decrypt_specStream env password salt src.blocks.flatten hr hs ha
      refine ⟨_, repoImpl.PutObject_ok s none _ path src _
          (pipeProducer_enc env password salt src hr hsrc),
        _, repoImpl.ReadObject_ok lib s none _ path _ none
          { id := 1, Reader := { data := src.blocks.flatten, term := Err.EOF },
            closeErr := none } (Or.inl ⟨rfl, rfl⟩) ?_,
        rfl, ?_⟩
      · simp only [DecryptAndDecompressOptional, AnyReader.Reader, NewChunkedGCMCrypter, hg,
          Except.map, hst]
      · exact MultiCloser.closeLoop_no_error _ (by simp [NewMultiCloser]) (by simp [NewMultiCloser]) _ _
  · obtain ⟨st, hn⟩ := hgood.newWriter
    have hrt := hgood.roundTrip st src.blocks hn
    rcases hcrypt with rfl | ⟨rfl, hr, hs, ha⟩
    · -- compressor only
      refine ⟨_, repoImpl.PutObject_ok s (some z) none path src _
          (pipeProducer_comp z st src hn hgood.write hsrc),
        _, repoImpl.ReadObject_ok lib s (some z) none path _ (some d)
          { id := 1, Reader := { data := src.blocks.flatten, term := Err.EOF },
            closeErr := none } (Or.inr ⟨z, d, rfl, rfl, hd⟩) ?_,
        rfl, ?_⟩
      · simp only [DecryptAndDecompressOptional, AnyReader.Reader, bytesReader_eq, hrt]
      · exact MultiCloser.closeLoop_no_error _ (by simp [NewMultiCloser]) (by simp [NewMultiCloser]) _ _
    · -- both
      obtain ⟨g, hg, hst⟩ := Decrypt_specStream env password salt
        (compressAll z st src.blocks) hr hs ha
      refine ⟨_, repoImpl.PutObject_ok s (some z) _ path src _
          (pipeProducer_both env password salt z st src hr hn hgood.write hsrc),
        _, repoImpl.ReadObject_ok lib s (some z) _ path _ (some d)
          { id := 1, Reader := { data := src.blocks.flatten, term := Err.EOF },
            closeErr := none } (Or.inr ⟨z, d, rfl, rfl, hd⟩) ?_,
        rfl, ?_⟩
      · simp only [DecryptAndDecompressOptional, AnyReader.Reader, NewChunkedGCMCrypter, hg,
          Except.map, hst, hrt]
      · exact MultiCloser.closeLoop_no_error _ (by simp [NewMultiCloser]) (by simp [NewMultiCloser]) _ _

theorem GetDecompressor_gzip (lib : CodecLib) :
    GetDecompressor lib (some (GzipCompressor lib)) = some (GzipDecompressor lib) := by
  simp [GetDecompressor, GzipCompressor, GzipFileExt]

theorem GetDecompressor_zstd (lib : CodecLib) :
    GetDecompressor lib (some (ZstdCompressor lib)) = some (ZstdDecompressor lib) := by
  have h : ¬ ((ZstdCompressor lib).FileExtension = GzipFileExt) := by
    show ¬ (".zst".toList = GzipFileExt)
    decide
  have h2 : (ZstdCompressor lib).FileExtension = ZstdFileExt := rfl
  simp only [GetDecompressor, if_neg h, if_pos h2]

theorem compWrites_copy (blocks : List Bytes) (st : (GzipCompressor copyLib).State) :
    (compWrites (GzipCompressor copyLib) st blocks).2.flatten = blocks.flatten := by
  induction blocks generalizing st with
  | nil => rfl
  | cons p ps ih =>
    by_cases hp : p.length = 0
    · have hp2 : p = [] := List.length_eq_zero.mp hp
      subst hp2
      simp only [compWrites, List.length_nil, if_true, ih, List.flatten_cons,
        List.nil_append]
    · simp only [compWrites, hp, if_false, List.flatten_append, ih, List.flatten_cons]
      have hw : ((GzipCompressor copyLib).Write st p).2.1 = [p] := rfl
      rw [hw]
      simp

theorem copy_good : CodecGood (GzipCompressor copyLib) (GzipDecompressor copyLib) := by
  refine ⟨⟨(), rfl⟩, fun _ _ => rfl, ?_⟩
  intro st blocks _
  have h : compressAll (GzipCompressor copyLib) st blocks = blocks.flatten := by
    simp only [compressAll, List.flatten_append, compWrites_copy]
    show blocks.flatten ++ [] ++ [] = blocks.flatten
    simp
  rw [h]
  rfl

/-- C1. For a repository whose compressor is absent, gzip or zstd (over libraries whose
reader undoes their writer) and whose crypter is absent or the chunked AES-GCM crypter
(over an AEAD that opens what it sealed), over a storage that keeps what was last put
under a name: `PutObject` of a source that delivers the bytes `P` succeeds, and
`ReadObject` of the same path then succeeds with a reader that delivers exactly `P` up
to a clean end of stream and whose `Close` returns no error. -/
theorem C1_put_then_read (lib : CodecLib) (env : Env) (password : String) (salt : Bytes)
    (s : Storage) (comp : Option Compressor) (cr : Option Crypter) (path : GoString)
    (src : Reader)
    (hcomp : comp = none ∨
      (comp = some (GzipCompressor lib) ∧
        CodecGood (GzipCompressor lib) (GzipDecompressor lib)) ∨
      (comp = some (ZstdCompressor lib) ∧
        CodecGood (ZstdCompressor lib) (ZstdDecompressor lib)))
    (hcrypt : cr = none ∨
      (cr = some (NewChunkedGCMCrypter env password) ∧ env.rand = .ok salt ∧
        salt.length = saltSize ∧ (env.newAEAD password salt).Lawful))
    (hsrc : src.term = Err.EOF) :
    ∃ repo2, (NewWriteReader s comp cr).PutObject path src
        = .ok (repo2, (NewWriteReader s comp cr).encodePath path) ∧
      ∃ mc, repoImpl.ReadObject lib repo2 path = ([], .ok mc) ∧
        mc.Reader = { data := src.blocks.flatten, term := Err.EOF } ∧
        mc.Close.2 = Outcome.returned none := by
  apply repoImpl.put_read lib env password salt s comp cr path src _ hcrypt hsrc
  rcases hcomp with h | ⟨h, hg⟩ | ⟨h, hg⟩
  · exact Or.inl h
  · exact Or.inr ⟨_, _, h, GetDecompressor_gzip lib, hg⟩
  · exact Or.inr ⟨_, _, h, GetDecompressor_zstd lib, hg⟩

theorem C1_put_then_read_witness :
    ((some (GzipCompressor copyLib) : Option Compressor) = none ∨
      ((some (GzipCompressor copyLib) : Option Compressor) = some (GzipCompressor copyLib) ∧
        CodecGood (GzipCompressor copyLib) (GzipDecompressor copyLib)) ∨
      ((some (GzipCompressor copyLib) : Option Compressor) = some (ZstdCompressor copyLib) ∧
        CodecGood (ZstdCompressor copyLib) (ZstdDecompressor copyLib))) ∧
    (some (NewChunkedGCMCrypter toyEnv "secret") = none ∨
      (some (NewChunkedGCMCrypter toyEnv "secret") = some (NewChunkedGCMCrypter toyEnv "secret") ∧
        toyEnv.rand = .ok (List.replicate 16 7) ∧
        (List.replicate 16 (7 : Byte)).length = saltSize ∧
        (toyEnv.newAEAD "secret" (List.replicate 16 7)).Lawful)) ∧
    ∃ repo2, (NewWriteReader ⟨fun _ => none⟩ (some (GzipCompressor copyLib))
          (some (NewChunkedGCMCrypter toyEnv "secret"))).PutObject "pg_data/PG_VERSION".toList
          ⟨[[1, 2], [3]], Err.EOF⟩
        = .ok (repo2, (NewWriteReader ⟨fun _ => none⟩ (some (GzipCompressor copyLib))
            (some (NewChunkedGCMCrypter toyEnv "secret"))).encodePath
              "pg_data/PG_VERSION".toList) ∧
      ∃ mc, repoImpl.ReadObject copyLib repo2 "pg_data/PG_VERSION".toList = ([], .ok mc) ∧
        mc.Reader = { data := [[1, 2], [3]].flatten, term := Err.EOF } ∧
        mc.Close.2 = Outcome.returned none :=
  ⟨Or.inr (Or.inl ⟨rfl, copy_good⟩), Or.inr ⟨rfl, rfl, rfl, toyAEAD_lawful⟩,
    C1_put_then_read copyLib toyEnv "secret" (List.replicate 16 7) ⟨fun _ => none⟩
      (some (GzipCompressor copyLib)) (some (NewChunkedGCMCrypter toyEnv "secret"))
      "pg_data/PG_VERSION".toList ⟨[[1, 2], [3]], Err.EOF⟩
      (Or.inr (Or.inl ⟨rfl, copy_good⟩)) (Or.inr ⟨rfl, rfl, rfl, toyAEAD_lawful⟩) rfl⟩

/-! ### The resource aggregator -/

theorem mem_distinctClosers_id (cs : List ReadCloser) (i : Nat) :
    i ∈ (distinctClosers cs).map (fun c => c.id) ↔ i ∈ cs.map (fun c => c.id) := by
  induction cs with
  | nil => simp [distinctClosers]
  | cons c cs ih =>
    simp only [distinctClosers, List.map_cons, List.mem_cons]
    constructor
    · rintro (h | h)
      · exact Or.inl h
      · right
        rw [← ih]
        simp only [List.mem_map, List.mem_filter] at h ⊢
        obtain ⟨d, ⟨hd, _⟩, rfl⟩ := h
        exact ⟨d, hd, rfl⟩
    · rintro (h | h)
      · exact Or.inl h
      · by_cases hi : i = c.id
        · exact Or.inl hi
        · right
          rw [← ih] at h
          simp only [List.mem_map, List.mem_filter] at h ⊢
          obtain ⟨d, hd, rfl⟩ := h
          exact ⟨d, ⟨hd, by simpa using hi⟩, rfl⟩

theorem nodup_distinctClosers_id (cs : List ReadCloser) :
    ((distinctClosers cs).map (fun c => c.id)).Nodup := by
  induction cs with
  | nil => simp [distinctClosers]
  | cons c cs ih =>
    simp only [distinctClosers, List.map_cons, List.nodup_cons]
    constructor
    · simp only [List.mem_map, List.mem_filter, not_exists, not_and]
      intro d hd heq
      have := hd.2
      simp only [ne_eq, decide_not, Bool.not_eq_true', decide_eq_false_iff_not] at this
      exact this heq
    · exact (ih.sublist ((List.filter_sublist _).map _))

/-- The loop of `Close` from any point, over closers that can all be hashed: it calls
the distinct handles not seen before, in the order of their first occurrence, folds
their errors into the error so far and returns. -/
theorem MultiCloser.closeLoop_eq (cs : List ReadCloser)
    (hh : ∀ c ∈ cs, c.hashable = true) :
    ∀ (seen : List Nat) (firstErr : Option Err) (called : List Nat),
      MultiCloser.closeLoop cs seen firstErr called =
        (called ++ ((distinctClosers cs).filter (fun d => d.id ∉ seen)).map (fun c => c.id),
         Outcome.returned
          ((((distinctClosers cs).filter (fun d => d.id ∉ seen)).filterMap
            (fun c => c.closeErr)).foldl
           (fun acc err => combineErr acc err) firstErr)) := by
  induction cs with
  | nil => intro seen firstErr called; simp [MultiCloser.closeLoop, distinctClosers]
  | cons c cs ih =>
    intro seen firstErr called
    have hhc : ¬ c.hashable = false := by
      rw [hh c (List.mem_cons_self _ _)]
      decide
    have ih := ih (fun x hx => hh x (List.mem_cons_of_mem _ hx))
    unfold MultiCloser.closeLoop
    rw [if_neg hhc]
    by_cases hc : c.id ∈ seen
    · rw [if_pos hc, ih]
      have hf : (distinctClosers (c :: cs)).filter (fun d => d.id ∉ seen) =
          (distinctClosers cs).filter (fun d => d.id ∉ seen) := by
        simp only [distinctClosers, List.filter_cons, hc, not_true_eq_false, decide_False,
          Bool.false_eq_true, if_false, List.filter_filter]
        apply List.filter_congr
        intro d _
        by_cases hd : d.id ∈ seen
        · simp [hd]
        · have : d.id ≠ c.id := fun h => hd (h ▸ hc)
          simp [hd, this]
      rw [hf]
    · rw [if_neg hc, ih]
      have hf : (distinctClosers (c :: cs)).filter (fun d => d.id ∉ seen) =
          c :: (distinctClosers cs).filter (fun d => d.id ∉ c.id :: seen) := by
        simp only [distinctClosers, List.filter_cons, hc, not_false_eq_true, decide_True,
          if_true, List.filter_filter]
        congr 1
        apply List.filter_congr
        intro d _
        by_cases hd : d.id ∈ seen
        · simp [hd]
        · by_cases hdc : d.id = c.id
          · simp [hdc]
          · simp [hd, hdc]
      rw [hf]
      cases hce : c.closeErr with
      | none => simp [hce]
      | some err => simp [hce, combineErr]

/-- The loop of `Close` over a list with a closer that cannot be hashed: it does what it
does on the closers in front of that one, and then panics. -/
theorem MultiCloser.closeLoop_panics (pre : List ReadCloser) (s : ReadCloser)
    (post : List ReadCloser) (hh : ∀ c ∈ pre, c.hashable = true) (hs : s.hashable = false) :
    ∀ (seen : List Nat) (firstErr : Option Err) (called : List Nat),
      MultiCloser.closeLoop (pre ++ s :: post) seen firstErr called =
        ((MultiCloser.closeLoop pre seen firstErr called).1, Outcome.panicked errUnhashable) := by
  induction pre with
  | nil =>
    intro seen firstErr called
    simp only [List.nil_append, MultiCloser.closeLoop, hs, if_true]
  | cons c cs ih =>
    intro seen firstErr called
    have hhc : ¬ c.hashable = false := by
      rw [hh c (List.mem_cons_self _ _)]
      decide
    have ih := ih (fun x hx => hh x (List.mem_cons_of_mem _ hx))
    simp only [List.cons_append, MultiCloser.closeLoop, if_neg hhc]
    by_cases hc : c.id ∈ seen
    · simp only [if_pos hc]
      exact ih _ _ _
    · simp only [if_neg hc]
      exact ih _ _ _

theorem MultiCloser.Close_eq (r : MultiCloser) (hh : ∀ c ∈ r.closers, c.hashable = true) :
    r.Close = ((distinctClosers r.closers).map (fun c => c.id),
      Outcome.returned
        ((closeFailures r.closers).foldl (fun acc err => combineErr acc err) none)) := by
  unfold MultiCloser.Close
  rw [MultiCloser.closeLoop_eq _ hh]
  simp [closeFailures]

/-- `Close` on a list with a closer that cannot be hashed: the distinct closers in front
of it are closed, then `Close` panics; the closer itself and those behind it are not
closed by this call. -/
theorem MultiCloser.Close_panics (r : MultiCloser) (pre : List ReadCloser) (s : ReadCloser)
    (post : List ReadCloser) (hr : r.closers = pre ++ s :: post)
    (hh : ∀ c ∈ pre, c.hashable = true) (hs : s.hashable = false) :
    r.Close = ((distinctClosers pre).map (fun c => c.id), Outcome.panicked errUnhashable) := by
  unfold MultiCloser.Close
  rw [hr, MultiCloser.closeLoop_panics pre s post hh hs, MultiCloser.closeLoop_eq pre hh]
  simp

theorem distinctClosers_ids (cs : List ReadCloser) :
    (distinctClosers cs).map (fun c => c.id) = firstOccurrences (cs.map (fun c => c.id)) := by
  induction cs with
  | nil => rfl
  | cons c cs ih =>
    simp only [distinctClosers, List.map_cons, firstOccurrences, ← ih, List.filter_map]
    rfl

theorem MultiCloser.count_called (r : MultiCloser) (hh : ∀ c ∈ r.closers, c.hashable = true)
    (c : ReadCloser) (hc : c ∈ r.closers) :
    r.Close.1.count c.id = 1 := by
  rw [MultiCloser.Close_eq r hh]
  apply List.count_eq_one_of_mem (nodup_distinctClosers_id r.closers)
  rw [mem_distinctClosers_id]
  exact List.mem_map.mpr ⟨c, hc, rfl⟩

theorem MultiCloser.called_are_closers (r : MultiCloser)
    (hh : ∀ c ∈ r.closers, c.hashable = true) :
    ∀ i ∈ r.Close.1, ∃ c ∈ r.closers, c.id = i := by
  rw [MultiCloser.Close_eq r hh]
  intro i hi
  rw [mem_distinctClosers_id] at hi
  obtain ⟨c, hc, rfl⟩ := List.mem_map.mp hi
  exact ⟨c, hc, rfl⟩

theorem MultiCloser.called_in_order (r : MultiCloser)
    (hh : ∀ c ∈ r.closers, c.hashable = true) :
    r.Close.1 = firstOccurrences (r.closers.map (fun c => c.id)) := by
  rw [MultiCloser.Close_eq r hh]
  exact distinctClosers_ids r.closers

/-- C15. `NewMultiCloser(r, s)` with a closer `s` whose dynamic type cannot be hashed
(a slice or function type): `Close` panics at the map lookup and the `Close` of `s` is
not called, where the claim has it called exactly once. For closers that can all be
hashed, one `Close` calls the `Close` of every handle of the list exactly once, however
often the handle occurs in the list, and calls nothing else. -/
theorem C15_unhashable_closer_is_not_closed :
    (NewMultiCloser (bytesReader [])
        [{ id := 0, Reader := bytesReader [], closeErr := none, hashable := false }]).Close =
      ([], Outcome.panicked errUnhashable) ∧
    (NewMultiCloser (bytesReader [])
        [{ id := 0, Reader := bytesReader [], closeErr := none, hashable := false }]
      ).Close.1.count 0 = 0 ∧
    ∀ r : MultiCloser, (∀ c ∈ r.closers, c.hashable = true) →
      (∀ c ∈ r.closers, r.Close.1.count c.id = 1) ∧
        (∀ i ∈ r.Close.1, ∃ c ∈ r.closers, c.id = i) :=
  ⟨rfl, rfl, fun r hh =>
    ⟨fun c hc => MultiCloser.count_called r hh c hc, MultiCloser.called_are_closers r hh⟩⟩

/-- C16. In the list of a closer that fails, a closer whose dynamic type cannot be
hashed, and a third closer, `Close` calls the first, then panics at the map lookup of
the second: the second and the third are never attempted, where the claim has every
distinct closer attempted. For closers that can all be hashed, `Close` calls the
distinct handles in the order of their first occurrence in the list; which of them fail
has no part in it: two lists with the same handles in the same places give the same
calls. -/
theorem C16_unhashable_closer_stops_the_loop :
    (NewMultiCloser (bytesReader [])
        [{ id := 0, Reader := bytesReader [], closeErr := some (Err.msg "A-close-error") },
         { id := 1, Reader := bytesReader [], closeErr := none, hashable := false },
         { id := 2, Reader := bytesReader [], closeErr := none }]).Close =
      ([0], Outcome.panicked errUnhashable) ∧
    ∀ r : MultiCloser, (∀ c ∈ r.closers, c.hashable = true) →
      r.Close.1 = firstOccurrences (r.closers.map (fun c => c.id)) ∧
        ∀ r2 : MultiCloser, (∀ c ∈ r2.closers, c.hashable = true) →
          r2.closers.map (fun c => c.id) = r.closers.map (fun c => c.id) →
            r2.Close.1 = r.Close.1 := by
  refine ⟨rfl, fun r hh => ⟨MultiCloser.called_in_order r hh, fun r2 hh2 h2 => ?_⟩⟩
  rw [MultiCloser.called_in_order r2 hh2, MultiCloser.called_in_order r hh, h2]

theorem combineErr_foldl_some (errs : List Err) :
    ∀ f : Err, ∃ e, errs.foldl (fun acc err => combineErr acc err) (some f) = some e ∧
      e.Error = String.intercalate.go f.Error "; " (errs.map Err.Error) ∧
      (∃ post, e.Error = f.Error ++ post) ∧
      ∀ x ∈ errs, ∃ pre post, e.Error = pre ++ x.Error ++ post := by
  induction errs with
  | nil =>
    intro f
    exact ⟨f, rfl, rfl, ⟨"", by simp⟩, by simp⟩
  | cons x xs ih =>
    intro f
    obtain ⟨e, h1, h2, ⟨post, h3⟩, h4⟩ := ih (Err.msg (f.Error ++ "; " ++ x.Error))
    refine ⟨e, ?_, ?_, ?_, ?_⟩
    · simpa only [List.foldl_cons, combineErr] using h1
    · simpa only [List.map_cons, String.intercalate.go, Err.Error] using h2
    · refine ⟨"; " ++ x.Error ++ post, ?_⟩
      rw [h3]
      simp only [Err.Error, String.append_assoc]
    · intro y hy
      rcases List.mem_cons.mp hy with rfl | hy
      · refine ⟨f.Error ++ "; ", post, ?_⟩
        rw [h3]
        simp only [Err.Error, String.append_assoc]
      · exact h4 y hy

theorem MultiCloser.Close_error (r : MultiCloser) (hh : ∀ c ∈ r.closers, c.hashable = true) :
    (r.Close.2 = Outcome.returned none ↔
        ∀ c ∈ distinctClosers r.closers, c.closeErr = none) ∧
      (r.closers = [] → r.Close.2 = Outcome.returned none) ∧
      (closeFailures r.closers ≠ [] →
        ∃ e, r.Close.2 = Outcome.returned (some e) ∧
          e.Error = String.intercalate "; " ((closeFailures r.closers).map Err.Error) ∧
          ∀ x ∈ closeFailures r.closers, ∃ pre post, e.Error = pre ++ x.Error ++ post) := by
  rw [MultiCloser.Close_eq r hh]
  simp only
  have hnil : closeFailures r.closers = [] ↔
      ∀ c ∈ distinctClosers r.closers, c.closeErr = none := by
    simp only [closeFailures, List.filterMap_eq_nil_iff]
  refine ⟨?_, ?_, ?_⟩
  · rw [← hnil]
    cases hf : closeFailures r.closers with
    | nil => simp
    | cons x xs =>
      obtain ⟨e, h1, _⟩ := combineErr_foldl_some xs x
      have h2 : (x :: xs).foldl (fun acc err => combineErr acc err) none = some e := h1
      rw [h2]
      simp
  · intro h
    simp [h, closeFailures, distinctClosers]
  · intro hne
    cases hf : closeFailures r.closers with
    | nil => exact absurd hf hne
    | cons x xs =>
      obtain ⟨e, h1, h2, ⟨post, h3⟩, h4⟩ := combineErr_foldl_some xs x
      have h5 : (x :: xs).foldl (fun acc err => combineErr acc err) none = some e := h1
      refine ⟨e, by rw [h5], ?_, ?_⟩
      · simpa only [List.map_cons, String.intercalate] using h2
      · intro y hy
        rcases List.mem_cons.mp hy with rfl | hy
        · exact ⟨"", post, by rw [h3]; simp⟩
        · exact h4 y hy

/-- C17. For a list whose only closer has a dynamic type that cannot be hashed, `Close`
returns neither nil nor an error: it panics at the map lookup, where the claim has it
return nil (no closer's `Close` returned an error). For closers that can all be hashed,
`Close` returns nil exactly when every distinct handle closed without an error, so also
for the empty list; else it returns one error whose message is the messages of the
failures, in the order of the calls, joined by `"; "`, and every failure's message
stands in it. -/
theorem C17_unhashable_closer_no_return :
    (NewMultiCloser (bytesReader [])
        [{ id := 0, Reader := bytesReader [], closeErr := none, hashable := false }]).Close.2 =
      Outcome.panicked errUnhashable ∧
    (∀ err, (NewMultiCloser (bytesReader [])
        [{ id := 0, Reader := bytesReader [], closeErr := none, hashable := false }]).Close.2 ≠
      Outcome.returned err) ∧
    ∀ r : MultiCloser, (∀ c ∈ r.closers, c.hashable = true) →
      (r.Close.2 = Outcome.returned none ↔
          ∀ c ∈ distinctClosers r.closers, c.closeErr = none) ∧
        (r.closers = [] → r.Close.2 = Outcome.returned none) ∧
        (closeFailures r.closers ≠ [] →
          ∃ e, r.Close.2 = Outcome.returned (some e) ∧
            e.Error = String.intercalate "; " ((closeFailures r.closers).map Err.Error) ∧
            ∀ x ∈ closeFailures r.closers, ∃ pre post, e.Error = pre ++ x.Error ++ post) := by
  refine ⟨rfl, fun err h => ?_, fun r hh => MultiCloser.Close_error r hh⟩
  have h2 : Outcome.panicked errUnhashable = Outcome.returned err := h
  cases h2

/-! ### `ReadObject`: what it closes and what it returns -/

/-- The decompressor `ReadObject` settles on, or its error. -/
theorem repoImpl.ReadObject_cases (lib : CodecLib) (repo : repoImpl) (path : GoString) :
    (∃ e, repo.storage.ReadObject (repo.encodePath path) = .error e ∧
        repoImpl.ReadObject lib repo path = ([], .error e)) ∨
    (∃ obj z, repo.storage.ReadObject (repo.encodePath path) = .ok obj ∧
        repo.compressor = some z ∧ GetDecompressor lib (some z) = none ∧
        repoImpl.ReadObject lib repo path =
          ([obj.id], .error (Err.msg ("cannot decide decompressor for: " ++
            String.mk z.FileExtension)))) ∨
    (∃ obj dec e, repo.storage.ReadObject (repo.encodePath path) = .ok obj ∧
        DecryptAndDecompressOptional 1 (AnyReader.closer obj) repo.crypter dec = .error e ∧
        repoImpl.ReadObject lib repo path = ([obj.id], .error e)) ∨
    (∃ obj dec rc, repo.storage.ReadObject (repo.encodePath path) = .ok obj ∧
        dec = GetDecompressor lib repo.compressor ∧
        DecryptAndDecompressOptional 1 (AnyReader.closer obj) repo.crypter dec = .ok rc ∧
        repoImpl.ReadObject lib repo path =
          ([], .ok (NewMultiCloser rc.Reader [obj, rc]))) := by
  cases hs : repo.storage.ReadObject (repo.encodePath path) with
  | error e =>
    exact Or.inl ⟨e, rfl, by unfold repoImpl.ReadObject; simp only [hs]⟩
  | ok obj =>
    right
    cases hz : repo.compressor with
    | none =>
      cases hd : DecryptAndDecompressOptional 1 (AnyReader.closer obj) repo.crypter none with
      | error e =>
        exact Or.inr (Or.inl ⟨obj, none, e, rfl, hd, by
          unfold repoImpl.ReadObject; simp only [hs, hz, hd]⟩)
      | ok rc =>
        exact Or.inr (Or.inr ⟨obj, none, rc, rfl, by simp [GetDecompressor], hd, by
          unfold repoImpl.ReadObject; simp only [hs, hz, hd]⟩)
    | some z =>
      cases hg : GetDecompressor lib (some z) with
      | none =>
        exact Or.inl ⟨obj, z, rfl, rfl, hg, by
          unfold repoImpl.ReadObject; simp only [hs, hz, hg]⟩
      | some d =>
        cases hd : DecryptAndDecompressOptional 1 (AnyReader.closer obj) repo.crypter
          (some d) with
        | error e =>
          exact Or.inr (Or.inl ⟨obj, some d, e, rfl, hd, by
            unfold repoImpl.ReadObject; simp only [hs, hz, hg, hd]⟩)
        | ok rc =>
          exact Or.inr (Or.inr ⟨obj, some d, rc, rfl, rfl, hd, by
            unfold repoImpl.ReadObject; simp only [hs, hz, hg, hd]⟩)

theorem Storage.ReadObject_hashable (s : Storage) (path : GoString) (obj : ReadCloser)
    (h : s.ReadObject path = .ok obj) : obj.hashable = true := by
  unfold Storage.ReadObject at h
  split at h
  · cases h
  · cases h
    rfl

/-- The reader the read pipeline returns over a handle that can be hashed can be hashed:
it is that handle, or a new pointer. -/
theorem DecryptAndDecompressOptional_hashable (fresh : Nat) (obj rc : ReadCloser)
    (crypter : Option Crypter) (dec : Option Decompressor)
    (h : DecryptAndDecompressOptional fresh (AnyReader.closer obj) crypter dec = .ok rc)
    (ho : obj.hashable = true) : rc.hashable = true := by
  unfold DecryptAndDecompressOptional at h
  cases crypter with
  | none =>
    cases dec with
    | none =>
      simp only [Except.ok.injEq] at h
      subst h
      exact ho
    | some d =>
      simp only at h
      split at h
      · cases h
      · simp only [Except.ok.injEq] at h
        subst h
        rfl
  | some c =>
    simp only at h
    cases hc : c.Decrypt (AnyReader.closer obj).Reader with
    | error e =>
      rw [hc] at h
      simp only [Except.map] at h
      cases h
    | ok g =>
      rw [hc] at h
      simp only [Except.map] at h
      cases dec with
      | none =>
        simp only [Except.ok.injEq] at h
        subst h
        rfl
      | some d =>
        simp only at h
        split at h
        · cases h
        · simp only [Except.ok.injEq] at h
          subst h
          rfl

theorem GetDecompressor_other (lib : CodecLib) (z : Compressor)
    (hgz : z.FileExtension ≠ GzipFileExt) (hzs : z.FileExtension ≠ ZstdFileExt) :
    GetDecompressor lib (some z) = none := by
  simp only [GetDecompressor, if_neg hgz, if_neg hzs]

/-- C18. After a `ReadObject` that succeeds, the reader it returned holds the raw
storage handle and the decoded reader, and one `Close` on it calls the `Close` of the
raw handle exactly once and of the decoded reader exactly once, and nothing else; with
no compressor and no crypter the decoded reader is the raw handle itself and that one
handle is closed once. -/
theorem C18_close_releases_handle_and_reader_once (lib : CodecLib) (repo : repoImpl)
    (path : GoString) (closed : List Nat) (mc : MultiCloser)
    (h : repoImpl.ReadObject lib repo path = (closed, .ok mc)) :
    ∃ obj rc, repo.storage.ReadObject (repo.encodePath path) = .ok obj ∧
      DecryptAndDecompressOptional 1 (AnyReader.closer obj) repo.crypter
        (GetDecompressor lib repo.compressor) = .ok rc ∧
      mc.closers = [obj, rc] ∧
      mc.Close.1.count obj.id = 1 ∧ mc.Close.1.count rc.id = 1 ∧
      (∀ i ∈ mc.Close.1, i = obj.id ∨ i = rc.id) ∧
      (repo.compressor = none → repo.crypter = none →
        rc = obj ∧ mc.Close.1 = [obj.id]) := by
  rcases repoImpl.ReadObject_cases lib repo path with
    ⟨e, _, h1⟩ | ⟨obj, z, _, _, _, h1⟩ | ⟨obj, dec, e, _, _, h1⟩ | ⟨obj, dec, rc, hs, hdec, hd, h1⟩
  · rw [h1] at h; cases h
  · rw [h1] at h; cases h
  · rw [h1] at h; cases h
  · rw [h1] at h
    simp only [Prod.mk.injEq, Except.ok.injEq] at h
    obtain ⟨_, rfl⟩ := h
    subst hdec
    have hobj := Storage.ReadObject_hashable _ _ obj hs
    have hrc := DecryptAndDecompressOptional_hashable 1 obj rc _ _ hd hobj
    have hh : ∀ c ∈ (NewMultiCloser rc.Reader [obj, rc]).closers, c.hashable = true := by
      intro c hc
      simp only [NewMultiCloser, List.mem_cons, List.mem_singleton, List.not_mem_nil,
        or_false] at hc
      rcases hc with rfl | rfl
      · exact hobj
      · exact hrc
    refine ⟨obj, rc, hs, hd, rfl, ?_, ?_, ?_, ?_⟩
    · exact MultiCloser.count_called _ hh obj (by simp [NewMultiCloser])
    · exact MultiCloser.count_called _ hh rc (by simp [NewMultiCloser])
    · intro i hi
      rw [MultiCloser.Close_eq _ hh, mem_distinctClosers_id] at hi
      simpa [NewMultiCloser] using hi
    · intro hz hc
      rw [hz, hc] at hd
      simp only [GetDecompressor, DecryptAndDecompressOptional, Except.ok.injEq] at hd
      subst hd
      exact ⟨rfl, by simp [MultiCloser.Close, MultiCloser.closeLoop, NewMultiCloser, hobj]⟩

theorem C18_close_releases_handle_and_reader_once_witness :
    repoImpl.ReadObject copyLib
        (NewWriteReader ⟨fun name => if name = "f".toList then some [1, 2] else none⟩
          none none) "f".toList =
      ([], .ok (NewMultiCloser (bytesReader [1, 2])
        [{ id := 0, Reader := bytesReader [1, 2], closeErr := none },
         { id := 0, Reader := bytesReader [1, 2], closeErr := none }])) ∧
    ∃ obj rc,
      (NewWriteReader ⟨fun name => if name = "f".toList then some [1, 2] else none⟩
          none none).storage.ReadObject
        ((NewWriteReader ⟨fun name => if name = "f".toList then some [1, 2] else none⟩
          none none).encodePath "f".toList) = .ok obj ∧
      DecryptAndDecompressOptional 1 (AnyReader.closer obj)
        (NewWriteReader ⟨fun name => if name = "f".toList then some [1, 2] else none⟩
          none none).crypter
        (GetDecompressor copyLib
          (NewWriteReader ⟨fun name => if name = "f".toList then some [1, 2] else none⟩
            none none).compressor) = .ok rc ∧
      (NewMultiCloser (bytesReader [1, 2])
        [{ id := 0, Reader := bytesReader [1, 2], closeErr := none },
         { id := 0, Reader := bytesReader [1, 2], closeErr := none }]).closers = [obj, rc] ∧
      (NewMultiCloser (bytesReader [1, 2])
        [{ id := 0, Reader := bytesReader [1, 2], closeErr := none },
         { id := 0, Reader := bytesReader [1, 2], closeErr := none }]).Close.1.count obj.id
          = 1 ∧
      (NewMultiCloser (bytesReader [1, 2])
        [{ id := 0, Reader := bytesReader [1, 2], closeErr := none },
         { id := 0, Reader := bytesReader [1, 2], closeErr := none }]).Close.1.count rc.id
          = 1 ∧
      (∀ i ∈ (NewMultiCloser (bytesReader [1, 2])
        [{ id := 0, Reader := bytesReader [1, 2], closeErr := none },
         { id := 0, Reader := bytesReader [1, 2], closeErr := none }]).Close.1,
          i = obj.id ∨ i = rc.id) ∧
      ((NewWriteReader ⟨fun name => if name = "f".toList then some [1, 2] else none⟩
          none none).compressor = none →
        (NewWriteReader ⟨fun name => if name = "f".toList then some [1, 2] else none⟩
          none none).crypter = none →
        rc = obj ∧
          (NewMultiCloser (bytesReader [1, 2])
            [{ id := 0, Reader := bytesReader [1, 2], closeErr := none },
             { id := 0, Reader := bytesReader [1, 2], closeErr := none }]).Close.1
            = [obj.id]) :=
  ⟨rfl, C18_close_releases_handle_and_reader_once copyLib
    (NewWriteReader ⟨fun name => if name = "f".toList then some [1, 2] else none⟩ none none)
    "f".toList [] _ rfl⟩

/-- C19. `GetDecompressor` gives the gzip decompressor for the extension `.gz`, the zstd
decompressor for `.zst`, and nothing for no compressor or another extension; and a
repository whose compressor has another extension fails `ReadObject` on an object the
storage holds, with the error "cannot decide decompressor for: " and that extension. -/
theorem C19_decompressor_by_extension (lib : CodecLib) (repo : repoImpl) (z : Compressor)
    (path : GoString) (b : Bytes) (hz : repo.compressor = some z)
    (hgz : z.FileExtension ≠ ".gz".toList) (hzs : z.FileExtension ≠ ".zst".toList)
    (hobj : repo.storage.objects (repo.encodePath path) = some b) :
    (∀ z2 : Compressor, z2.FileExtension = ".gz".toList →
        GetDecompressor lib (some z2) = some (GzipDecompressor lib)) ∧
      (∀ z2 : Compressor, z2.FileExtension = ".zst".toList →
        GetDecompressor lib (some z2) = some (ZstdDecompressor lib)) ∧
      GetDecompressor lib none = none ∧
      (∀ z2 : Compressor, z2.FileExtension ≠ ".gz".toList →
        z2.FileExtension ≠ ".zst".toList → GetDecompressor lib (some z2) = none) ∧
      (repoImpl.ReadObject lib repo path).2 =
        .error (Err.msg ("cannot decide decompressor for: " ++ String.mk z.FileExtension)) := by
  refine ⟨?_, ?_, rfl, fun z2 h1 h2 => GetDecompressor_other lib z2 h1 h2, ?_⟩
  · intro z2 h
    simp only [GetDecompressor, GzipFileExt, h, if_true]
  · intro z2 h
    have hne : ¬ (".zst".toList = GzipFileExt) := by decide
    simp only [GetDecompressor, ZstdFileExt, h, if_neg hne, if_true]
  · have hs : repo.storage.ReadObject (repo.encodePath path) =
        .ok { id := 0, Reader := bytesReader b, closeErr := none } := by
      simp only [Storage.ReadObject, hobj]
    unfold repoImpl.ReadObject
    simp only [hs, hz, GetDecompressor_other lib z hgz hzs]

theorem C19_decompressor_by_extension_witness :
    (NewWriteReader ⟨fun _ => some [1]⟩ (some fakeCompressor) none).compressor
        = some fakeCompressor ∧
    fakeCompressor.FileExtension ≠ ".gz".toList ∧
    fakeCompressor.FileExtension ≠ ".zst".toList ∧
    (NewWriteReader ⟨fun _ => some [1]⟩ (some fakeCompressor) none).storage.objects
        ((NewWriteReader ⟨fun _ => some [1]⟩ (some fakeCompressor) none).encodePath
          "broken/file".toList) = some [1] ∧
    ((∀ z2 : Compressor, z2.FileExtension = ".gz".toList →
        GetDecompressor copyLib (some z2) = some (GzipDecompressor copyLib)) ∧
      (∀ z2 : Compressor, z2.FileExtension = ".zst".toList →
        GetDecompressor copyLib (some z2) = some (ZstdDecompressor copyLib)) ∧
      GetDecompressor copyLib none = none ∧
      (∀ z2 : Compressor, z2.FileExtension ≠ ".gz".toList →
        z2.FileExtension ≠ ".zst".toList → GetDecompressor copyLib (some z2) = none) ∧
      (repoImpl.ReadObject copyLib
          (NewWriteReader ⟨fun _ => some [1]⟩ (some fakeCompressor) none)
          "broken/file".toList).2 =
        .error (Err.msg ("cannot decide decompressor for: " ++
          String.mk fakeCompressor.FileExtension))) :=
  ⟨rfl, by decide, by decide, rfl,
    C19_decompressor_by_extension copyLib
      (NewWriteReader ⟨fun _ => some [1]⟩ (some fakeCompressor) none) fakeCompressor
      "broken/file".toList [1] rfl (by decide) (by decide) rfl⟩

/-- C20. When `storage.ReadObject` fails, `ReadObject` returns its error unchanged and
closes nothing; when it succeeds and `ReadObject` then returns an error (no
decompressor for the extension, or an error of the read pipeline), the raw storage
handle has been closed exactly once, and nothing else, before it returns; and when
`ReadObject` succeeds nothing has been closed yet. -/
theorem C20_handle_closed_on_error (lib : CodecLib) (repo : repoImpl) (path : GoString) :
    (∀ e, repo.storage.ReadObject (repo.encodePath path) = .error e →
        repoImpl.ReadObject lib repo path = ([], .error e)) ∧
      (∀ obj e, repo.storage.ReadObject (repo.encodePath path) = .ok obj →
        (repoImpl.ReadObject lib repo path).2 = .error e →
          (repoImpl.ReadObject lib repo path).1 = [obj.id]) ∧
      (∀ mc, (repoImpl.ReadObject lib repo path).2 = .ok mc →
        (repoImpl.ReadObject lib repo path).1 = []) := by
  rcases repoImpl.ReadObject_cases lib repo path with
    ⟨e, hs, h1⟩ | ⟨obj, z, hs, _, _, h1⟩ | ⟨obj, dec, e, hs, _, h1⟩ |
    ⟨obj, dec, rc, hs, _, _, h1⟩
  · refine ⟨fun e2 h2 => ?_, fun obj e2 h2 _ => ?_, fun mc h2 => ?_⟩
    · rw [hs] at h2; cases h2; exact h1
    · rw [hs] at h2; cases h2
    · rw [h1] at h2; cases h2
  · refine ⟨fun e2 h2 => ?_, fun obj2 e2 h2 _ => ?_, fun mc h2 => ?_⟩
    · rw [hs] at h2; cases h2
    · rw [hs] at h2; cases h2; rw [h1]
    · rw [h1] at h2; cases h2
  · refine ⟨fun e2 h2 => ?_, fun obj2 e2 h2 _ => ?_, fun mc h2 => ?_⟩
    · rw [hs] at h2; cases h2
    · rw [hs] at h2; cases h2; rw [h1]
    · rw [h1] at h2; cases h2
  · refine ⟨fun e2 h2 => ?_, fun obj2 e2 h2 h3 => ?_, fun mc _ => ?_⟩
    · rw [hs] at h2; cases h2
    · rw [h1] at h3; cases h3
    · rw [h1]

theorem C20_handle_closed_on_error_witness :
    (repoImpl.ReadObject copyLib (NewWriteReader ⟨fun _ => none⟩ none none)
        "missing".toList = ([], .error errNotExist)) ∧
    (repoImpl.ReadObject copyLib
        (NewWriteReader ⟨fun _ => some [1]⟩ (some fakeCompressor) none)
        "broken/file".toList).1 = [0] ∧
    (repoImpl.ReadObject copyLib
        (NewWriteReader ⟨fun _ => some (List.replicate 22 0)⟩ none
          (some (NewChunkedGCMCrypter toyEnv "secret")))
        "f".toList).1 = [0] :=
  ⟨(C20_handle_closed_on_error copyLib (NewWriteReader ⟨fun _ => none⟩ none none)
      "missing".toList).1 errNotExist rfl,
    (C20_handle_closed_on_error copyLib
      (NewWriteReader ⟨fun _ => some [1]⟩ (some fakeCompressor) none)
      "broken/file".toList).2.1 ⟨0, bytesReader [1], none, true⟩
      (Err.msg ("cannot decide decompressor for: " ++ String.mk fakeCompressor.FileExtension))
      rfl rfl,
    (C20_handle_closed_on_error copyLib
      (NewWriteReader ⟨fun _ => some (List.replicate 22 0)⟩ none
        (some (NewChunkedGCMCrypter toyEnv "secret")))
      "f".toList).2.1 ⟨0, bytesReader (List.replicate 22 0), none, true⟩ errInvalidHeader
      rfl rfl⟩

theorem copyResult_source_error (e : Err) (hne : e ≠ Err.EOF) :
    copyResult none e = some e := by
  simp [copyResult, hne]

/-- The read pipeline undoes the write pipeline, for a compressor that is absent or good
and a crypter that is absent or the chunked AES-GCM crypter over a lawful AEAD. -/
theorem pipe_round_trip (lib : CodecLib) (env : Env) (password : String) (salt : Bytes)
    (fresh : Nat) (comp : Option Compressor) (cr : Option Crypter) (src : Reader)
    (hcomp : comp = none ∨
      ∃ z d, comp = some z ∧ GetDecompressor lib (some z) = some d ∧ CodecGood z d)
    (hcrypt : cr = none ∨
      (cr = some (NewChunkedGCMCrypter env password) ∧ env.rand = .ok salt ∧
        salt.length = saltSize ∧ (env.newAEAD password salt).Lawful))
    (hsrc : src.term = Err.EOF) :
    ∃ S rc, CompressAndEncryptOptional src comp cr = (S, none) ∧ S.term = Err.EOF ∧
      DecryptAndDecompressOptional fresh (AnyReader.plain (bytesReader S.data)) cr
        (GetDecompressor lib comp) = .ok rc ∧
      rc.Reader = { data := src.blocks.flatten, term := Err.EOF } ∧
      rc.closeErr = none := by
  have key : ∀ (D : Bytes) (rc : ReadCloser),
      pipeProducer src comp cr = { data := D, term := Err.EOF } →
      DecryptAndDecompressOptional fresh (AnyReader.plain (bytesReader D)) cr
        (GetDecompressor lib comp) = .ok rc →
      rc.Reader = { data := src.blocks.flatten, term := Err.EOF } → rc.closeErr = none →
      ∃ S rc, CompressAndEncryptOptional src comp cr = (S, none) ∧ S.term = Err.EOF ∧
        DecryptAndDecompressOptional fresh (AnyReader.plain (bytesReader S.data)) cr
          (GetDecompressor lib comp) = .ok rc ∧
        rc.Reader = { data := src.blocks.flatten, term := Err.EOF } ∧
        rc.closeErr = none := by
    intro D rc h1 h2 h3 h4
    exact ⟨⟨D, Err.EOF⟩, rc, by simp only [CompressAndEncryptOptional, h1], rfl, h2, h3, h4⟩
  rcases hcomp with rfl | ⟨z, d, rfl, hd, hgood⟩
  · rcases hcrypt with rfl | ⟨rfl, hr, hs, ha⟩
    · exact key _ ⟨fresh, bytesReader src.blocks.flatten, none, true⟩
        (pipeProducer_plain src hsrc) rfl rfl rfl
    · obtain ⟨g, hg, hst⟩ := Decrypt_specStream env password salt src.blocks.flatten hr hs ha
      refine key _ ⟨fresh, ⟨src.blocks.flatten, Err.EOF⟩, none, true⟩
        (pipeProducer_enc env password salt src hr hsrc) ?_ rfl rfl
      simp only [DecryptAndDecompressOptional, AnyReader.Reader, NewChunkedGCMCrypter, hg,
        Except.map, hst, GetDecompressor]
  · obtain ⟨st, hn⟩ := hgood.newWriter
    have hrt := hgood.roundTrip st src.blocks hn
    rcases hcrypt with rfl | ⟨rfl, hr, hs, ha⟩
    · refine key _ ⟨fresh, ⟨src.blocks.flatten, Err.EOF⟩, none, true⟩
        (pipeProducer_comp z st src hn hgood.write hsrc) ?_ rfl rfl
      simp only [DecryptAndDecompressOptional, AnyReader.Reader, bytesReader_eq, hrt, hd]
    · obtain ⟨g, hg, hst⟩ := Decrypt_specStream env password salt
        (compressAll z st src.blocks) hr hs ha
      refine key _ ⟨fresh, ⟨src.blocks.flatten, Err.EOF⟩, none, true⟩
        (pipeProducer_both env password salt z st src hr hn hgood.write hsrc) ?_ rfl rfl
      simp only [DecryptAndDecompressOptional, AnyReader.Reader, NewChunkedGCMCrypter, hg,
        Except.map, hst, hrt, hd]

/-- C11. For every plaintext, given to the write pipeline in any blocks by a source that
ends cleanly, and every combination of an optional gzip compressor (over a library whose
reader undoes its writer) and an optional chunked AES-GCM crypter (over an AEAD that opens
what it sealed, with a 16-byte salt): the consumer of `CompressAndEncryptOptional` reads
some bytes up to a clean end, and `DecryptAndDecompressOptional` on those bytes, with the
same crypter and the decompressor of the compressor, returns without an error a reader
that delivers exactly the plaintext and then a clean end of stream. -/
theorem C11_pipeline_round_trip (lib : CodecLib) (env : Env) (password : String)
    (salt : Bytes) (fresh : Nat) (comp : Option Compressor) (cr : Option Crypter)
    (src : Reader)
    (hcomp : comp = none ∨
      (comp = some (GzipCompressor lib) ∧
        CodecGood (GzipCompressor lib) (GzipDecompressor lib)))
    (hcrypt : cr = none ∨
      (cr = some (NewChunkedGCMCrypter env password) ∧ env.rand = .ok salt ∧
        salt.length = saltSize ∧ (env.newAEAD password salt).Lawful))
    (hsrc : src.term = Err.EOF) :
    ∃ S rc, CompressAndEncryptOptional src comp cr = (S, none) ∧ S.term = Err.EOF ∧
      DecryptAndDecompressOptional fresh (AnyReader.plain (bytesReader S.data)) cr
        (GetDecompressor lib comp) = .ok rc ∧
      rc.Reader = { data := src.blocks.flatten, term := Err.EOF } := by
  have hc : comp = none ∨
      ∃ z d, comp = some z ∧ GetDecompressor lib (some z) = some d ∧ CodecGood z d := by
    rcases hcomp with h | ⟨h, hg⟩
    · exact Or.inl h
    · exact Or.inr ⟨_, _, h, GetDecompressor_gzip lib, hg⟩
  obtain ⟨S, rc, h1, h2, h3, h4, _⟩ :=
    pipe_round_trip lib env password salt fresh comp cr src hc hcrypt hsrc
  exact ⟨S, rc, h1, h2, h3, h4⟩

theorem C11_pipeline_round_trip_witness :
    ((some (GzipCompressor copyLib) : Option Compressor) = none ∨
      ((some (GzipCompressor copyLib) : Option Compressor) = some (GzipCompressor copyLib) ∧
        CodecGood (GzipCompressor copyLib) (GzipDecompressor copyLib))) ∧
    (some (NewChunkedGCMCrypter toyEnv "secret") = none ∨
      (some (NewChunkedGCMCrypter toyEnv "secret") = some (NewChunkedGCMCrypter toyEnv "secret") ∧
        toyEnv.rand = .ok (List.replicate 16 7) ∧
        (List.replicate 16 (7 : Byte)).length = saltSize ∧
        (toyEnv.newAEAD "secret" (List.replicate 16 7)).Lawful)) ∧
    ∃ S rc, CompressAndEncryptOptional ⟨[[1, 2], [], [3]], Err.EOF⟩
          (some (GzipCompressor copyLib)) (some (NewChunkedGCMCrypter toyEnv "secret"))
          = (S, none) ∧
      S.term = Err.EOF ∧
      DecryptAndDecompressOptional 0 (AnyReader.plain (bytesReader S.data))
        (some (NewChunkedGCMCrypter toyEnv "secret"))
        (GetDecompressor copyLib (some (GzipCompressor copyLib))) = .ok rc ∧
      rc.Reader = { data := [[1, 2], [], [3]].flatten, term := Err.EOF } :=
  ⟨Or.inr ⟨rfl, copy_good⟩, Or.inr ⟨rfl, rfl, rfl, toyAEAD_lawful⟩,
    C11_pipeline_round_trip copyLib toyEnv "secret" (List.replicate 16 7) 0
      (some (GzipCompressor copyLib)) (some (NewChunkedGCMCrypter toyEnv "secret"))
      ⟨[[1, 2], [], [3]], Err.EOF⟩ (Or.inr ⟨rfl, copy_good⟩)
      (Or.inr ⟨rfl, rfl, rfl, toyAEAD_lawful⟩) rfl⟩

theorem wrapEncryption_cases (crypter : Option Crypter) :
    (crypter = none ∧ wrapEncryption crypter = .ok (Dst.pipe Sink.buffer)) ∨
    (∃ c e, crypter = some c ∧ c.Encrypt Sink.buffer = .error e ∧
      wrapEncryption crypter = .error e) ∨
    (∃ c g, crypter = some c ∧ c.Encrypt Sink.buffer = .ok g ∧
      wrapEncryption crypter = .ok (Dst.enc g)) := by
  cases crypter with
  | none => exact Or.inl ⟨rfl, rfl⟩
  | some c =>
    cases h : c.Encrypt Sink.buffer with
    | error e =>
      exact Or.inr (Or.inl ⟨c, e, rfl, h, by simp only [wrapEncryption, h, Except.map]⟩)
    | ok g =>
      exact Or.inr (Or.inr ⟨c, g, rfl, h, by simp only [wrapEncryption, h, Except.map]⟩)

theorem pipeProducer_encrypt_error (source : Reader) (compressor : Option Compressor)
    (crypter : Option Crypter) (e : Err) (h : wrapEncryption crypter = .error e) :
    pipeProducer source compressor crypter = { data := [], term := e } := by
  rcases wrapEncryption_cases crypter with ⟨_, h1⟩ | ⟨c, e1, rfl, h0, h1⟩ | ⟨c, g, _, _, h1⟩
  · rw [h1] at h; cases h
  · rw [h1] at h; cases h
    simp only [pipeProducer, h0, Except.map]
    rfl
  · rw [h1] at h; cases h

theorem pipeProducer_writer_error (source : Reader) (z : Compressor)
    (crypter : Option Crypter) (dst : Dst) (e : Err)
    (h : wrapEncryption crypter = .ok dst) (hn : z.NewWriter = .error e) :
    pipeProducer source (some z) crypter = { data := dst.out, term := e } := by
  rcases wrapEncryption_cases crypter with ⟨rfl, h1⟩ | ⟨c, e1, _, _, h1⟩ | ⟨c, g, rfl, h0, h1⟩
  · rw [h1] at h; cases h
    simp only [pipeProducer, hn]
  · rw [h1] at h; cases h
  · rw [h1] at h; cases h
    simp only [pipeProducer, h0, Except.map, hn]

theorem pipeProducer_copy_error (source : Reader) (crypter : Option Crypter) (dst : Dst)
    (e : Err) (h : wrapEncryption crypter = .ok dst)
    (hc : copyResult (copyToDst dst source.blocks).2 source.term = some e) :
    pipeProducer source none crypter =
      { data := (copyToDst dst source.blocks).1.out,
        term := Err.msg ("copy: " ++ e.Error) } := by
  rcases wrapEncryption_cases crypter with ⟨rfl, h1⟩ | ⟨c, e1, _, _, h1⟩ | ⟨c, g, rfl, h0, h1⟩
  · rw [h1] at h; cases h
    simp only [pipeProducer, hc]
  · rw [h1] at h; cases h
  · rw [h1] at h; cases h
    simp only [pipeProducer, h0, Except.map, hc]

theorem pipeProducer_comp_copy_error (source : Reader) (z : Compressor) (st : z.State)
    (crypter : Option Crypter) (dst : Dst) (e : Err)
    (h : wrapEncryption crypter = .ok dst) (hn : z.NewWriter = .ok st)
    (hc : copyResult (copyToComp z st dst source.blocks).2.2 source.term = some e) :
    pipeProducer source (some z) crypter =
      { data := (copyToComp z st dst source.blocks).2.1.out,
        term := Err.msg ("copy: " ++ e.Error) } := by
  rcases wrapEncryption_cases crypter with ⟨rfl, h1⟩ | ⟨c, e1, _, _, h1⟩ | ⟨c, g, rfl, h0, h1⟩
  · rw [h1] at h; cases h
    simp only [pipeProducer, hn, hc]
  · rw [h1] at h; cases h
  · rw [h1] at h; cases h
    simp only [pipeProducer, h0, Except.map, hn, hc]

/-- A source that fails with `e` makes the copy fail with `e`, whatever layers that do
not fail themselves are in between. -/
theorem pipeProducer_source_error (env : Env) (password : String) (salt : Bytes)
    (source : Reader) (compressor : Option Compressor) (crypter : Option Crypter) (e : Err)
    (hcomp : compressor = none ∨ ∃ z st, compressor = some z ∧ z.NewWriter = .ok st ∧
      ∀ s p, (z.Write s p).2.2 = none)
    (hcrypt : crypter = none ∨
      (crypter = some (NewChunkedGCMCrypter env password) ∧ env.rand = .ok salt))
    (he : source.term = e) (hne : e ≠ Err.EOF) :
    (pipeProducer source compressor crypter).term = Err.msg ("copy: " ++ e.Error) := by
  have hstart : ∃ a hdr b dst, wrapEncryption crypter = .ok dst ∧ Fed a hdr b dst [] := by
    rcases hcrypt with rfl | ⟨rfl, hr⟩
    · exact ⟨toyAEAD, [], false, _, rfl, Fed.start_pipe toyAEAD⟩
    · obtain ⟨g, h0, hf⟩ := Fed.start_enc env password salt hr
      exact ⟨_, _, true, Dst.enc g, by simp only [wrapEncryption, h0, Except.map], hf⟩
  obtain ⟨a, hdr, b, dst, hw, hf⟩ := hstart
  rcases hcomp with rfl | ⟨z, st, rfl, hn, hz⟩
  · obtain ⟨d1, h1, _⟩ := Fed.copyToDst source.blocks hf
    rw [pipeProducer_copy_error source crypter dst e hw
      (by rw [h1, he]; exact copyResult_source_error e hne)]
  · obtain ⟨d1, h1, _⟩ := Fed.copyToComp z hz source.blocks st hf
    rw [pipeProducer_comp_copy_error source z st crypter dst e hw hn
      (by rw [h1, he]; exact copyResult_source_error e hne)]

/-- C12 counterexample. A crypter whose `Encrypt` fails with `io.EOF` (the random source
gave `io.EOF` for the salt): the pipe is closed with that error, so the consumer reads
zero bytes and `io.EOF`, which is what it reads from the pipeline of an empty source
that did not fail: a clean end of stream. -/
theorem C12_eof_failure_counterexample :
    (NewChunkedGCMCrypter eofRandEnv "secret").Encrypt Sink.buffer = .error Err.EOF ∧
    CompressAndEncryptOptional ⟨[[1], [2]], Err.EOF⟩ none
        (some (NewChunkedGCMCrypter eofRandEnv "secret")) =
      ({ data := [], term := Err.EOF }, none) ∧
    CompressAndEncryptOptional ⟨[], Err.EOF⟩ none none =
      ({ data := [], term := Err.EOF }, none) :=
  ⟨rfl, rfl, rfl⟩

/-- C12, amended. `CompressAndEncryptOptional` returns a nil error whatever happens in
the producer. When `crypter.Encrypt` fails with `e`, the consumer reads no bytes and
then exactly `e`; when `compressor.NewWriter` fails with `e`, the consumer reads what
the encrypting layer has written and then exactly `e`; in both cases that is not a
clean end of stream whenever `e` is not `io.EOF` itself. When the copy fails with `e`,
on either writer, the consumer reads what the copy has put into the pipe and then an
error whose message is "copy: " followed by the message of `e`, never a clean end of
stream; and a source whose read fails with `e` makes the copy fail with `e` when the
layers do not fail themselves. -/
theorem C12_producer_error_reaches_consumer (source : Reader)
    (compressor : Option Compressor) (crypter : Option Crypter) (e : Err) :
    (CompressAndEncryptOptional source compressor crypter).2 = none ∧
    (wrapEncryption crypter = .error e →
      (CompressAndEncryptOptional source compressor crypter).1 =
          { data := [], term := e } ∧
        (e ≠ Err.EOF →
          (CompressAndEncryptOptional source compressor crypter).1.term ≠ Err.EOF)) ∧
    (∀ z dst, compressor = some z → wrapEncryption crypter = .ok dst →
      z.NewWriter = .error e →
      (CompressAndEncryptOptional source compressor crypter).1 =
          { data := dst.out, term := e } ∧
        (e ≠ Err.EOF →
          (CompressAndEncryptOptional source compressor crypter).1.term ≠ Err.EOF)) ∧
    (∀ dst, compressor = none → wrapEncryption crypter = .ok dst →
      copyResult (copyToDst dst source.blocks).2 source.term = some e →
      (CompressAndEncryptOptional source compressor crypter).1 =
          { data := (copyToDst dst source.blocks).1.out,
            term := Err.msg ("copy: " ++ e.Error) } ∧
        (CompressAndEncryptOptional source compressor crypter).1.term ≠ Err.EOF) ∧
    (∀ z st dst, compressor = some z → wrapEncryption crypter = .ok dst →
      z.NewWriter = .ok st →
      copyResult (copyToComp z st dst source.blocks).2.2 source.term = some e →
      (CompressAndEncryptOptional source compressor crypter).1 =
          { data := (copyToComp z st dst source.blocks).2.1.out,
            term := Err.msg ("copy: " ++ e.Error) } ∧
        (CompressAndEncryptOptional source compressor crypter).1.term ≠ Err.EOF) ∧
    (∀ env password salt,
      (compressor = none ∨ ∃ z st, compressor = some z ∧ z.NewWriter = .ok st ∧
        ∀ s p, (z.Write s p).2.2 = none) →
      (crypter = none ∨
        (crypter = some (NewChunkedGCMCrypter env password) ∧ env.rand = .ok salt)) →
      source.term = e → e ≠ Err.EOF →
      (CompressAndEncryptOptional source compressor crypter).1.term =
          Err.msg ("copy: " ++ e.Error) ∧
        (CompressAndEncryptOptional source compressor crypter).1.term ≠ Err.EOF) := by
  have hmsg : ∀ s : String, Err.msg s ≠ Err.EOF := fun s h => by cases h
  refine ⟨rfl, ?_, ?_, ?_, ?_, ?_⟩
  · intro h
    have h1 : (CompressAndEncryptOptional source compressor crypter).1 =
        { data := [], term := e } :=
      pipeProducer_encrypt_error source compressor crypter e h
    exact ⟨h1, fun hne => by rw [h1]; exact hne⟩
  · intro z dst hz h hn
    subst hz
    have h1 : (CompressAndEncryptOptional source (some z) crypter).1 =
        { data := dst.out, term := e } :=
      pipeProducer_writer_error source z crypter dst e h hn
    exact ⟨h1, fun hne => by rw [h1]; exact hne⟩
  · intro dst hz h hc
    subst hz
    have h1 : (CompressAndEncryptOptional source none crypter).1 =
        { data := (copyToDst dst source.blocks).1.out,
          term := Err.msg ("copy: " ++ e.Error) } :=
      pipeProducer_copy_error source crypter dst e h hc
    exact ⟨h1, by rw [h1]; exact hmsg _⟩
  · intro z st dst hz h hn hc
    subst hz
    have h1 : (CompressAndEncryptOptional source (some z) crypter).1 =
        { data := (copyToComp z st dst source.blocks).2.1.out,
          term := Err.msg ("copy: " ++ e.Error) } :=
      pipeProducer_comp_copy_error source z st crypter dst e h hn hc
    exact ⟨h1, by rw [h1]; exact hmsg _⟩
  · intro env password salt hcomp hcrypt he hne
    have h1 : (CompressAndEncryptOptional source compressor crypter).1.term =
        Err.msg ("copy: " ++ e.Error) :=
      pipeProducer_source_error env password salt source compressor crypter e
        hcomp hcrypt he hne
    exact ⟨h1, by rw [h1]; exact hmsg _⟩

theorem C12_producer_error_reaches_consumer_witness :
    ((CompressAndEncryptOptional ⟨[[1], [2]], Err.EOF⟩ none
        (some (NewChunkedGCMCrypter noRandEnv "secret"))).1 =
      { data := [], term := Err.msg "no entropy" } ∧
     (Err.msg "no entropy" ≠ Err.EOF →
      (CompressAndEncryptOptional ⟨[[1], [2]], Err.EOF⟩ none
        (some (NewChunkedGCMCrypter noRandEnv "secret"))).1.term ≠ Err.EOF)) ∧
    ((CompressAndEncryptOptional ⟨[[1], [2]], Err.EOF⟩ (some noWriterCompressor) none).1 =
      { data := (Dst.pipe Sink.buffer).out, term := Err.msg "new writer failed" } ∧
     (Err.msg "new writer failed" ≠ Err.EOF →
      (CompressAndEncryptOptional ⟨[[1], [2]], Err.EOF⟩ (some noWriterCompressor) none
        ).1.term ≠ Err.EOF)) ∧
    ((CompressAndEncryptOptional ⟨[[1], [2]], Err.msg "bad read"⟩ none none).1 =
      { data := (copyToDst (Dst.pipe Sink.buffer) [[1], [2]]).1.out,
        term := Err.msg ("copy: " ++ (Err.msg "bad read").Error) } ∧
     (CompressAndEncryptOptional ⟨[[1], [2]], Err.msg "bad read"⟩ none none).1.term
        ≠ Err.EOF) ∧
    ((CompressAndEncryptOptional ⟨[[1], [2]], Err.msg "bad read"⟩ (some copyCompressor)
        (some (NewChunkedGCMCrypter toyEnv "secret"))).1.term =
      Err.msg ("copy: " ++ (Err.msg "bad read").Error) ∧
     (CompressAndEncryptOptional ⟨[[1], [2]], Err.msg "bad read"⟩ (some copyCompressor)
        (some (NewChunkedGCMCrypter toyEnv "secret"))).1.term ≠ Err.EOF) :=
  ⟨(C12_producer_error_reaches_consumer ⟨[[1], [2]], Err.EOF⟩ none
      (some (NewChunkedGCMCrypter noRandEnv "secret")) (Err.msg "no entropy")).2.1 rfl,
    (C12_producer_error_reaches_consumer ⟨[[1], [2]], Err.EOF⟩ (some noWriterCompressor)
      none (Err.msg "new writer failed")).2.2.1 noWriterCompressor (Dst.pipe Sink.buffer)
      rfl rfl rfl,
    (C12_producer_error_reaches_consumer ⟨[[1], [2]], Err.msg "bad read"⟩ none none
      (Err.msg "bad read")).2.2.2.1 (Dst.pipe Sink.buffer) rfl rfl rfl,
    (C12_producer_error_reaches_consumer ⟨[[1], [2]], Err.msg "bad read"⟩
      (some copyCompressor) (some (NewChunkedGCMCrypter toyEnv "secret"))
      (Err.msg "bad read")).2.2.2.2.2 toyEnv "secret" (List.replicate 16 7)
      (Or.inr ⟨copyCompressor, (), rfl, rfl, fun _ _ => rfl⟩) (Or.inr ⟨rfl, rfl⟩) rfl
      (by decide)⟩

/-- C13 counterexample. A compressor whose `Flush` and `Close` both return an error,
after a copy that succeeded: the consumer reads the bytes and a clean end of stream, and
neither error. -/
theorem C13_close_error_dropped_counterexample :
    badCloseCompressor.NewWriter = .ok () ∧
    (badCloseCompressor.Flush ()).2.2 = some (Err.msg "flush failed") ∧
    (badCloseCompressor.Close ()).2.2 = some (Err.msg "close failed") ∧
    CompressAndEncryptOptional ⟨[[1, 2]], Err.EOF⟩ (some badCloseCompressor) none =
      ({ data := [1, 2], term := Err.EOF }, none) :=
  ⟨rfl, rfl, rfl, rfl⟩

theorem pipeProducer_plain_ok (source : Reader) (crypter : Option Crypter) (dst : Dst)
    (h : wrapEncryption crypter = .ok dst)
    (hc : copyResult (copyToDst dst source.blocks).2 source.term = none) :
    pipeProducer source none crypter =
      { data := (copyToDst dst source.blocks).1.closeEnc.out, term := Err.EOF } := by
  rcases wrapEncryption_cases crypter with ⟨rfl, h1⟩ | ⟨c, e1, _, _, h1⟩ | ⟨c, g, rfl, h0, h1⟩
  · rw [h1] at h; cases h
    simp only [pipeProducer, hc]
  · rw [h1] at h; cases h
  · rw [h1] at h; cases h
    simp only [pipeProducer, h0, Except.map, hc]

theorem pipeProducer_comp_ok (source : Reader) (z : Compressor) (st : z.State)
    (crypter : Option Crypter) (dst : Dst)
    (h : wrapEncryption crypter = .ok dst) (hn : z.NewWriter = .ok st)
    (hc : copyResult (copyToComp z st dst source.blocks).2.2 source.term = none) :
    pipeProducer source (some z) crypter =
      { data := (producerClose z st dst source.blocks).2.1.closeEnc.out,
        term := Err.EOF } := by
  rcases wrapEncryption_cases crypter with ⟨rfl, h1⟩ | ⟨c, e1, _, _, h1⟩ | ⟨c, g, rfl, h0, h1⟩
  · rw [h1] at h; cases h
    simp only [pipeProducer, hn, hc, producerClose, producerFlush]
  · rw [h1] at h; cases h
  · rw [h1] at h; cases h
    simp only [pipeProducer, h0, Except.map, hn, hc, producerClose, producerFlush]

/-- C13, amended. When the copy has succeeded and then the compressor's `Flush` or
`Close`, or the encryptor's `Close`, returns an error `e`, the error is dropped: the
producer closes the pipe normally, and the consumer reads whatever bytes the layers did
put into the pipe and then a clean end of stream, not `e`. -/
theorem C13_flush_close_error_is_dropped (source : Reader) (compressor : Option Compressor)
    (crypter : Option Crypter) (dst : Dst) (e : Err)
    (hw : wrapEncryption crypter = .ok dst) :
    (∀ z st, compressor = some z → z.NewWriter = .ok st →
      copyResult (copyToComp z st dst source.blocks).2.2 source.term = none →
      ((producerFlush z st dst source.blocks).2.2 = some e ∨
        (producerClose z st dst source.blocks).2.2 = some e ∨
        (producerClose z st dst source.blocks).2.1.closeErr = some e) →
      CompressAndEncryptOptional source compressor crypter =
        ({ data := (producerClose z st dst source.blocks).2.1.closeEnc.out,
           term := Err.EOF }, none)) ∧
    (compressor = none →
      copyResult (copyToDst dst source.blocks).2 source.term = none →
      (copyToDst dst source.blocks).1.closeErr = some e →
      CompressAndEncryptOptional source compressor crypter =
        ({ data := (copyToDst dst source.blocks).1.closeEnc.out, term := Err.EOF },
          none)) := by
  refine ⟨fun z st hz hn hc _ => ?_, fun hz hc _ => ?_⟩
  · subst hz
    simp only [CompressAndEncryptOptional, pipeProducer_comp_ok source z st crypter dst hw hn hc]
  · subst hz
    simp only [CompressAndEncryptOptional, pipeProducer_plain_ok source crypter dst hw hc]

theorem C13_flush_close_error_is_dropped_witness :
    wrapEncryption (some stuckPipeCrypter) =
      .ok (Dst.enc stuckWriter) ∧
    copyResult (copyToDst (Dst.enc stuckWriter) [[1, 2]]).2 Err.EOF = none ∧
    (copyToDst (Dst.enc stuckWriter) [[1, 2]]).1.closeErr = some errSinkFull ∧
    (copyToDst (Dst.enc stuckWriter) [[1, 2]]).1.closeEnc.out = [] ∧
    CompressAndEncryptOptional ⟨[[1, 2]], Err.EOF⟩ none (some stuckPipeCrypter) =
      ({ data := (copyToDst (Dst.enc stuckWriter) [[1, 2]]).1.closeEnc.out, term := Err.EOF }, none) ∧
    (producerClose badCloseCompressor () (Dst.pipe Sink.buffer) [[1, 2]]).2.2 =
      some (Err.msg "close failed") ∧
    CompressAndEncryptOptional ⟨[[1, 2]], Err.EOF⟩ (some badCloseCompressor) none =
      ({ data := (producerClose badCloseCompressor () (Dst.pipe Sink.buffer)
           [[1, 2]]).2.1.closeEnc.out, term := Err.EOF }, none) :=
  ⟨rfl, rfl, rfl, rfl,
    (C13_flush_close_error_is_dropped ⟨[[1, 2]], Err.EOF⟩ none (some stuckPipeCrypter)
      (Dst.enc stuckWriter) errSinkFull rfl).2 rfl rfl rfl,
    rfl,
    (C13_flush_close_error_is_dropped ⟨[[1, 2]], Err.EOF⟩ (some badCloseCompressor) none
      (Dst.pipe Sink.buffer) (Err.msg "close failed") rfl).1 badCloseCompressor () rfl rfl
      rfl (Or.inr (Or.inl rfl))⟩

/-- C14 counterexample. A source that is itself an `io.ReadCloser` whose `Close` fails:
with no crypter and no decompressor the reader returned is that source, so its `Close`
closes the source and returns the source's error. -/
theorem C14_source_closer_returned_counterexample :
    DecryptAndDecompressOptional 1
        (AnyReader.closer
          { id := 0, Reader := bytesReader [1, 2], closeErr := some (Err.msg "close failed") })
        none none =
      .ok { id := 0, Reader := bytesReader [1, 2], closeErr := some (Err.msg "close failed") } ∧
    (NewMultiCloser (bytesReader [1, 2])
        [{ id := 0, Reader := bytesReader [1, 2],
           closeErr := some (Err.msg "close failed") }]).Close =
      ([0], Outcome.returned (some (Err.msg "close failed"))) :=
  ⟨rfl, rfl⟩

/-- C14, amended. With no crypter and no decompressor `DecryptAndDecompressOptional`
returns without an error a closable reader that delivers exactly the source's stream;
for a source that is only a reader it is a new object whose `Close` returns nil and
closes nothing; for a source that is itself closable it is the source, whose `Close` is
the source's own. -/
theorem C14_plain_pipeline_returns_source (fresh : Nat) (reader : AnyReader) :
    ∃ rc, DecryptAndDecompressOptional fresh reader none none = .ok rc ∧
      rc.Reader = reader.Reader ∧
      (∀ r, reader = AnyReader.plain r → rc.id = fresh ∧ rc.closeErr = none) ∧
      (∀ src, reader = AnyReader.closer src → rc = src) := by
  cases reader with
  | plain r =>
    refine ⟨⟨fresh, r, none, true⟩, rfl, rfl, fun _ _ => ⟨rfl, rfl⟩, fun src h => ?_⟩
    cases h
  | closer src =>
    refine ⟨src, rfl, rfl, fun r h => ?_, fun src2 h => ?_⟩
    · cases h
    · cases h; rfl

theorem C14_plain_pipeline_returns_source_witness :
    ∃ rc, DecryptAndDecompressOptional 7 (AnyReader.plain (bytesReader [1, 2])) none none
        = .ok rc ∧
      rc.Reader = (AnyReader.plain (bytesReader [1, 2])).Reader ∧
      (∀ r, AnyReader.plain (bytesReader [1, 2]) = AnyReader.plain r →
        rc.id = 7 ∧ rc.closeErr = none) ∧
      (∀ src, AnyReader.plain (bytesReader [1, 2]) = AnyReader.closer src → rc = src) :=
  C14_plain_pipeline_returns_source 7 (AnyReader.plain (bytesReader [1, 2]))

/-! ### The writer: splits, lengths, counters -/

theorem length_frames (a : AEAD) (ha : a.Lawful) (M : List Bytes) (k : Nat) :
    (frames a k M).length = M.flatten.length + (nonceSize + a.Overhead) * M.length := by
  induction M generalizing k with
  | nil => simp [frames]
  | cons c cs ih =>
    rw [frames, List.length_append, length_frame a ha, length_nonceOf, ih (k + 1),
      List.flatten_cons, List.length_append, List.length_cons, Nat.mul_succ]
    omega

theorem length_lastChunk (b : Bytes) :
    (lastChunk b).length = if b.length > 0 then 1 else 0 := by
  unfold lastChunk
  split <;> rfl

/-- A byte sequence is cut into whole chunks and a shorter rest in one way only. -/
theorem chunks_unique (L : List Bytes) :
    ∀ (L2 : List Bytes) (b b2 : Bytes), (∀ x ∈ L, x.length = chunkSize) →
      (∀ x ∈ L2, x.length = chunkSize) → b.length < chunkSize → b2.length < chunkSize →
      L.flatten ++ b = L2.flatten ++ b2 → L = L2 ∧ b = b2 := by
  induction L with
  | nil =>
    intro L2 b b2 _ h2 hb hb2 he
    cases L2 with
    | nil => exact ⟨rfl, by simpa using he⟩
    | cons c cs =>
      have hc := h2 c (List.mem_cons_self _ _)
      have hl := congrArg List.length he
      simp only [List.flatten_nil, List.nil_append, List.flatten_cons, List.length_append] at hl
      omega
  | cons c cs ih =>
    intro L2 b b2 h1 h2 hb hb2 he
    have hc := h1 c (List.mem_cons_self _ _)
    cases L2 with
    | nil =>
      have hl := congrArg List.length he
      simp only [List.flatten_nil, List.nil_append, List.flatten_cons, List.length_append] at hl
      omega
    | cons c2 cs2 =>
      have hc2 := h2 c2 (List.mem_cons_self _ _)
      simp only [List.flatten_cons, List.append_assoc] at he
      obtain ⟨e1, e2⟩ := List.append_inj he (by rw [hc, hc2])
      obtain ⟨e3, e4⟩ := ih cs2 b b2 (fun x hx => h1 x (List.mem_cons_of_mem _ hx))
        (fun x hx => h2 x (List.mem_cons_of_mem _ hx)) hb hb2 e2
      exact ⟨by rw [e1, e3], e4⟩

/-- Two writers over the same AEAD that have taken the same bytes are the same. -/
theorem WInv.unique {g1 g2 : gcmChunkedWriter} {hdr : Bytes} {L1 L2 : List Bytes}
    (h1 : WInv g1 hdr L1) (h2 : WInv g2 hdr L2) (ha : g1.aead = g2.aead)
    (hb1 : g1.buf.length < chunkSize) (hb2 : g2.buf.length < chunkSize)
    (he : L1.flatten ++ g1.buf = L2.flatten ++ g2.buf) : g1 = g2 := by
  obtain ⟨e1, e2⟩ := chunks_unique L1 L2 g1.buf g2.buf h1.full h2.full hb1 hb2 he
  subst e1
  have hout : g1.w.out = g2.w.out := by rw [h1.out, h2.out, ha]
  have hroom : g1.w.room = g2.w.room := by rw [h1.room, h2.room]
  have hnum : g1.chunkNum = g2.chunkNum := by rw [h1.num, h2.num]
  cases g1 with
  | mk a1 w1 b1 n1 =>
    cases g2 with
    | mk a2 w2 b2 n2 =>
      cases w1; cases w2
      simp only at ha e2 hout hroom hnum
      subst ha e2 hout hroom hnum
      rfl

theorem gcmChunkedWriter.Write_Write (hdr : Bytes) (g : gcmChunkedWriter) (L : List Bytes)
    (hinv : WInv g hdr L) (hb : g.buf.length < chunkSize) (a b : Bytes) :
    g.Write a = ((g.Write a).1, a.length, none) ∧
    (g.Write a).1.Write b = (((g.Write a).1.Write b).1, b.length, none) ∧
    g.Write (a ++ b) = ((g.Write (a ++ b)).1, (a ++ b).length, none) ∧
    ((g.Write a).1.Write b).1 = (g.Write (a ++ b)).1 := by
  obtain ⟨g1, L1, h1, i1, b1, a1, e1⟩ := gcmChunkedWriter.Write_inv hdr g a L hinv hb
  obtain ⟨g2, L2, h2, i2, b2, a2, e2⟩ := gcmChunkedWriter.Write_inv hdr g1 b L1 i1 b1
  obtain ⟨g3, L3, h3, i3, b3, a3, e3⟩ := gcmChunkedWriter.Write_inv hdr g (a ++ b) L hinv hb
  have q1 : (g.Write a).1 = g1 := by rw [h1]
  have q3 : (g.Write (a ++ b)).1 = g3 := by rw [h3]
  have q2 : ((g.Write a).1.Write b).1 = g2 := by rw [q1, h2]
  refine ⟨by rw [h1], by rw [q1, h2], by rw [h3], ?_⟩
  rw [q2, q3]
  exact WInv.unique i2 i3 (by rw [a2, a1, a3]) b2 b3
    (by rw [e2, e1, e3]; simp only [List.append_assoc])

/-- C26. For every salt of 16 bytes and every two passwords: `Encrypt` under the first
password followed by `Close` with no `Write` puts 22 bytes in the sink, the magic and
the salt; `Decrypt` under the second password accepts them, and the first `Read` of its
reader, with a buffer of any size, returns zero bytes and `io.EOF`. -/
theorem C26_empty_stream_any_password (env : Env) (pw1 pw2 : String) (salt : Bytes)
    (plen : Nat) (hr : env.rand = .ok salt) (hs : salt.length = saltSize) :
    encryptTo env ⟨pw1⟩ Sink.buffer [] =
        .ok { out := headerPrefix ++ salt, room := none } ∧
      (headerPrefix ++ salt).length = 22 ∧
      ∃ g, ChunkedGCMCrypter.Decrypt env ⟨pw2⟩ (bytesReader (headerPrefix ++ salt)) = .ok g ∧
        ∃ g1, g.Read plen = (g1, [], some Err.EOF) := by
  refine ⟨?_, ?_, ?_⟩
  · have he := ChunkedGCMCrypter.Encrypt_ok env ⟨pw1⟩ Sink.buffer salt hr rfl
    simp only [encryptTo, he, gcmChunkedWriter.writeAll, gcmChunkedWriter.Close]
    rfl
  · rw [List.length_append, hs]; rfl
  · have hd := ChunkedGCMCrypter.Decrypt_header env ⟨pw2⟩ salt [] Err.EOF hs
    rw [List.append_nil] at hd
    refine ⟨_, hd, _, gcmChunkedReader.Read_error _ plen { data := [], term := Err.EOF }
      Err.EOF rfl ?_⟩
    exact readChunk_nil _ _ rfl

theorem C26_empty_stream_any_password_witness :
    toyEnv.rand = .ok (List.replicate 16 7) ∧ (List.replicate 16 (7 : Byte)).length = saltSize ∧
    (encryptTo toyEnv ⟨"right"⟩ Sink.buffer [] =
        .ok { out := headerPrefix ++ List.replicate 16 7, room := none } ∧
      (headerPrefix ++ List.replicate 16 (7 : Byte)).length = 22 ∧
      ∃ g, ChunkedGCMCrypter.Decrypt toyEnv ⟨"wrong"⟩
          (bytesReader (headerPrefix ++ List.replicate 16 7)) = .ok g ∧
        ∃ g1, g.Read 4096 = (g1, [], some Err.EOF)) :=
  ⟨rfl, rfl, C26_empty_stream_any_password toyEnv "right" "wrong" (List.replicate 16 7)
    4096 rfl rfl⟩

/-- C29. For the writer returned by `Encrypt` over a sink that accepts every write,
after any earlier writes: `Write(a)` followed by `Write(b)` leaves the same writer
(buffer, chunk counter, sink contents) as the single call `Write(a ++ b)`, and each of
the three calls returns the length of its argument and a nil error. -/
theorem C29_write_split_independent (env : Env) (c : ChunkedGCMCrypter) (salt : Bytes)
    (earlier : List Bytes) (a b : Bytes) (hr : env.rand = .ok salt) :
    ∃ g, c.Encrypt env Sink.buffer = .ok g ∧
      ((g.writeAll earlier).1.Write a).2 = (a.length, none) ∧
      (((g.writeAll earlier).1.Write a).1.Write b).2 = (b.length, none) ∧
      ((g.writeAll earlier).1.Write (a ++ b)).2 = (a.length + b.length, none) ∧
      (((g.writeAll earlier).1.Write a).1.Write b).1 =
        ((g.writeAll earlier).1.Write (a ++ b)).1 ∧
      (((g.writeAll earlier).1.Write a).1.Write b).1.buf =
        ((g.writeAll earlier).1.Write (a ++ b)).1.buf ∧
      (((g.writeAll earlier).1.Write a).1.Write b).1.chunkNum =
        ((g.writeAll earlier).1.Write (a ++ b)).1.chunkNum ∧
      (((g.writeAll earlier).1.Write a).1.Write b).1.w.out =
        ((g.writeAll earlier).1.Write (a ++ b)).1.w.out := by
  have he := ChunkedGCMCrypter.Encrypt_ok env c Sink.buffer salt hr rfl
  have hcs : (0:Nat) < chunkSize := by simp [chunkSize]
  obtain ⟨g1, L1, h1, h2, h3, _, _⟩ := gcmChunkedWriter.writeAll_inv
    (headerPrefix ++ salt) earlier
    { aead := env.newAEAD c.Password salt,
      w := { out := Sink.buffer.out ++ headerPrefix ++ salt, room := none },
      buf := [], chunkNum := 0 } []
    ⟨rfl, by simp [frames, Sink.buffer], by simp, by simp⟩ (by simpa using hcs)
  obtain ⟨k1, k2, k3, k4⟩ := gcmChunkedWriter.Write_Write (headerPrefix ++ salt) g1 L1 h2 h3 a b
  refine ⟨_, he, ?_⟩
  rw [h1]
  simp only []
  exact ⟨by rw [k1], by rw [k2], by rw [k3, List.length_append], k4, by rw [k4], by rw [k4],
    by rw [k4]⟩

theorem C29_write_split_independent_witness :
    toyEnv.rand = .ok (List.replicate 16 7) ∧
    ∃ g, ChunkedGCMCrypter.Encrypt toyEnv ⟨"secret"⟩ Sink.buffer = .ok g ∧
      ((g.writeAll [[9]]).1.Write [1, 2]).2 = (([1, 2] : Bytes).length, none) ∧
      (((g.writeAll [[9]]).1.Write [1, 2]).1.Write [3]).2 = (([3] : Bytes).length, none) ∧
      ((g.writeAll [[9]]).1.Write ([1, 2] ++ [3])).2 =
        (([1, 2] : Bytes).length + ([3] : Bytes).length, none) ∧
      (((g.writeAll [[9]]).1.Write [1, 2]).1.Write [3]).1 =
        ((g.writeAll [[9]]).1.Write ([1, 2] ++ [3])).1 ∧
      (((g.writeAll [[9]]).1.Write [1, 2]).1.Write [3]).1.buf =
        ((g.writeAll [[9]]).1.Write ([1, 2] ++ [3])).1.buf ∧
      (((g.writeAll [[9]]).1.Write [1, 2]).1.Write [3]).1.chunkNum =
        ((g.writeAll [[9]]).1.Write ([1, 2] ++ [3])).1.chunkNum ∧
      (((g.writeAll [[9]]).1.Write [1, 2]).1.Write [3]).1.w.out =
        ((g.writeAll [[9]]).1.Write ([1, 2] ++ [3])).1.w.out :=
  ⟨rfl, C29_write_split_independent toyEnv ⟨"secret"⟩ (List.replicate 16 7) [[9]]
    [1, 2] [3] rfl⟩

/-- C30. For a plaintext of `n` bytes, however it is split into writes, a salt of 16
bytes and an AEAD with a 16-byte tag, the stream that `Encrypt`, the writes and `Close`
put in the sink has exactly `22 + n + 28 * ceil(n / 65536)` bytes, which is more than
`n`. -/
theorem C30_stream_length (env : Env) (c : ChunkedGCMCrypter) (salt : Bytes)
    (writes : List Bytes) (hr : env.rand = .ok salt) (hs : salt.length = saltSize)
    (ha : (env.newAEAD c.Password salt).Lawful)
    (ho : (env.newAEAD c.Password salt).Overhead = 16) :
    ∃ S, encryptTo env c Sink.buffer writes = .ok S ∧
      S.out.length = 22 + writes.flatten.length +
        28 * ((writes.flatten.length + 65535) / 65536) ∧
      writes.flatten.length < S.out.length := by
  obtain ⟨L, b, h1, h2, h3, h4⟩ := encryptTo_eq env c salt writes hr
  have hlen : (headerPrefix ++ salt ++
      frames (env.newAEAD c.Password salt) 0 (L ++ lastChunk b)).length =
      22 + writes.flatten.length + 28 * ((writes.flatten.length + 65535) / 65536) := by
    have hn : writes.flatten.length = chunkSize * L.length + b.length := by
      rw [← h4, List.length_append, length_flatten_full L h2]
    rw [List.length_append, List.length_append, hs, length_frames _ ha, flatten_lastChunk,
      h4, List.length_append, length_lastChunk, ho, hn]
    simp only [chunkSize, nonceSize, saltSize, headerPrefix, List.length_cons,
      List.length_nil] at *
    split <;> omega
  refine ⟨_, h1, hlen, ?_⟩
  show _ < (headerPrefix ++ salt ++
      frames (env.newAEAD c.Password salt) 0 (L ++ lastChunk b)).length
  rw [hlen]
  omega

theorem C30_stream_length_witness :
    toyEnv.rand = .ok (List.replicate 16 7) ∧ (List.replicate 16 (7 : Byte)).length = saltSize ∧
    (toyEnv.newAEAD "secret" (List.replicate 16 7)).Lawful ∧
    (toyEnv.newAEAD "secret" (List.replicate 16 7)).Overhead = 16 ∧
    ∃ S, encryptTo toyEnv ⟨"secret"⟩ Sink.buffer [[1, 2, 3], [4, 5]] = .ok S ∧
      S.out.length = 22 + [[1, 2, 3], [4, (5 : Byte)]].flatten.length +
        28 * (([[1, 2, 3], [4, (5 : Byte)]].flatten.length + 65535) / 65536) ∧
      [[1, 2, 3], [4, (5 : Byte)]].flatten.length < S.out.length :=
  ⟨rfl, rfl, toyAEAD_lawful, rfl,
    C30_stream_length toyEnv ⟨"secret"⟩ (List.replicate 16 7) [[1, 2, 3], [4, 5]] rfl rfl
      toyAEAD_lawful rfl⟩

/-! ### The reader at a chunk boundary, and chunks out of order -/

theorem gcmChunkedReader.Read_exhausted (g : gcmChunkedReader) (plen : Nat)
    (hb : g.buf = []) (hd : g.r.data = []) (ht : g.r.term = Err.EOF) :
    g.Read plen = (g, [], some Err.EOF) := by
  have h := gcmChunkedReader.Read_error g plen g.r Err.EOF hb
    (by rw [readChunk_nil _ _ hd, ht])
  rw [h]

theorem specChunk_take (P : Bytes) (i j : Nat) (h : i < j) :
    specChunk (P.take (65536 * j)) i = specChunk P i := by
  unfold specChunk
  rw [List.take_take, List.length_take]
  congr 2
  omega

theorem flatMap_range_congr {β : Type} (f g : Nat → List β) (n : Nat)
    (h : ∀ i, i < n → f i = g i) :
    (List.range n).flatMap f = (List.range n).flatMap g := by
  induction n with
  | zero => rfl
  | succ n ih =>
    rw [List.range_succ, List.flatMap_append, List.flatMap_append,
      ih (fun i hi => h i (Nat.lt_succ_of_lt hi))]
    simp only [List.flatMap_cons, List.flatMap_nil, List.append_nil]
    rw [h n (Nat.lt_succ_self n)]

/-- The header and the first `j` chunks of the stream of `P` are the stream of the first
`65536 * j` bytes of `P`. -/
theorem specStream_take (a : AEAD) (salt P : Bytes) (j : Nat)
    (hj : j ≤ (P.length + 65535) / 65536) :
    headerPrefix ++ salt ++
      (List.range j).flatMap (fun i => specNonce i ++ a.Seal (specNonce i) (specChunk P i)) =
    specStream a salt (P.take (65536 * j)) := by
  have hn : ((P.take (65536 * j)).length + 65535) / 65536 = j := by
    rw [List.length_take]
    omega
  unfold specStream
  rw [hn]
  congr 1
  exact flatMap_range_congr _ _ j (fun i hi => by rw [specChunk_take P i j hi])

theorem Decrypt_specStream_delivers (env : Env) (c : ChunkedGCMCrypter) (salt X : Bytes)
    (hr : env.rand = .ok salt) (hs : salt.length = saltSize)
    (ha : (env.newAEAD c.Password salt).Lawful) :
    ∃ g, c.Decrypt env (bytesReader (specStream (env.newAEAD c.Password salt) salt X)) = .ok g ∧
      gcmChunkedReader.Delivers g X Err.EOF := by
  obtain ⟨g, h1, h2⟩ := Decrypt_specStream env c.Password salt X hr hs ha
  refine ⟨g, h1, ?_⟩
  have h3 := gcmChunkedReader.Delivers_stream g
  rw [h2] at h3
  exact h3

/-- C22. A `Read` on a reader whose buffer is empty and whose source is used up returns
zero bytes and `io.EOF`. So for the encrypted stream of a plaintext `P` (header, salt
and the chunks `0 .. ceil(n/65536) - 1`) and every `j` up to the number of chunks, the
header followed by the first `j` chunks only is accepted by `Decrypt`, and a caller
reading until the first error receives exactly the first `min(65536 * j, n)` bytes of
`P` and then `io.EOF`. -/
theorem C22_clean_end_at_chunk_boundary (env : Env) (c : ChunkedGCMCrypter) (salt : Bytes)
    (P : Bytes) (j : Nat) (hr : env.rand = .ok salt) (hs : salt.length = saltSize)
    (ha : (env.newAEAD c.Password salt).Lawful) (hj : j ≤ (P.length + 65535) / 65536) :
    (∀ (g : gcmChunkedReader) (plen : Nat), g.buf = [] → g.r.data = [] →
        g.r.term = Err.EOF → g.Read plen = (g, [], some Err.EOF)) ∧
    encryptTo env c Sink.buffer [P] =
      .ok { out := headerPrefix ++ salt ++
              (List.range ((P.length + 65535) / 65536)).flatMap
                (fun i => specNonce i ++
                  (env.newAEAD c.Password salt).Seal (specNonce i) (specChunk P i)),
            room := none } ∧
    ∃ g, c.Decrypt env (bytesReader (headerPrefix ++ salt ++
          (List.range j).flatMap
            (fun i => specNonce i ++
              (env.newAEAD c.Password salt).Seal (specNonce i) (specChunk P i)))) = .ok g ∧
      ∀ sizes : Nat → Nat, (∀ k, 0 < sizes k) →
        ∃ N, ∀ fuel, N ≤ fuel →
          g.readAll sizes fuel = some (P.take (min (65536 * j) P.length), Err.EOF) := by
  refine ⟨fun g plen hb hd ht => gcmChunkedReader.Read_exhausted g plen hb hd ht, ?_, ?_⟩
  · have h := encryptTo_specStream env c salt [P] hr
    simp only [List.flatten_cons, List.flatten_nil, List.append_nil] at h
    exact h
  · rw [specStream_take _ salt P j hj]
    obtain ⟨g, h1, h2⟩ := Decrypt_specStream_delivers env c salt (P.take (65536 * j)) hr hs ha
    refine ⟨g, h1, ?_⟩
    have ht : P.take (min (65536 * j) P.length) = P.take (65536 * j) := by
      rw [List.take_eq_take]
      omega
    rw [ht]
    exact h2

theorem C22_clean_end_at_chunk_boundary_witness :
    toyEnv.rand = .ok (List.replicate 16 7) ∧ (List.replicate 16 (7 : Byte)).length = saltSize ∧
    (toyEnv.newAEAD "secret" (List.replicate 16 7)).Lawful ∧
    1 ≤ (([1, 2, 3] : Bytes).length + 65535) / 65536 ∧
    ((∀ (g : gcmChunkedReader) (plen : Nat), g.buf = [] → g.r.data = [] →
        g.r.term = Err.EOF → g.Read plen = (g, [], some Err.EOF)) ∧
    encryptTo toyEnv ⟨"secret"⟩ Sink.buffer [[1, 2, 3]] =
      .ok { out := headerPrefix ++ List.replicate 16 7 ++
              (List.range ((([1, 2, 3] : Bytes).length + 65535) / 65536)).flatMap
                (fun i => specNonce i ++
                  (toyEnv.newAEAD "secret" (List.replicate 16 7)).Seal (specNonce i)
                    (specChunk [1, 2, 3] i)),
            room := none } ∧
    ∃ g, ChunkedGCMCrypter.Decrypt toyEnv ⟨"secret"⟩
        (bytesReader (headerPrefix ++ List.replicate 16 7 ++
          (List.range 1).flatMap
            (fun i => specNonce i ++
              (toyEnv.newAEAD "secret" (List.replicate 16 7)).Seal (specNonce i)
                (specChunk [1, 2, 3] i)))) = .ok g ∧
      ∀ sizes : Nat → Nat, (∀ k, 0 < sizes k) →
        ∃ N, ∀ fuel, N ≤ fuel →
          g.readAll sizes fuel =
            some (([1, 2, 3] : Bytes).take (min (65536 * 1) ([1, 2, 3] : Bytes).length),
              Err.EOF)) :=
  ⟨rfl, rfl, toyAEAD_lawful, by decide,
    C22_clean_end_at_chunk_boundary toyEnv ⟨"secret"⟩ (List.replicate 16 7) [1, 2, 3] 1
      rfl rfl toyAEAD_lawful (by decide)⟩

theorem Framed_cons_full (n c : Bytes) (rest : List (Bytes × Bytes))
    (hn : n.length = nonceSize) (hc : c.length = chunkSize) (hr : Framed rest) :
    Framed ((n, c) :: rest) := by
  cases rest with
  | nil => exact ⟨hn, Nat.le_of_eq hc⟩
  | cons nc rest2 => exact ⟨hn, hc, hr⟩

theorem swap_blocks (H F0 F1 T : Bytes) (n m : Nat) (hH : H.length = n)
    (h0 : F0.length = m) (h1 : F1.length = m) :
    (H ++ (F0 ++ (F1 ++ T))).take n ++
      ((H ++ (F0 ++ (F1 ++ T))).drop (n + m)).take m ++
      ((H ++ (F0 ++ (F1 ++ T))).drop n).take m ++
      (H ++ (F0 ++ (F1 ++ T))).drop (n + 2 * m) = H ++ (F1 ++ (F0 ++ T)) := by
  have e1 : (H ++ (F0 ++ (F1 ++ T))).take n = H := List.take_left' hH
  have e2 : (H ++ (F0 ++ (F1 ++ T))).drop n = F0 ++ (F1 ++ T) := List.drop_left' hH
  have e3 : (H ++ (F0 ++ (F1 ++ T))).drop (n + m) = F1 ++ T := by
    rw [← List.drop_drop, e2, List.drop_left' h0]
  have e4 : (H ++ (F0 ++ (F1 ++ T))).drop (n + 2 * m) = T := by
    rw [show n + 2 * m = n + m + m by omega, ← List.drop_drop, e3, List.drop_left' h1]
  rw [e1, e2, e3, e4, List.take_left' h0, List.take_left' h1]
  simp only [List.append_assoc]

theorem two_full_chunks (L : List Bytes) (b P : Bytes) (h : ∀ x ∈ L, x.length = chunkSize)
    (hb : b.length < chunkSize) (he : L.flatten ++ b = P) (hlen : 131072 ≤ P.length) :
    ∃ c0 c1 L2, L = c0 :: c1 :: L2 ∧ c0 = P.take 65536 ∧ c1 = (P.drop 65536).take 65536 ∧
      L2.flatten ++ b = P.drop 131072 := by
  have hl : P.length = chunkSize * L.length + b.length := by
    rw [← he, List.length_append, length_flatten_full L h]
  have hcs : chunkSize = 65536 := rfl
  cases L with
  | nil => simp only [List.length_nil] at hl; omega
  | cons c0 L1 =>
    cases L1 with
    | nil => simp only [List.length_cons, List.length_nil] at hl; omega
    | cons c1 L2 =>
      have h0 : c0.length = 65536 := h c0 (List.mem_cons_self _ _)
      have h1 : c1.length = 65536 :=
        h c1 (List.mem_cons_of_mem _ (List.mem_cons_self _ _))
      refine ⟨c0, c1, L2, rfl, ?_, ?_, ?_⟩
      · rw [← he]
        simp only [List.flatten_cons, List.append_assoc]
        rw [List.take_left' h0]
      · rw [← he]
        simp only [List.flatten_cons, List.append_assoc]
        rw [List.drop_left' h0, List.take_left' h1]
      · rw [← he]
        simp only [List.flatten_cons, List.append_assoc]
        rw [show (131072 : Nat) = 65536 + 65536 by rfl, ← List.drop_drop,
          List.drop_left' h0, List.drop_left' h1]

/-- C25. For a plaintext of at least 131072 bytes, exchange the first two chunks of its
encrypted stream (each a 12-byte nonce followed by 65536 sealed bytes and the tag, 65564
bytes in all for a 16-byte tag). `Decrypt` accepts the result, and a caller reading
until the first error receives the second 65536-byte block of the plaintext, then the
first, then the rest, and `io.EOF`: the reader never compares a nonce with its
counter. -/
theorem C25_chunk_order_not_checked (env : Env) (c : ChunkedGCMCrypter) (salt : Bytes)
    (writes : List Bytes) (hr : env.rand = .ok salt) (hs : salt.length = saltSize)
    (ha : (env.newAEAD c.Password salt).Lawful) (hlen : 131072 ≤ writes.flatten.length) :
    ((env.newAEAD c.Password salt).Overhead = 16 →
      frameSize (env.newAEAD c.Password salt) = 12 + 65552) ∧
    ∃ S g, encryptTo env c Sink.buffer writes = .ok S ∧
      c.Decrypt env
        (bytesReader (swapFirstTwoChunks (env.newAEAD c.Password salt) S.out)) = .ok g ∧
      ∀ sizes : Nat → Nat, (∀ k, 0 < sizes k) →
        ∃ N, ∀ fuel, N ≤ fuel →
          g.readAll sizes fuel =
            some ((writes.flatten.drop 65536).take 65536 ++ writes.flatten.take 65536 ++
              writes.flatten.drop 131072, Err.EOF) := by
  refine ⟨fun ho => by rw [frameSize, ho]; rfl, ?_⟩
  obtain ⟨L, b, h1, h2, h3, h4⟩ := encryptTo_eq env c salt writes hr
  obtain ⟨c0, c1, L2, hL, e0, e1, e2⟩ := two_full_chunks L b _ h2 h3 h4 hlen
  subst hL
  have hc0 : c0.length = chunkSize := h2 c0 (List.mem_cons_self _ _)
  have hc1 : c1.length = chunkSize :=
    h2 c1 (List.mem_cons_of_mem _ (List.mem_cons_self _ _))
  have hL2 : ∀ x ∈ L2, x.length = chunkSize := fun x hx =>
    h2 x (List.mem_cons_of_mem _ (List.mem_cons_of_mem _ hx))
  have hfs : ∀ (k : Nat) (x : Bytes), x.length = chunkSize →
      (frame (env.newAEAD c.Password salt) (nonceOf k) x).length =
        frameSize (env.newAEAD c.Password salt) := by
    intro k x hx
    rw [length_frame _ ha, length_nonceOf, hx, frameSize]
  have hsw : swapFirstTwoChunks (env.newAEAD c.Password salt)
      (headerPrefix ++ salt ++
        frames (env.newAEAD c.Password salt) 0 (c0 :: c1 :: L2 ++ lastChunk b)) =
      headerPrefix ++ salt ++ wire (env.newAEAD c.Password salt)
        ((nonceOf 1, c1) :: (nonceOf 0, c0) :: numbered 2 (L2 ++ lastChunk b)) := by
    unfold swapFirstTwoChunks
    simp only [List.cons_append, frames, wire, Nat.zero_add]
    rw [swap_blocks (headerPrefix ++ salt) _ _ _ _ _ (by rw [List.length_append, hs])
      (hfs 0 c0 hc0) (hfs 1 c1 hc1), frames_eq_wire]
    rfl
  refine ⟨_,
    { aead := env.newAEAD c.Password salt,
      r := { data := wire (env.newAEAD c.Password salt)
               ((nonceOf 1, c1) :: (nonceOf 0, c0) :: numbered 2 (L2 ++ lastChunk b)),
             term := Err.EOF },
      chunkNum := 0, buf := [] }, h1, ?_, ?_⟩
  · show c.Decrypt env (bytesReader (swapFirstTwoChunks _ (headerPrefix ++ salt ++ _))) = _
    rw [hsw]
    exact ChunkedGCMCrypter.Decrypt_header env c salt _ Err.EOF hs
  · have hfr : Framed ((nonceOf 1, c1) :: (nonceOf 0, c0) ::
        numbered 2 (L2 ++ lastChunk b)) :=
      Framed_cons_full _ _ _ (length_nonceOf 1) hc1
        (Framed_cons_full _ _ _ (length_nonceOf 0) hc0
          (Framed_numbered_lastChunk L2 b 2 hL2 (Nat.le_of_lt h3)))
    have ho := openChunks_wire _ ha _
      ((wire (env.newAEAD c.Password salt)
        ((nonceOf 1, c1) :: (nonceOf 0, c0) :: numbered 2 (L2 ++ lastChunk b))).length + 1)
      { data := wire (env.newAEAD c.Password salt)
          ((nonceOf 1, c1) :: (nonceOf 0, c0) :: numbered 2 (L2 ++ lastChunk b)),
        term := Err.EOF }
      hfr rfl rfl (Nat.lt_succ_self _)
    have hd := gcmChunkedReader.Delivers_openChunks (env.newAEAD c.Password salt) _
      { data := wire (env.newAEAD c.Password salt)
          ((nonceOf 1, c1) :: (nonceOf 0, c0) :: numbered 2 (L2 ++ lastChunk b)),
        term := Err.EOF }
      0 (Nat.lt_succ_self _)
    rw [ho] at hd
    simp only [List.map_cons, map_snd_numbered, List.flatten_cons, flatten_lastChunk] at hd
    rw [← e0, ← e1, ← e2, List.append_assoc]
    exact hd

theorem C25_chunk_order_not_checked_witness :
    toyEnv.rand = .ok (List.replicate 16 7) ∧ (List.replicate 16 (7 : Byte)).length = saltSize ∧
    (toyEnv.newAEAD "secret" (List.replicate 16 7)).Lawful ∧
    131072 ≤ [onesChunk, onesChunk, [2, 3]].flatten.length ∧
    (((toyEnv.newAEAD "secret" (List.replicate 16 7)).Overhead = 16 →
      frameSize (toyEnv.newAEAD "secret" (List.replicate 16 7)) = 12 + 65552) ∧
    ∃ S g, encryptTo toyEnv ⟨"secret"⟩ Sink.buffer [onesChunk, onesChunk, [2, 3]] = .ok S ∧
      ChunkedGCMCrypter.Decrypt toyEnv ⟨"secret"⟩
        (bytesReader (swapFirstTwoChunks (toyEnv.newAEAD "secret" (List.replicate 16 7))
          S.out)) = .ok g ∧
      ∀ sizes : Nat → Nat, (∀ k, 0 < sizes k) →
        ∃ N, ∀ fuel, N ≤ fuel →
          g.readAll sizes fuel =
            some (([onesChunk, onesChunk, [2, 3]].flatten.drop 65536).take 65536 ++
              [onesChunk, onesChunk, [2, 3]].flatten.take 65536 ++
              [onesChunk, onesChunk, [2, 3]].flatten.drop 131072, Err.EOF)) :=
  have hlen : 131072 ≤ [onesChunk, onesChunk, [2, 3]].flatten.length := by
    simp only [List.flatten_cons, List.flatten_nil, List.length_append, onesChunk_length,
      List.length_cons, List.length_nil]
    omega
  ⟨rfl, rfl, toyAEAD_lawful, hlen,
    C25_chunk_order_not_checked toyEnv ⟨"secret"⟩ (List.replicate 16 7)
      [onesChunk, onesChunk, [2, 3]] rfl rfl toyAEAD_lawful hlen⟩

/-! ### The chunk counter -/

theorem counterOf_nonceOf (k : Nat) : counterOf (nonceOf k) = k % 2 ^ 64 := by
  simp only [counterOf, nonceOf, be64, nonceSize, List.replicate, List.take, List.cons_append,
    List.nil_append, List.drop, List.foldl, Fin.ofNat, Nat.zero_mul, Nat.zero_add]
  omega

theorem counters_numbered (L : List Bytes) (k : Nat) :
    (numbered k L).map (fun nc => counterOf nc.1) =
      (List.range L.length).map (fun i => (k + i) % 2 ^ 64) := by
  induction L generalizing k with
  | nil => rfl
  | cons c cs ih =>
    rw [numbered, List.map_cons, ih (k + 1), List.length_cons, List.range_succ_eq_map,
      List.map_cons, List.map_map, counterOf_nonceOf]
    congr 1
    apply List.map_congr_left
    intro i _
    simp only [Function.comp, Nat.succ_eq_add_one]
    congr 1
    omega

theorem counters_numbered_small (L : List Bytes) (h : L.length ≤ 2 ^ 64) :
    (numbered 0 L).map (fun nc => counterOf nc.1) = List.range L.length := by
  rw [counters_numbered]
  conv => rhs; rw [← List.map_id (List.range L.length)]
  apply List.map_congr_left
  intro i hi
  have h1 := List.mem_range.mp hi
  simp only [Nat.zero_add, id]
  exact Nat.mod_eq_of_lt (by omega)

theorem numbered_getElem (L : List Bytes) :
    ∀ (j k : Nat) (x : Bytes), L[k]? = some x → (numbered j L)[k]? = some (nonceOf (j + k), x) := by
  induction L with
  | nil => intro j k x h; simp at h
  | cons c cs ih =>
    intro j k x h
    cases k with
    | zero =>
      simp only [List.getElem?_cons_zero, Option.some.injEq] at h
      subst h
      simp [numbered]
    | succ k =>
      simp only [List.getElem?_cons_succ] at h
      have h2 := ih (j + 1) k x h
      simp only [numbered, List.getElem?_cons_succ, h2]
      congr 3
      omega

theorem Counted.replace_buf {g : gcmChunkedWriter} {hdr : Bytes} {L : List Bytes}
    (h : Counted g hdr L) (b : Bytes) : Counted { g with buf := b } hdr L :=
  ⟨h.room, h.out, h.num, h.sizes⟩

theorem gcmChunkedWriter.flush_counted {g : gcmChunkedWriter} {hdr : Bytes} {L : List Bytes}
    (h : Counted g hdr L) (hb : 0 < g.buf.length) (hb2 : g.buf.length ≤ chunkSize) :
    ∃ g2, g.flush = (g2, none) ∧ Counted g2 hdr (L ++ [g.buf]) ∧ g2.aead = g.aead ∧
      g2.buf = [] := by
  refine ⟨_, gcmChunkedWriter.flush_buffer g h.room, ⟨rfl, ?_, ?_, ?_⟩, rfl, rfl⟩
  · simp only [h.out, frames_append, frames, h.num, nonceOf_mod, List.append_assoc,
      List.append_nil, Nat.zero_add]
  · simp only [h.num, List.length_append, List.length_singleton]; omega
  · intro c hcm
    rcases List.mem_append.mp hcm with h1 | h1
    · exact h.sizes c h1
    · rw [List.mem_singleton.mp h1]; exact ⟨hb, hb2⟩

theorem gcmChunkedWriter.writeLoop_counted (hdr : Bytes) :
    ∀ (fuel : Nat) (g : gcmChunkedWriter) (p : Bytes) (total : Nat) (L : List Bytes),
      Counted g hdr L → g.buf.length < chunkSize → p.length < fuel →
      ∃ g1 L1, g.writeLoop fuel p total = (g1, total + p.length, none) ∧ Counted g1 hdr L1 ∧
        g1.buf.length < chunkSize ∧
        g1.aead = g.aead ∧ L1.flatten ++ g1.buf = L.flatten ++ g.buf ++ p := by
  intro fuel
  induction fuel with
  | zero => intro g p total L _ _ h; omega
  | succ fuel ih =>
    intro g p total L hinv hb hlt
    unfold gcmChunkedWriter.writeLoop
    have hcs : (0:Nat) < chunkSize := by simp [chunkSize]
    by_cases hp : p.length = 0
    · have hp2 : p = [] := List.length_eq_zero.mp hp
      subst hp2
      exact ⟨g, L, by simp, hinv, hb, rfl, by simp⟩
    · rw [if_neg hp, if_neg (by omega)]
      by_cases hsp : chunkSize - g.buf.length > p.length
      · simp only [if_pos hsp, List.take_length, List.length_append]
        rw [if_neg (by omega)]
        obtain ⟨g1, L1, h1, h2, h2b, h3, h4⟩ :=
          ih { g with buf := g.buf ++ p } (p.drop p.length) (total + p.length) L
            (hinv.replace_buf _) (by simp; omega) (by simp; omega)
        refine ⟨g1, L1, ?_, h2, h2b, h3, ?_⟩
        · rw [h1]; simp
        · rw [h4]; simp
      · simp only [if_neg hsp, List.length_append, List.length_take]
        have hmin : min (chunkSize - g.buf.length) p.length = chunkSize - g.buf.length := by
          omega
        rw [hmin, if_pos (by omega)]
        obtain ⟨g2, hf, hinv2, ha2, hb2⟩ := gcmChunkedWriter.flush_counted
          (hinv.replace_buf (g.buf ++ List.take (chunkSize - g.buf.length) p))
          (by simp; omega) (by simp; omega)
        rw [hf]
        simp only []
        obtain ⟨g1, L1, h1, h2, h2b, h3, h4⟩ :=
          ih g2 (p.drop (chunkSize - g.buf.length)) (total + (chunkSize - g.buf.length)) _
            hinv2 (by rw [hb2]; simpa using hcs) (by simp; omega)
        refine ⟨g1, L1, ?_, h2, h2b, h3.trans ha2, ?_⟩
        · rw [h1]; simp; omega
        · rw [h4, hb2]; simp

theorem gcmChunkedWriter.Write_counted (hdr : Bytes) (g : gcmChunkedWriter) (p : Bytes)
    (L : List Bytes) (hinv : Counted g hdr L) (hb : g.buf.length < chunkSize) :
    ∃ g1 L1, g.Write p = (g1, p.length, none) ∧ Counted g1 hdr L1 ∧
      g1.buf.length < chunkSize ∧ g1.aead = g.aead ∧
      L1.flatten ++ g1.buf = L.flatten ++ g.buf ++ p := by
  obtain ⟨g1, L1, h1, h2, h3, h4, h5⟩ :=
    gcmChunkedWriter.writeLoop_counted hdr (p.length + 2) g p 0 L hinv hb (by omega)
  exact ⟨g1, L1, by rw [gcmChunkedWriter.Write, h1, Nat.zero_add], h2, h3, h4, h5⟩

theorem gcmChunkedWriter.Close_counted (hdr : Bytes) (g : gcmChunkedWriter)
    (L : List Bytes) (hinv : Counted g hdr L) (hb : g.buf.length < chunkSize) :
    ∃ g1 L1, g.Close = (g1, none) ∧ Counted g1 hdr L1 ∧
      g1.buf.length < chunkSize ∧ g1.aead = g.aead ∧
      L1.flatten ++ g1.buf = L.flatten ++ g.buf := by
  unfold gcmChunkedWriter.Close
  by_cases h0 : g.buf.length > 0
  · obtain ⟨g2, hf, hinv2, ha2, hb2⟩ :=
      gcmChunkedWriter.flush_counted hinv h0 (Nat.le_of_lt hb)
    rw [if_pos h0, hf]
    refine ⟨g2, _, rfl, hinv2, ?_, ha2, ?_⟩
    · rw [hb2]; simp [chunkSize]
    · rw [hb2]; simp
  · rw [if_neg h0]
    exact ⟨g, L, rfl, hinv, hb, rfl, rfl⟩

theorem gcmChunkedWriter.run_counted (hdr : Bytes) (calls : List WriterCall) :
    ∀ (g : gcmChunkedWriter) (L : List Bytes), Counted g hdr L → g.buf.length < chunkSize →
      ∃ L1, Counted (g.run calls).1 hdr L1 ∧ (g.run calls).1.buf.length < chunkSize ∧
        (g.run calls).1.aead = g.aead ∧
        L1.flatten ++ (g.run calls).1.buf = L.flatten ++ g.buf ++ WriterCall.written calls ∧
        ∀ e ∈ (g.run calls).2, e = none := by
  induction calls with
  | nil =>
    intro g L hinv hb
    exact ⟨L, hinv, hb, rfl, by simp [WriterCall.written, gcmChunkedWriter.run],
      by simp [gcmChunkedWriter.run]⟩
  | cons call cs ih =>
    intro g L hinv hb
    cases call with
    | Write p =>
      obtain ⟨g1, L1, h1, h2, h3, h4, h5⟩ := gcmChunkedWriter.Write_counted hdr g p L hinv hb
      obtain ⟨L2, k1, k2, k3, k4, k5⟩ := ih g1 L1 h2 h3
      simp only [gcmChunkedWriter.run, h1, WriterCall.written]
      refine ⟨L2, k1, k2, k3.trans h4, ?_, ?_⟩
      · rw [k4, h5]; simp only [List.append_assoc]
      · intro e he
        rcases List.mem_cons.mp he with h6 | h6
        · exact h6
        · exact k5 e h6
    | Close =>
      obtain ⟨g1, L1, h1, h2, h3, h4, h5⟩ := gcmChunkedWriter.Close_counted hdr g L hinv hb
      obtain ⟨L2, k1, k2, k3, k4, k5⟩ := ih g1 L1 h2 h3
      simp only [gcmChunkedWriter.run, h1, WriterCall.written]
      refine ⟨L2, k1, k2, k3.trans h4, ?_, ?_⟩
      · rw [k4, h5]
      · intro e he
        rcases List.mem_cons.mp he with h6 | h6
        · exact h6
        · exact k5 e h6

/-- C21. For the writer returned by `Encrypt` over a sink that accepts every write, and
after any sequence of `Write` and `Close` calls: no call has returned an error; the sink
holds the header and the chunks emitted so far, a list `L` that with the buffer makes up
the plaintext written, the `k`-th of them under the nonce of counter `k`; and the
writer's counter is the number of chunks emitted (as a `uint64`, so modulo `2^64`). For
fewer than `2^64` chunks the counter is that number itself, the counters carried by the
nonces in the sink are `0, 1, ..., len(L) - 1` in this order, and no nonce occurs
twice. -/
theorem C21_counter_counts_chunks (env : Env) (c : ChunkedGCMCrypter) (salt : Bytes)
    (calls : List WriterCall) (hr : env.rand = .ok salt) :
    ∃ g, c.Encrypt env Sink.buffer = .ok g ∧ (∀ e ∈ (g.run calls).2, e = none) ∧
      ∃ L : List Bytes,
        (g.run calls).1.w.out =
          headerPrefix ++ salt ++ wire (env.newAEAD c.Password salt) (numbered 0 L) ∧
        L.flatten ++ (g.run calls).1.buf = WriterCall.written calls ∧
        (∀ x ∈ L, 0 < x.length ∧ x.length ≤ 65536) ∧
        (g.run calls).1.chunkNum = L.length % 2 ^ 64 ∧
        (∀ k x, L[k]? = some x → (numbered 0 L)[k]? = some ([0, 0, 0, 0] ++ be64 k, x)) ∧
        (L.length < 2 ^ 64 →
          (g.run calls).1.chunkNum = L.length ∧
          (numbered 0 L).map (fun nc => counterOf nc.1) = List.range L.length ∧
          ((numbered 0 L).map (fun nc => nc.1)).Nodup) := by
  have he := ChunkedGCMCrypter.Encrypt_ok env c Sink.buffer salt hr rfl
  have hcs : (0:Nat) < chunkSize := by simp [chunkSize]
  obtain ⟨L, h1, h2, h3, h4, h5⟩ := gcmChunkedWriter.run_counted (headerPrefix ++ salt) calls
    { aead := env.newAEAD c.Password salt,
      w := { out := Sink.buffer.out ++ headerPrefix ++ salt, room := none },
      buf := [], chunkNum := 0 } []
    ⟨rfl, by simp [frames, Sink.buffer], by simp, by simp⟩ (by simpa using hcs)
  refine ⟨_, he, h5, L, ?_, by simpa using h4, h1.sizes, h1.num, ?_, ?_⟩
  · rw [h1.out, h3, frames_eq_wire]
  · intro k x hk
    have h6 := numbered_getElem L 0 k x hk
    rw [Nat.zero_add, ← specNonce_eq] at h6
    exact h6
  · intro hlt
    have hc := counters_numbered_small L (Nat.le_of_lt hlt)
    refine ⟨by rw [h1.num, Nat.mod_eq_of_lt hlt], hc, ?_⟩
    have hnd : ((numbered 0 L).map (fun nc => counterOf nc.1)).Nodup := by
      rw [hc]; exact List.nodup_range _
    have hm : (numbered 0 L).map (fun nc => counterOf nc.1) =
        ((numbered 0 L).map (fun nc => nc.1)).map counterOf := by
      rw [List.map_map]; rfl
    rw [hm] at hnd
    exact List.Nodup.of_map _ hnd

theorem C21_counter_counts_chunks_witness :
    toyEnv.rand = .ok (List.replicate 16 7) ∧
    ∃ g, ChunkedGCMCrypter.Encrypt toyEnv ⟨"secret"⟩ Sink.buffer = .ok g ∧
      (∀ e ∈ (g.run [WriterCall.Write [1, 2], WriterCall.Close, WriterCall.Write [3]]).2,
        e = none) ∧
      ∃ L : List Bytes,
        (g.run [WriterCall.Write [1, 2], WriterCall.Close, WriterCall.Write [3]]).1.w.out =
          headerPrefix ++ List.replicate 16 7 ++
            wire (toyEnv.newAEAD "secret" (List.replicate 16 7)) (numbered 0 L) ∧
        L.flatten ++
            (g.run [WriterCall.Write [1, 2], WriterCall.Close, WriterCall.Write [3]]).1.buf =
          WriterCall.written [WriterCall.Write [1, 2], WriterCall.Close, WriterCall.Write [3]] ∧
        (∀ x ∈ L, 0 < x.length ∧ x.length ≤ 65536) ∧
        (g.run [WriterCall.Write [1, 2], WriterCall.Close, WriterCall.Write [3]]).1.chunkNum =
          L.length % 2 ^ 64 ∧
        (∀ k x, L[k]? = some x → (numbered 0 L)[k]? = some ([0, 0, 0, 0] ++ be64 k, x)) ∧
        (L.length < 2 ^ 64 →
          (g.run [WriterCall.Write [1, 2], WriterCall.Close, WriterCall.Write [3]]).1.chunkNum =
            L.length ∧
          (numbered 0 L).map (fun nc => counterOf nc.1) = List.range L.length ∧
          ((numbered 0 L).map (fun nc => nc.1)).Nodup) :=
  ⟨rfl, C21_counter_counts_chunks toyEnv ⟨"secret"⟩ (List.replicate 16 7)
    [WriterCall.Write [1, 2], WriterCall.Close, WriterCall.Write [3]] rfl⟩

/-! ### Names without a dot -/

theorem dropWhile_append_of_neg {α : Type} (p : α → Bool) (m n : List α) (hm : m ≠ [])
    (h : ∀ a ∈ m, ¬ p a = true) : (m ++ n).dropWhile p = m ++ n := by
  cases m with
  | nil => exact absurd rfl hm
  | cons a r => exact List.dropWhile_cons_of_neg (h a (List.mem_cons_self _ _))

theorem not_mem_afterLastSlash (l : GoString) : '/' ∉ afterLastSlash l := by
  intro h
  have h2 := List.mem_takeWhile_imp (List.mem_reverse.mp h)
  simp at h2

theorem afterLastSlash_append (l e : GoString) (he : '/' ∉ e) :
    afterLastSlash (l ++ e) = afterLastSlash l ++ e := by
  unfold afterLastSlash
  rw [List.reverse_append, List.takeWhile_append_of_pos, List.reverse_append,
    List.reverse_reverse]
  intro a ha
  have h1 : a ∈ e := List.mem_reverse.mp ha
  have h2 : a ≠ '/' := fun h => he (h ▸ h1)
  simpa using h2

/-- `Base` of a name that does not end in a slash is the text after its last slash. -/
theorem Base_append (l e : GoString) (hne : e ≠ []) (he : '/' ∉ e) :
    Base (l ++ e) = afterLastSlash l ++ e := by
  have hp : l ++ e ≠ [] := by
    intro h
    exact hne (List.append_eq_nil.mp h).2
  have hd : ((l ++ e).reverse.dropWhile (fun ch => decide (ch = Separator))) =
      (l ++ e).reverse := by
    rw [List.reverse_append]
    apply dropWhile_append_of_neg
    · intro h
      exact hne (List.reverse_eq_nil_iff.mp h)
    · intro a ha
      have h1 : a ∈ e := List.mem_reverse.mp ha
      have h2 : a ≠ '/' := fun h => he (h ▸ h1)
      simpa [Separator] using h2
  have hl : (((l ++ e).reverse.takeWhile (fun ch => decide (ch ≠ Separator))).reverse) =
      afterLastSlash l ++ e := by
    rw [← afterLastSlash_append l e he]
    rfl
  unfold Base
  rw [if_neg hp]
  simp only [hd, List.reverse_reverse, hl]
  rw [if_neg]
  intro h
  exact hne (List.append_eq_nil.mp h).2

theorem Base_cases (path : GoString) :
    Base path = ['.'] ∨ Base path = ['/'] ∨ '/' ∉ Base path := by
  unfold Base
  by_cases hp : path = []
  · exact Or.inl (by rw [if_pos hp])
  · rw [if_neg hp]
    simp only []
    split
    · exact Or.inr (Or.inl rfl)
    · refine Or.inr (Or.inr ?_)
      intro h
      have h2 := List.mem_takeWhile_imp (List.mem_reverse.mp h)
      simp [Separator] at h2

theorem Base_sublist (path : GoString) (hp : path ≠ []) (c : Char) (hc : c ≠ '/')
    (h : c ∈ Base path) : c ∈ path := by
  unfold Base at h
  rw [if_neg hp] at h
  simp only [] at h
  split at h
  · simp [Separator] at h
    exact absurd h hc
  · have h1 := (List.takeWhile_sublist _).subset (List.mem_reverse.mp h)
    have h2 := (List.dropWhile_sublist _).subset (List.mem_reverse.mp (List.mem_reverse.mp h1))
    exact List.mem_reverse.mp h2

/-- Where the first `c` of a string stands. -/
theorem first_occurrence (c : Char) (s : GoString) (h : c ∈ s) :
    ∃ pre post, s = pre ++ c :: post ∧ c ∉ pre ∧ s.indexOf c = pre.length := by
  have key : ∃ pre post, s = pre ++ c :: post ∧ c ∉ pre := by
    induction s with
    | nil => simp at h
    | cons a r ih =>
      by_cases ha : a = c
      · exact ⟨[], r, by rw [ha]; rfl, by simp⟩
      · have hr : c ∈ r := by
          rcases List.mem_cons.mp h with h3 | h3
          · exact absurd h3.symm ha
          · exact h3
        obtain ⟨pre, post, k1, k2⟩ := ih hr
        refine ⟨a :: pre, post, by rw [k1]; rfl, ?_⟩
        intro hm
        rcases List.mem_cons.mp hm with h3 | h3
        · exact ha h3.symm
        · exact k2 h3
  obtain ⟨pre, post, h1, h2⟩ := key
  refine ⟨pre, post, h1, h2, ?_⟩
  rw [h1, List.indexOf_append_of_not_mem h2, List.indexOf_cons_self, Nat.add_zero]

theorem extractCompoundExt_dot (name : GoString) (h : '.' ∈ Base name) :
    ∃ pre post, Base name = pre ++ '.' :: post ∧ '.' ∉ pre ∧
      extractCompoundExt name = '.' :: post := by
  obtain ⟨pre, post, h1, h2, h3⟩ := first_occurrence '.' (Base name) h
  refine ⟨pre, post, h1, h2, ?_⟩
  unfold extractCompoundExt IndexByte
  simp only [if_pos h, h3]
  rw [if_neg (by omega)]
  simp only [Int.toNat_ofNat]
  rw [h1, List.drop_left]

theorem extractCompoundExt_nodot (name : GoString) (h : '.' ∉ Base name) :
    extractCompoundExt name = [] := by
  unfold extractCompoundExt IndexByte
  simp only [if_neg h]
  rfl

theorem not_sep_mem_extractCompoundExt (name : GoString) :
    '/' ∉ extractCompoundExt name := by
  by_cases hd : '.' ∈ Base name
  · obtain ⟨pre, post, h1, _, h3⟩ := extractCompoundExt_dot name hd
    rw [h3]
    rcases Base_cases name with hb | hb | hb
    · rw [hb] at h1
      intro h
      have h4 : '/' ∈ pre ++ '.' :: post := List.mem_append_right _ h
      rw [← h1] at h4
      simp at h4
    · rw [hb] at hd
      simp at hd
    · intro h
      exact hb (by rw [h1]; exact List.mem_append_right _ h)
  · rw [extractCompoundExt_nodot name hd]
    simp

theorem TrimSuffix_append (l e : GoString) : TrimSuffix (l ++ e) e = l := by
  unfold TrimSuffix
  rw [if_pos (List.isSuffixOf_iff_suffix.mpr (List.suffix_append l e))]
  simp

theorem TrimSuffix_not_suffix (l e : GoString) (h : ¬ e <:+ l) : TrimSuffix l e = l := by
  unfold TrimSuffix
  rw [if_neg (fun hs => h (List.isSuffixOf_iff_suffix.mp hs))]

/-- A suffix without a slash lies in the text after the last slash. -/
theorem suffix_afterLastSlash (l e : GoString) (hs : e <:+ l) (he : '/' ∉ e) :
    ∀ c ∈ e, c ∈ afterLastSlash l := by
  obtain ⟨pre, hp⟩ := hs
  intro c hc
  rw [← hp, afterLastSlash_append pre e he]
  exact List.mem_append_right _ hc

theorem decodePath_append (repo : repoImpl) (l e : GoString)
    (hl : '.' ∉ afterLastSlash l)
    (he : e = [] ∨ ∃ t, e = '.' :: t ∧ '/' ∉ e) :
    repo.decodePath (l ++ e) = l := by
  rcases he with rfl | ⟨t, rfl, hs⟩
  · rw [List.append_nil]
    unfold repoImpl.decodePath
    simp only []
    split
    · rfl
    · rename_i hne
      apply TrimSuffix_not_suffix
      intro hsuf
      have hdot : '.' ∈ extractCompoundExt l := by
        by_cases hd : '.' ∈ Base l
        · obtain ⟨pre, post, _, _, h3⟩ := extractCompoundExt_dot l hd
          rw [h3]
          exact List.mem_cons_self _ _
        · exact absurd (extractCompoundExt_nodot l hd) hne
      exact hl (suffix_afterLastSlash l _ hsuf (not_sep_mem_extractCompoundExt l) '.' hdot)
  · have hb : Base (l ++ '.' :: t) = afterLastSlash l ++ '.' :: t :=
      Base_append l ('.' :: t) (by simp) hs
    have hd : '.' ∈ Base (l ++ '.' :: t) := by
      rw [hb]
      exact List.mem_append_right _ (List.mem_cons_self _ _)
    obtain ⟨pre, post, h1, h2, h3⟩ := extractCompoundExt_dot (l ++ '.' :: t) hd
    have hx : extractCompoundExt (l ++ '.' :: t) = '.' :: t := by
      rw [hb] at h1
      have hlen : (afterLastSlash l).length = pre.length := by
        rcases Nat.lt_trichotomy (afterLastSlash l).length pre.length with hlt | heq | hgt
        · exfalso
          have h4 := congrArg (fun s => s[(afterLastSlash l).length]?) h1
          simp only [List.getElem?_append_right (Nat.le_refl _), Nat.sub_self,
            List.getElem?_cons_zero, List.getElem?_append_left hlt] at h4
          exact h2 (List.getElem?_mem h4.symm)
        · exact heq
        · exfalso
          have h4 := congrArg (fun s => s[pre.length]?) h1
          simp only [List.getElem?_append_right (Nat.le_refl _), Nat.sub_self,
            List.getElem?_cons_zero, List.getElem?_append_left hgt] at h4
          exact hl (List.getElem?_mem h4)
      obtain ⟨_, e2⟩ := List.append_inj h1 hlen
      rw [h3, ← e2]
    unfold repoImpl.decodePath
    simp only [hx]
    rw [if_neg (by simp)]
    exact TrimSuffix_append l ('.' :: t)

/-- What `extractCompoundExt` and `decodePath` do, name by name. -/
theorem extractCompoundExt_spec (repo : repoImpl) (name : GoString) :
    ('.' ∈ Base name →
      ∃ pre post, Base name = pre ++ '.' :: post ∧ '.' ∉ pre ∧
        extractCompoundExt name = '.' :: post) ∧
    ('.' ∉ Base name → extractCompoundExt name = []) ∧
    (name ≠ [] → '.' ∉ name → extractCompoundExt name = []) ∧
    ('.' ∉ Base name → repo.decodePath name = name) ∧
    repo.decodePath [] = [] := by
  refine ⟨extractCompoundExt_dot name, extractCompoundExt_nodot name, ?_, ?_, ?_⟩
  · intro hne hd
    exact extractCompoundExt_nodot name
      (fun h => hd (Base_sublist name hne '.' (by decide) h))
  · intro hd
    unfold repoImpl.decodePath
    simp only [extractCompoundExt_nodot name hd, if_true]
  · have h := decodePath_append repo [] [] (by decide) (Or.inl rfl)
    simpa using h

/-- C24. The empty name contains no `'.'`, and `extractCompoundExt` returns `"."` for
it (`filepath.Base("")` is `"."`), where its comment and the claim say the empty string.
For every other name the claim holds: `extractCompoundExt` returns the part of
`filepath.Base(name)` that starts at its first `'.'`, the empty string when that has no
`'.'`, so for every name that is not empty and contains no `'.'`; and `decodePath`
returns unchanged every path whose `filepath.Base` has no `'.'`. -/
theorem C24_empty_name_gives_dot :
    '.' ∉ ([] : GoString) ∧ Base [] = ['.'] ∧ extractCompoundExt [] = ['.'] ∧
    extractCompoundExt [] ≠ [] ∧
    ∀ (repo : repoImpl) (name : GoString),
      ('.' ∈ Base name →
        ∃ pre post, Base name = pre ++ '.' :: post ∧ '.' ∉ pre ∧
          extractCompoundExt name = '.' :: post) ∧
      ('.' ∉ Base name → extractCompoundExt name = []) ∧
      (name ≠ [] → '.' ∉ name → extractCompoundExt name = []) ∧
      ('.' ∉ Base name → repo.decodePath name = name) :=
  ⟨by decide, by decide, by decide, by decide, fun repo name =>
    ⟨(extractCompoundExt_spec repo name).1, (extractCompoundExt_spec repo name).2.1,
      (extractCompoundExt_spec repo name).2.2.1, (extractCompoundExt_spec repo name).2.2.2.1⟩⟩

/-- C28. With `'/'` as the path separator, for a repository whose compressor and
crypter, when present, have extensions that begin with `'.'` and contain no `'/'`, and a
logical name whose text after its last `'/'` contains no `'.'` (the empty name and
names ending in `'/'` among them), `decodePath(encodePath(l)) = l`. -/
theorem C28_decode_inverts_encode (repo : repoImpl) (l : GoString)
    (hz : ∀ z, repo.compressor = some z →
      (∃ t, z.FileExtension = '.' :: t) ∧ '/' ∉ z.FileExtension)
    (hc : ∀ c, repo.crypter = some c →
      (∃ t, c.FileExtension = '.' :: t) ∧ '/' ∉ c.FileExtension)
    (hl : '.' ∉ afterLastSlash l) :
    repo.decodePath (repo.encodePath l) = l := by
  rw [repoImpl.encodePath_eq, List.append_assoc]
  apply decodePath_append repo l _ hl
  cases hzc : repo.compressor with
  | none =>
    cases hcc : repo.crypter with
    | none => exact Or.inl rfl
    | some c =>
      obtain ⟨⟨t, ht⟩, hs⟩ := hc c hcc
      exact Or.inr ⟨t, by simpa using ht, by simpa using hs⟩
  | some z =>
    obtain ⟨⟨t, ht⟩, hs⟩ := hz z hzc
    cases hcc : repo.crypter with
    | none => exact Or.inr ⟨t, by simpa using ht, by simpa using hs⟩
    | some c =>
      obtain ⟨⟨t2, ht2⟩, hs2⟩ := hc c hcc
      refine Or.inr ⟨t ++ c.FileExtension, by simp [ht], ?_⟩
      simp only [List.mem_append, not_or]
      exact ⟨hs, hs2⟩

theorem C28_decode_inverts_encode_witness :
    (∀ z, (NewWriteReader ⟨fun _ => none⟩ (some (GzipCompressor copyLib))
          (some (NewChunkedGCMCrypter toyEnv "secret"))).compressor = some z →
      (∃ t, z.FileExtension = '.' :: t) ∧ '/' ∉ z.FileExtension) ∧
    (∀ c, (NewWriteReader ⟨fun _ => none⟩ (some (GzipCompressor copyLib))
          (some (NewChunkedGCMCrypter toyEnv "secret"))).crypter = some c →
      (∃ t, c.FileExtension = '.' :: t) ∧ '/' ∉ c.FileExtension) ∧
    '.' ∉ afterLastSlash "pg.data/base/".toList ∧
    (NewWriteReader ⟨fun _ => none⟩ (some (GzipCompressor copyLib))
        (some (NewChunkedGCMCrypter toyEnv "secret"))).decodePath
      ((NewWriteReader ⟨fun _ => none⟩ (some (GzipCompressor copyLib))
        (some (NewChunkedGCMCrypter toyEnv "secret"))).encodePath "pg.data/base/".toList) =
      "pg.data/base/".toList :=
  have hz : ∀ z, (NewWriteReader ⟨fun _ => none⟩ (some (GzipCompressor copyLib))
          (some (NewChunkedGCMCrypter toyEnv "secret"))).compressor = some z →
      (∃ t, z.FileExtension = '.' :: t) ∧ '/' ∉ z.FileExtension := by
    intro z h
    cases h
    exact ⟨⟨_, rfl⟩, by decide⟩
  have hc : ∀ c, (NewWriteReader ⟨fun _ => none⟩ (some (GzipCompressor copyLib))
          (some (NewChunkedGCMCrypter toyEnv "secret"))).crypter = some c →
      (∃ t, c.FileExtension = '.' :: t) ∧ '/' ∉ c.FileExtension := by
    intro c h
    cases h
    exact ⟨⟨_, rfl⟩, by decide⟩
  ⟨hz, hc, by decide,
    C28_decode_inverts_encode
      (NewWriteReader ⟨fun _ => none⟩ (some (GzipCompressor copyLib))
        (some (NewChunkedGCMCrypter toyEnv "secret")))
      "pg.data/base/".toList hz hc (by decide)⟩

/-! ### Choosing the transforms -/

/-- C27. A `RepoEncryptor` that is not empty and not "aes-256-gcm" gives a nil crypter;
the function has no error result, it only logs a record, so the repository made from
its results has no crypter. A `RepoCompressor` that is not empty and neither "gzip" nor
"zstd" gives a nil compressor in the same way. For "aes-256-gcm", "gzip" and "zstd" the
transform returned has the configured string as its `Name()`. -/
theorem C27_unknown_transform_is_dropped (lib : CodecLib) (env : Env) (cfg : Config) :
    (cfg.RepoEncryptor ≠ [] → cfg.RepoEncryptor ≠ "aes-256-gcm".toList →
      (decideCompressorEncryptor lib env cfg).1.2 = none ∧
      (∀ s : Storage, (NewWriteReader s (decideCompressorEncryptor lib env cfg).1.1
          (decideCompressorEncryptor lib env cfg).1.2).crypter = none) ∧
      (⟨"ERROR", "boot", [("unknown-encryption", cfg.RepoEncryptor)]⟩ : LogRecord) ∈
        (decideCompressorEncryptor lib env cfg).2) ∧
    (cfg.RepoCompressor ≠ [] → cfg.RepoCompressor ≠ "gzip".toList →
      cfg.RepoCompressor ≠ "zstd".toList →
      (decideCompressorEncryptor lib env cfg).1.1 = none ∧
      (⟨"ERROR", "boot", [("unknown-compression", cfg.RepoCompressor)]⟩ : LogRecord) ∈
        (decideCompressorEncryptor lib env cfg).2) ∧
    (cfg.RepoEncryptor = "aes-256-gcm".toList →
      ∃ c, (decideCompressorEncryptor lib env cfg).1.2 = some c ∧
        c.Name = cfg.RepoEncryptor) ∧
    (cfg.RepoCompressor = "gzip".toList ∨ cfg.RepoCompressor = "zstd".toList →
      ∃ z, (decideCompressorEncryptor lib env cfg).1.1 = some z ∧
        z.Name = cfg.RepoCompressor) := by
  refine ⟨?_, ?_, ?_, ?_⟩
  · intro h1 h2
    have h3 : ¬ cfg.RepoEncryptor = RepoEncryptorAes256Gcm := h2
    have h4 : (decideCompressorEncryptor lib env cfg).1.2 = none := by
      simp only [decideCompressorEncryptor, ne_eq, h1, not_false_eq_true, if_true, h3, if_false]
    refine ⟨h4, fun s => h4, ?_⟩
    simp only [decideCompressorEncryptor, ne_eq, h1, not_false_eq_true, if_true, h3, if_false]
    simp
  · intro h1 h2 h3
    have h4 : ¬ cfg.RepoCompressor = RepoCompressorGzip := h2
    have h5 : ¬ cfg.RepoCompressor = RepoCompressorZstd := h3
    refine ⟨?_, ?_⟩
    · simp only [decideCompressorEncryptor, ne_eq, h1, not_false_eq_true, if_true, h4, h5,
        if_false]
    · simp only [decideCompressorEncryptor, ne_eq, h1, not_false_eq_true, if_true, h4, h5,
        if_false]
      simp
  · intro h1
    have h2 : cfg.RepoEncryptor ≠ [] := by rw [h1]; decide
    have h3 : cfg.RepoEncryptor = RepoEncryptorAes256Gcm := h1
    refine ⟨NewChunkedGCMCrypter env cfg.RepoEncryptionPass, ?_, h1.symm⟩
    have h5 : ¬ RepoEncryptorAes256Gcm = [] := by decide
    simp only [decideCompressorEncryptor, ne_eq, h3, h5, not_false_eq_true, if_true]
  · intro h1
    rcases h1 with h1 | h1
    · have h2 : cfg.RepoCompressor ≠ [] := by rw [h1]; decide
      have h3 : cfg.RepoCompressor = RepoCompressorGzip := h1
      refine ⟨GzipCompressor lib, ?_, h1.symm⟩
      have h5 : ¬ RepoCompressorGzip = [] := by decide
      simp only [decideCompressorEncryptor, ne_eq, h3, h5, not_false_eq_true, if_true]
    · have h2 : cfg.RepoCompressor ≠ [] := by rw [h1]; decide
      have h3 : cfg.RepoCompressor = RepoCompressorZstd := h1
      have h4 : ¬ RepoCompressorZstd = RepoCompressorGzip := by decide
      have h5 : ¬ RepoCompressorZstd = [] := by decide
      refine ⟨ZstdCompressor lib, ?_, h1.symm⟩
      simp only [decideCompressorEncryptor, ne_eq, h3, h4, h5, not_false_eq_true, if_true,
        if_false]

theorem C27_unknown_transform_is_dropped_witness :
    (decideCompressorEncryptor copyLib toyEnv
        ⟨"lz4".toList, "aes-128-cbc".toList, "secret"⟩).1.2 = none ∧
    (decideCompressorEncryptor copyLib toyEnv
        ⟨"lz4".toList, "aes-128-cbc".toList, "secret"⟩).1.1 = none ∧
    (∃ c, (decideCompressorEncryptor copyLib toyEnv
        ⟨"zstd".toList, "aes-256-gcm".toList, "secret"⟩).1.2 = some c ∧
      c.Name = "aes-256-gcm".toList) ∧
    (∃ z, (decideCompressorEncryptor copyLib toyEnv
        ⟨"zstd".toList, "aes-256-gcm".toList, "secret"⟩).1.1 = some z ∧
      z.Name = "zstd".toList) :=
  ⟨((C27_unknown_transform_is_dropped copyLib toyEnv
      ⟨"lz4".toList, "aes-128-cbc".toList, "secret"⟩).1 (by decide) (by decide)).1,
    ((C27_unknown_transform_is_dropped copyLib toyEnv
      ⟨"lz4".toList, "aes-128-cbc".toList, "secret"⟩).2.1 (by decide) (by decide)
        (by decide)).1,
    (C27_unknown_transform_is_dropped copyLib toyEnv
      ⟨"zstd".toList, "aes-256-gcm".toList, "secret"⟩).2.2.1 rfl,
    (C27_unknown_transform_is_dropped copyLib toyEnv
      ⟨"zstd".toList, "aes-256-gcm".toList, "secret"⟩).2.2.2 (Or.inr rfl)⟩

/-! ### The worker pool -/

theorem mem_enabled_main {R : Type} (n cap : Nat) (s : PoolState R) :
    Actor.main ∈ enabled n cap s ↔ mainEnabled n cap s = true := by
  unfold enabled
  by_cases h : mainEnabled n cap s = true
  · simp [h]
  · simp [h]

theorem mem_enabled_worker {R : Type} (n cap : Nat) (s : PoolState R) (k : Nat) :
    Actor.worker k ∈ enabled n cap s ↔ k < s.workers.length ∧ workerEnabled s k = true := by
  unfold enabled
  by_cases h : mainEnabled n cap s = true
  · simp [h]
  · simp [h]

theorem pick_mem (a : Actor) (rest : List Actor) (m : Nat) :
    (a :: rest).getD (m % (a :: rest).length) a ∈ a :: rest := by
  have h : m % (a :: rest).length < (a :: rest).length :=
    Nat.mod_lt _ (by simp)
  rw [List.getD_eq_getElem _ _ h]
  exact List.getElem_mem _

theorem getD_lt {α : Type} (ws : List α) (k : Nat) (d w : α) (h : ws.getD k d = w)
    (hne : w ≠ d) : k < ws.length := by
  by_contra hk
  rw [List.getD_eq_default _ _ (Nat.le_of_not_lt hk)] at h
  exact hne h.symm

theorem getD_mem {α : Type} (ws : List α) (k : Nat) (d : α) (hk : k < ws.length) :
    ws.getD k d ∈ ws := by
  rw [List.getD_eq_getElem _ _ hk]
  exact List.getElem_mem _

theorem mem_set_of_ne {α : Type} (ws : List α) (k : Nat) (d w w2 : α) (h : w ∈ ws)
    (hne : w ≠ ws.getD k d) : w ∈ ws.set k w2 := by
  induction ws generalizing k with
  | nil => simp at h
  | cons x xs ih =>
    cases k with
    | zero =>
      simp only [List.getD_cons_zero] at hne
      rcases List.mem_cons.mp h with h1 | h1
      · exact absurd h1 hne
      · simp [h1]
    | succ k =>
      simp only [List.getD_cons_succ] at hne
      rcases List.mem_cons.mp h with h1 | h1
      · simp [h1]
      · simp only [List.set_cons_succ, List.mem_cons]
        exact Or.inr (ih k h1 hne)

theorem mem_of_mem_set {α : Type} (ws : List α) (k : Nat) (w w2 : α)
    (h : w ∈ ws.set k w2) : w = w2 ∨ w ∈ ws := by
  induction ws generalizing k with
  | nil => simp at h
  | cons x xs ih =>
    cases k with
    | zero =>
      simp only [List.set_cons_zero, List.mem_cons] at h
      rcases h with h1 | h1
      · exact Or.inl h1
      · exact Or.inr (List.mem_cons_of_mem _ h1)
    | succ k =>
      simp only [List.set_cons_succ, List.mem_cons] at h
      rcases h with h1 | h1
      · exact Or.inr (by simp [h1])
      · rcases ih k h1 with h2 | h2
        · exact Or.inl h2
        · exact Or.inr (List.mem_cons_of_mem _ h2)

theorem mem_set_self {α : Type} (ws : List α) (k : Nat) (w : α) (hk : k < ws.length) :
    w ∈ ws.set k w := by
  induction ws generalizing k with
  | nil => simp at hk
  | cons x xs ih =>
    cases k with
    | zero => simp
    | succ k =>
      simp only [List.set_cons_succ, List.mem_cons]
      exact Or.inr (ih k (by simpa using hk))

theorem weight_set (ws : List WorkerState) (k : Nat) (w : WorkerState)
    (hk : k < ws.length) :
    ((ws.set k w).map workerWeight).sum + workerWeight (ws.getD k WorkerState.done) =
      (ws.map workerWeight).sum + workerWeight w := by
  induction ws generalizing k with
  | nil => simp at hk
  | cons x xs ih =>
    cases k with
    | zero => simp; omega
    | succ k =>
      have h := ih k (by simpa using hk)
      simp only [List.set_cons_succ, List.map_cons, List.sum_cons, List.getD_cons_succ]
      omega

theorem stepActor_busy {T R : Type} (tasks : List T) (taskFunc : T → R × Option Err)
    (cap : Nat) (s : PoolState R) (k index : Nat)
    (h : s.workers.getD k WorkerState.done = WorkerState.busy index) :
    stepActor tasks taskFunc cap s (Actor.worker k) =
      { s with outcomes := s.outcomes.set index ((tasks[index]?).map taskFunc),
               workers := s.workers.set k WorkerState.idle } := by
  unfold stepActor
  simp only [h]

theorem stepActor_receive {T R : Type} (tasks : List T) (taskFunc : T → R × Option Err)
    (cap : Nat) (s : PoolState R) (k index : Nat) (rest : List Nat)
    (h : s.workers.getD k WorkerState.done = WorkerState.idle)
    (hc : s.taskChan = index :: rest) :
    stepActor tasks taskFunc cap s (Actor.worker k) =
      { s with taskChan := rest, workers := s.workers.set k (WorkerState.busy index) } := by
  unfold stepActor
  simp only [h, hc]

theorem stepActor_return {T R : Type} (tasks : List T) (taskFunc : T → R × Option Err)
    (cap : Nat) (s : PoolState R) (k : Nat)
    (h : s.workers.getD k WorkerState.done = WorkerState.idle)
    (hc : s.taskChan = []) (hcl : s.closed = true) :
    stepActor tasks taskFunc cap s (Actor.worker k) =
      { s with workers := s.workers.set k WorkerState.done } := by
  unfold stepActor
  simp only [h, hc, hcl, if_true]

theorem stepActor_blocked {T R : Type} (tasks : List T) (taskFunc : T → R × Option Err)
    (cap : Nat) (s : PoolState R) (k : Nat)
    (h : s.workers.getD k WorkerState.done = WorkerState.idle)
    (hc : s.taskChan = []) (hcl : ¬ s.closed = true) :
    stepActor tasks taskFunc cap s (Actor.worker k) = s := by
  unfold stepActor
  simp only [h, hc, hcl, if_false]
  simp

theorem stepActor_done {T R : Type} (tasks : List T) (taskFunc : T → R × Option Err)
    (cap : Nat) (s : PoolState R) (k : Nat)
    (h : s.workers.getD k WorkerState.done = WorkerState.done) :
    stepActor tasks taskFunc cap s (Actor.worker k) = s := by
  unfold stepActor
  simp only [h]

/-- Every step of a goroutine that can move brings the end nearer. -/
theorem stepActor_measure {T R : Type} (tasks : List T) (taskFunc : T → R × Option Err)
    (cap : Nat) (s : PoolState R) (a : Actor) (ha : a ∈ enabled tasks.length cap s) :
    poolMeasure tasks.length (stepActor tasks taskFunc cap s a) <
      poolMeasure tasks.length s := by
  cases a with
  | main =>
    have h := (mem_enabled_main _ _ _).mp ha
    unfold mainEnabled at h
    unfold stepActor
    by_cases hn : s.next < tasks.length
    · rw [if_pos hn] at h
      have hc : s.taskChan.length < cap := of_decide_eq_true h
      simp only [if_pos hn, if_pos hc, poolMeasure, List.length_append, List.length_singleton]
      omega
    · rw [if_neg hn] at h
      have hc : s.closed = false := by simpa using h
      simp only [if_neg hn, hc, poolMeasure]
      simp
  | worker k =>
    obtain ⟨hk, h⟩ := (mem_enabled_worker _ _ _ _).mp ha
    unfold workerEnabled at h
    cases hw : s.workers.getD k WorkerState.done with
    | busy index =>
      have h2 := weight_set s.workers k WorkerState.idle hk
      rw [hw] at h2
      simp only [workerWeight] at h2
      rw [stepActor_busy tasks taskFunc cap s k index hw]
      simp only [poolMeasure]
      omega
    | idle =>
      rw [hw] at h
      have h2 := weight_set s.workers k
      rw [hw] at h2
      cases hc : s.taskChan with
      | nil =>
        rw [hc] at h
        have hcl : s.closed = true := by simpa using h
        have h3 := h2 WorkerState.done hk
        simp only [workerWeight] at h3
        rw [stepActor_return tasks taskFunc cap s k hw hc hcl]
        simp only [poolMeasure]
        omega
      | cons index rest =>
        have h3 := h2 (WorkerState.busy index) hk
        simp only [workerWeight] at h3
        rw [stepActor_receive tasks taskFunc cap s k index rest hw hc]
        simp only [poolMeasure, hc, List.length_cons]
        omega
    | done =>
      rw [hw] at h
      simp at h

/-- The invariant holds after every step. -/
theorem stepActor_inv {T R : Type} (tasks : List T) (taskFunc : T → R × Option Err)
    (cap count : Nat) (s : PoolState R) (a : Actor)
    (hinv : PoolInv tasks taskFunc count s) :
    PoolInv tasks taskFunc count (stepActor tasks taskFunc cap s a) := by
  cases a with
  | main =>
    unfold stepActor
    by_cases hn : s.next < tasks.length
    · rw [if_pos hn]
      by_cases hc : s.taskChan.length < cap
      · rw [if_pos hc]
        have hcl : ¬ s.closed = true := fun h => by
          have := hinv.closed_next h
          omega
        refine ⟨hinv.len, hn, fun h => absurd h hcl, ?_, ?_, hinv.workers⟩
        · intro i hi
          rcases hinv.pending i hi with h1 | h1 | h1 | h1
          · exact Or.inl h1
          · by_cases he : i = s.next
            · exact Or.inr (Or.inr (Or.inl (by simp [he])))
            · exact Or.inr (Or.inl (by simp only []; omega))
          · exact Or.inr (Or.inr (Or.inl (List.mem_append_left _ h1)))
          · exact Or.inr (Or.inr (Or.inr h1))
        · intro hd
          exact absurd (hinv.done_closed hd).2 hcl
      · rw [if_neg hc]
        exact hinv
    · rw [if_neg hn]
      by_cases hcl : s.closed = true
      · rw [if_pos hcl]
        exact hinv
      · rw [if_neg hcl]
        refine ⟨hinv.len, hinv.next_le, fun _ => ?_, hinv.pending, ?_, hinv.workers⟩
        · have := hinv.next_le
          simp only []
          omega
        · intro hd
          exact ⟨(hinv.done_closed hd).1, rfl⟩
  | worker k =>
    cases hw : s.workers.getD k WorkerState.done with
    | busy index =>
      rw [stepActor_busy tasks taskFunc cap s k index hw]
      refine ⟨by simp only [List.length_set]; exact hinv.len, hinv.next_le,
        hinv.closed_next, ?_, ?_, by simp only [List.length_set]; exact hinv.workers⟩
      · intro i hi
        by_cases he : index = i
        · subst he
          left
          simp only []
          rw [List.getElem?_set_self (by rw [hinv.len]; exact hi)]
        · rcases hinv.pending i hi with h1 | h1 | h1 | h1
          · left
            simp only []
            rw [List.getElem?_set_ne he]
            exact h1
          · exact Or.inr (Or.inl h1)
          · exact Or.inr (Or.inr (Or.inl h1))
          · refine Or.inr (Or.inr (Or.inr ?_))
            apply mem_set_of_ne s.workers k WorkerState.done _ _ h1
            rw [hw]
            intro h2
            cases h2
            exact he rfl
      · intro hd
        rcases mem_of_mem_set _ _ _ _ hd with h1 | h1
        · cases h1
        · exact hinv.done_closed h1
    | idle =>
      have hk : k < s.workers.length :=
        getD_lt s.workers k WorkerState.done _ hw (by simp)
      cases hc : s.taskChan with
      | nil =>
        by_cases hcl : s.closed = true
        · rw [stepActor_return tasks taskFunc cap s k hw hc hcl]
          refine ⟨hinv.len, hinv.next_le, hinv.closed_next, ?_, fun _ => ⟨hc, hcl⟩,
            by simp only [List.length_set]; exact hinv.workers⟩
          intro i hi
          rcases hinv.pending i hi with h1 | h1 | h1 | h1
          · exact Or.inl h1
          · exact Or.inr (Or.inl h1)
          · exact Or.inr (Or.inr (Or.inl h1))
          · refine Or.inr (Or.inr (Or.inr ?_))
            apply mem_set_of_ne s.workers k WorkerState.done _ _ h1
            rw [hw]
            simp
        · rw [stepActor_blocked tasks taskFunc cap s k hw hc hcl]
          exact hinv
      | cons index rest =>
        rw [stepActor_receive tasks taskFunc cap s k index rest hw hc]
        refine ⟨hinv.len, hinv.next_le, hinv.closed_next, ?_, ?_,
          by simp only [List.length_set]; exact hinv.workers⟩
        · intro i hi
          rcases hinv.pending i hi with h1 | h1 | h1 | h1
          · exact Or.inl h1
          · exact Or.inr (Or.inl h1)
          · rw [hc] at h1
            rcases List.mem_cons.mp h1 with h2 | h2
            · subst h2
              exact Or.inr (Or.inr (Or.inr (mem_set_self _ _ _ hk)))
            · exact Or.inr (Or.inr (Or.inl h2))
          · refine Or.inr (Or.inr (Or.inr ?_))
            apply mem_set_of_ne s.workers k WorkerState.done _ _ h1
            rw [hw]
            simp
        · intro hd
          rcases mem_of_mem_set _ _ _ _ hd with h1 | h1
          · cases h1
          · have := (hinv.done_closed h1).1
            rw [hc] at this
            cases this
    | done =>
      rw [stepActor_done tasks taskFunc cap s k hw]
      exact hinv

/-- When no goroutine can move, the channel is closed, every worker has returned and
every outcome is stored. -/
theorem pool_terminal {T R : Type} (tasks : List T) (taskFunc : T → R × Option Err)
    (cap count : Nat) (s : PoolState R) (hinv : PoolInv tasks taskFunc count s)
    (hcap : 0 < cap) (hcount : 0 < count) (hen : enabled tasks.length cap s = []) :
    s.closed = true ∧ (∀ w ∈ s.workers, w = WorkerState.done) ∧
      s.outcomes = tasks.map (fun t => some (taskFunc t)) := by
  have hmain : ¬ mainEnabled tasks.length cap s = true := by
    intro h
    have := (mem_enabled_main tasks.length cap s).mpr h
    rw [hen] at this
    cases this
  have hwork : ∀ k, k < s.workers.length → ¬ workerEnabled s k = true := by
    intro k hk h
    have := (mem_enabled_worker tasks.length cap s k).mpr ⟨hk, h⟩
    rw [hen] at this
    cases this
  have hlen : 0 < s.workers.length := by rw [hinv.workers]; exact hcount
  have hclosed : s.closed = true := by
    by_contra hcl
    unfold mainEnabled at hmain
    by_cases hn : s.next < tasks.length
    · rw [if_pos hn] at hmain
      have hfull : ¬ s.taskChan.length < cap := by simpa using hmain
      have hne : s.taskChan ≠ [] := by
        intro h
        rw [h] at hfull
        exact hfull hcap
      have h0 := hwork 0 hlen
      unfold workerEnabled at h0
      cases hw : s.workers.getD 0 WorkerState.done with
      | busy index => rw [hw] at h0; simp at h0
      | idle =>
        rw [hw] at h0
        cases hc : s.taskChan with
        | nil => exact hne hc
        | cons x xs => rw [hc] at h0; simp at h0
      | done =>
        have hm := getD_mem s.workers 0 WorkerState.done hlen
        rw [hw] at hm
        exact hne (hinv.done_closed hm).1
    · rw [if_neg hn] at hmain
      simp at hmain
      exact hcl hmain
  have hall : ∀ w ∈ s.workers, w = WorkerState.done := by
    intro w hw
    obtain ⟨k, hk, hget⟩ := List.getElem_of_mem hw
    have h0 := hwork k hk
    unfold workerEnabled at h0
    rw [List.getD_eq_getElem _ _ hk, hget] at h0
    cases w with
    | busy index => simp at h0
    | idle => simp [hclosed] at h0
    | done => rfl
  refine ⟨hclosed, hall, ?_⟩
  have hdone : WorkerState.done ∈ s.workers := by
    have hm := getD_mem s.workers 0 WorkerState.done hlen
    rw [hall _ hm] at hm
    exact hm
  have hchan := (hinv.done_closed hdone).1
  have hnext := hinv.closed_next hclosed
  apply List.ext_getElem?
  intro i
  by_cases hi : i < tasks.length
  · rcases hinv.pending i hi with h1 | h1 | h1 | h1
    · rw [h1, List.getElem?_map]
      rw [List.getElem?_eq_getElem hi]
      rfl
    · omega
    · rw [hchan] at h1
      cases h1
    · have := hall _ h1
      cases this
  · rw [List.getElem?_eq_none (by rw [hinv.len]; omega),
      List.getElem?_eq_none (by rw [List.length_map]; omega)]

/-- The goroutines stop within the number of steps the measure gives, whatever the
scheduler, in a state where none can move. -/
theorem runPool_terminal {T R : Type} (tasks : List T) (taskFunc : T → R × Option Err)
    (cap count : Nat) :
    ∀ (fuel : Nat) (sched : Nat → Nat) (s : PoolState R), PoolInv tasks taskFunc count s →
      poolMeasure tasks.length s ≤ fuel →
      PoolInv tasks taskFunc count (runPool tasks taskFunc cap fuel sched s) ∧
        enabled tasks.length cap (runPool tasks taskFunc cap fuel sched s) = [] := by
  intro fuel
  induction fuel with
  | zero =>
    intro sched s hinv hm
    refine ⟨hinv, ?_⟩
    show enabled tasks.length cap s = []
    cases he : enabled tasks.length cap s with
    | nil => rfl
    | cons a rest =>
      have ha : a ∈ enabled tasks.length cap s := by rw [he]; exact List.mem_cons_self _ _
      have := stepActor_measure tasks taskFunc cap s a ha
      omega
  | succ fuel ih =>
    intro sched s hinv hm
    cases he : enabled tasks.length cap s with
    | nil =>
      have hr : runPool tasks taskFunc cap (fuel + 1) sched s = s := by
        simp only [runPool, he]
      rw [hr]
      exact ⟨hinv, he⟩
    | cons a rest =>
      have hr : runPool tasks taskFunc cap (fuel + 1) sched s =
          runPool tasks taskFunc cap fuel (fun k => sched (k + 1))
            (stepActor tasks taskFunc cap s
              ((a :: rest).getD (sched 0 % (a :: rest).length) a)) := by
        simp only [runPool, he]
      rw [hr]
      have hp : (a :: rest).getD (sched 0 % (a :: rest).length) a ∈
          enabled tasks.length cap s := by
        rw [he]
        exact pick_mem a rest (sched 0)
      have hlt := stepActor_measure tasks taskFunc cap s _ hp
      exact ih _ _ (stepActor_inv tasks taskFunc cap count s _ hinv) (by omega)

theorem collectOutcomes_all {T R : Type} (tasks : List T) (taskFunc : T → R × Option Err)
    (filterFunc : Option (R → Bool)) :
    collectOutcomes filterFunc (tasks.map (fun t => some (taskFunc t))) =
      (specResults tasks taskFunc filterFunc, specErrors tasks taskFunc) := by
  induction tasks with
  | nil => rfl
  | cons t ts ih =>
    rw [List.map_cons]
    cases hf : taskFunc t with
    | mk result err =>
      cases err with
      | some e =>
        simp only [collectOutcomes, ih, specResults, specErrors, List.filter_cons, hf,
          Option.isNone_some, Bool.false_and, List.filterMap_cons]
        simp
      | none =>
        cases filterFunc with
        | none =>
          simp only [collectOutcomes, ih, specResults, specErrors, List.filter_cons, hf,
            Option.isNone_none, Bool.and_self, if_true, List.map_cons, List.filterMap_cons]
        | some keep =>
          by_cases hk : keep result = true
          · simp only [collectOutcomes, ih, specResults, specErrors, List.filter_cons, hf,
              Option.isNone_none, Bool.true_and, hk, if_true, List.map_cons,
              List.filterMap_cons]
          · simp only [collectOutcomes, ih, specResults, specErrors, List.filter_cons, hf,
              Option.isNone_none, Bool.true_and, hk, if_false, List.filterMap_cons]
            simp

theorem workerCount_pos (workerLimit : Int) : 0 < workerCount workerLimit := by
  unfold workerCount
  split
  · exact Nat.one_pos
  · omega

theorem pool_init_inv {T R : Type} (tasks : List T) (taskFunc : T → R × Option Err)
    (count : Nat) :
    PoolInv tasks taskFunc count
      ({ outcomes := List.replicate tasks.length none, taskChan := [], closed := false,
         next := 0, workers := List.replicate count WorkerState.idle } : PoolState R) := by
  refine ⟨by simp, Nat.zero_le _, fun h => (by cases h),
    fun i _ => Or.inr (Or.inl (Nat.zero_le _)), ?_, by simp⟩
  intro h
  have := List.eq_of_mem_replicate h
  cases this

theorem pool_init_measure {R : Type} (n count : Nat) :
    poolMeasure n
      ({ outcomes := List.replicate n none, taskChan := [], closed := false,
         next := 0, workers := List.replicate count WorkerState.idle } : PoolState R) =
      3 * n + count + 1 := by
  simp only [poolMeasure, List.length_nil, List.map_replicate, List.sum_replicate,
    workerWeight]
  simp
  omega

theorem intWrap_small (x : Int) (h0 : 0 ≤ x) (h1 : x < 2 ^ 63) : intWrap x = x := by
  unfold intWrap
  omega

theorem workerCount_cast (workerLimit : Int) :
    (if workerLimit < 1 then (1 : Int) else workerLimit) = (workerCount workerLimit : Int) := by
  unfold workerCount
  split
  · rfl
  · omega

theorem ProcessConcurrentlyWithResultAndLimit_eq {T R : Type} (maxChan : Nat)
    (sched : Nat → Nat) (workerLimit : Int) (tasks : List T) (taskFunc : T → R × Option Err)
    (filterFunc : Option (R → Bool)) (hmax : maxChan < 2 ^ 63)
    (hcap : workerCount workerLimit + 2 ≤ maxChan) :
    ProcessConcurrentlyWithResultAndLimit maxChan sched workerLimit tasks taskFunc filterFunc =
      some (Outcome.returned
        (specResults tasks taskFunc filterFunc, specErrors tasks taskFunc)) := by
  obtain ⟨hinv, hen⟩ := runPool_terminal tasks taskFunc (workerCount workerLimit + 2)
    (workerCount workerLimit) (3 * tasks.length + workerCount workerLimit + 1) sched _
    (pool_init_inv tasks taskFunc (workerCount workerLimit))
    (Nat.le_of_eq (pool_init_measure tasks.length (workerCount workerLimit)))
  obtain ⟨h1, h2, h3⟩ := pool_terminal tasks taskFunc _ _ _ hinv (by omega)
    (workerCount_pos workerLimit) hen
  have hsize : intWrap ((if workerLimit < 1 then (1 : Int) else workerLimit) + 2) =
      ((workerCount workerLimit + 2 : Nat) : Int) := by
    rw [workerCount_cast, intWrap_small _ (by omega) (by omega)]
    omega
  have hok : ¬ (((workerCount workerLimit + 2 : Nat) : Int) < 0 ∨
      (maxChan : Int) < ((workerCount workerLimit + 2 : Nat) : Int)) := by
    omega
  have hall : (runPool tasks taskFunc (workerCount workerLimit + 2)
      (3 * tasks.length + workerCount workerLimit + 1) sched
      { outcomes := List.replicate tasks.length none, taskChan := [], closed := false,
        next := 0, workers := List.replicate (workerCount workerLimit) WorkerState.idle
      }).workers.all (fun w => decide (w = WorkerState.done)) = true := by
    rw [List.all_eq_true]
    intro w hw
    exact decide_eq_true (h2 w hw)
  unfold ProcessConcurrentlyWithResultAndLimit
  simp only [hsize, if_neg hok, Int.toNat_ofNat, h1, h3, collectOutcomes_all, hall,
    Bool.and_self, if_true]

/-- C23 counterexample. With the largest `int` as worker limit, `workerLimit + 2` wraps
around to a negative number and `make(chan int, workerLimit+2)` panics: no results are
returned. -/
theorem C23_largest_limit_counterexample :
    intWrap ((2 ^ 63 - 1) + 2) = -(2 ^ 63) + 1 ∧
    ProcessConcurrentlyWithResultAndLimit (2 ^ 45) (fun k => k) (2 ^ 63 - 1) [1, 2, 3]
        (fun t : Nat => (2 * t, (none : Option Err))) none =
      some (Outcome.panicked errMakechan) ∧
    ProcessConcurrentlyWithResultAndLimit (2 ^ 45) (fun k => k) 1 [1, 2, 3]
        (fun t : Nat => (2 * t, (none : Option Err))) none =
      some (Outcome.returned ([2, 4, 6], [])) := by
  refine ⟨by decide, by decide, ?_⟩
  rw [ProcessConcurrentlyWithResultAndLimit_eq _ _ _ _ _ _ (by decide) (by decide)]
  rfl

/-- C23, amended. With a context that is never cancelled and a task function that is a
function of the task, for every worker limit for which `make` accepts a channel of
`workerLimit + 2` slots (the limit counted as 1 when it is below 1): whatever the
scheduler does, `ProcessConcurrentlyWithResultAndLimit` returns (the goroutines all end
within `3 * len(tasks) + workers + 1` steps), its results are the results of the tasks
whose function returned a nil error and that pass the filter, in task order, and its
errors are the non-nil errors, in task order. A worker limit below 1 gives what the
limit 1 gives, and two schedulers give the same. -/
theorem C23_results_in_task_order {T R : Type} (maxChan : Nat) (sched : Nat → Nat)
    (workerLimit : Int) (tasks : List T) (taskFunc : T → R × Option Err)
    (filterFunc : Option (R → Bool)) (hmax : maxChan < 2 ^ 63)
    (hcap : workerCount workerLimit + 2 ≤ maxChan) :
    ProcessConcurrentlyWithResultAndLimit maxChan sched workerLimit tasks taskFunc filterFunc =
      some (Outcome.returned
        ((tasks.filter (fun t => (taskFunc t).2.isNone &&
              (match filterFunc with
               | none => true
               | some keep => keep (taskFunc t).1))).map (fun t => (taskFunc t).1),
         tasks.filterMap (fun t => (taskFunc t).2))) ∧
    (workerLimit < 1 → workerCount workerLimit = 1 ∧
      ProcessConcurrentlyWithResultAndLimit maxChan sched workerLimit tasks taskFunc filterFunc =
        ProcessConcurrentlyWithResultAndLimit maxChan sched 1 tasks taskFunc filterFunc) ∧
    (∀ sched2 : Nat → Nat,
      ProcessConcurrentlyWithResultAndLimit maxChan sched2 workerLimit tasks taskFunc
          filterFunc =
        ProcessConcurrentlyWithResultAndLimit maxChan sched workerLimit tasks taskFunc
          filterFunc) := by
  refine ⟨ProcessConcurrentlyWithResultAndLimit_eq maxChan sched workerLimit tasks taskFunc
      filterFunc hmax hcap,
    fun h => ?_, fun sched2 => ?_⟩
  · have hone : workerCount workerLimit = 1 := by simp only [workerCount, if_pos h]
    refine ⟨hone, ?_⟩
    rw [ProcessConcurrentlyWithResultAndLimit_eq _ _ _ _ _ _ hmax hcap,
      ProcessConcurrentlyWithResultAndLimit_eq _ _ 1 _ _ _ hmax
        (by have h1 : workerCount 1 = 1 := rfl
            omega)]
  · rw [ProcessConcurrentlyWithResultAndLimit_eq _ _ _ _ _ _ hmax hcap,
      ProcessConcurrentlyWithResultAndLimit_eq _ _ _ _ _ _ hmax hcap]

theorem C23_results_in_task_order_witness :
    35184372088832 < 2 ^ 63 ∧ workerCount 2 + 2 ≤ 35184372088832 ∧
    ProcessConcurrentlyWithResultAndLimit 35184372088832 (fun k => 7 * k + 3) 2 [1, 2, 3, 4]
        (fun t : Nat => if t % 2 = 0 then (t * 10, none) else (0, some (Err.msg "odd")))
        (some (fun r => decide (20 < r))) =
      some (Outcome.returned ([40], [Err.msg "odd", Err.msg "odd"])) :=
  ⟨by decide, by decide,
    (C23_results_in_task_order 35184372088832 (fun k => 7 * k + 3) 2 [1, 2, 3, 4]
      (fun t : Nat => if t % 2 = 0 then (t * 10, none) else (0, some (Err.msg "odd")))
      (some (fun r => decide (20 < r))) (by decide) (by decide)).1.trans (by decide)⟩


end XRepo
